import Mathlib

/-!
Verification of the GBLN core (gbln-ffi repository) against its
specification.  The repository ships the C-callable header
(src/include/gbln.h) and the C test-suite; the core engine itself
(lexer, parser, type checker/coercer, serializer, error facade) is the
Rust library behind the FFI and is not part of the C sources, so the
core is modelled here from the specification (spec.md), with the header
enum and the behaviour asserted by the C tests anchoring the model.

Representation choices of the shallow embedding:
* source text is a `List Char`; the UTF-8 byte length of a string is the
  sum of the per-character UTF-8 sizes;
* float scalars carry their exact decimal payload in the canonical form
  `num * 10 ^ exp` with `num` not divisible by 10 (the spec's tests only
  exercise finite decimal literals, and the spec requires the serializer
  to use a round-tripping decimal form);
* every recursive function is structurally recursive on an explicit
  fuel so that concrete runs reduce definitionally.
-/

namespace Gbln

/-- C-compatible error codes, transcribed from `enum GblnErrorCode` in
src/include/gbln.h. -/
inductive GblnErrorCode
  | ok
  | errUnexpectedChar
  | errUnterminatedString
  | errUnexpectedToken
  | errUnexpectedEof
  | errInvalidSyntax
  | errIntOutOfRange
  | errStringTooLong
  | errTypeMismatch
  | errInvalidTypeHint
  | errDuplicateKey
  | errNullPointer
  | errIoKind
deriving DecidableEq

/-- Numeric value of each error code, matching the C enum values
`Ok = 0` through `ErrorIo = 12` in src/include/gbln.h. -/
def GblnErrorCode.toNat : GblnErrorCode → Nat
  | .ok => 0
  | .errUnexpectedChar => 1
  | .errUnterminatedString => 2
  | .errUnexpectedToken => 3
  | .errUnexpectedEof => 4
  | .errInvalidSyntax => 5
  | .errIntOutOfRange => 6
  | .errStringTooLong => 7
  | .errTypeMismatch => 8
  | .errInvalidTypeHint => 9
  | .errDuplicateKey => 10
  | .errNullPointer => 11
  | .errIoKind => 12

/-- A structured diagnostic: the error kind together with the
human-oriented message that the error facade exposes. -/
structure PErr where
  kind : GblnErrorCode
  msg : List Char
deriving DecidableEq

/-- Build a diagnostic from a kind and a message literal. -/
def mkErr (k : GblnErrorCode) (m : String) : PErr := ⟨k, m.toList⟩

/-- Modelled from the spec: signed integer size classes (§3). -/
inductive IntTag
  | i8
  | i16
  | i32
  | i64
deriving DecidableEq

/-- Modelled from the spec: unsigned integer size classes (§3). -/
inductive UIntTag
  | u8
  | u16
  | u32
  | u64
deriving DecidableEq

/-- Modelled from the spec: IEEE-754 float size classes (§3); payloads in
this model are exact decimals, see the file header. -/
inductive FloatTag
  | f32
  | f64
deriving DecidableEq

/-- Modelled from the spec: string size classes with maximum byte length
`2 ^ N` (§3). -/
inductive StrTag
  | s8
  | s16
  | s32
  | s64
deriving DecidableEq

/-- Lower bound of each signed integer class (two's complement, §3). -/
def IntTag.minVal : IntTag → Int
  | .i8 => -128
  | .i16 => -32768
  | .i32 => -2147483648
  | .i64 => -9223372036854775808

/-- Upper bound of each signed integer class (two's complement, §3). -/
def IntTag.maxVal : IntTag → Int
  | .i8 => 127
  | .i16 => 32767
  | .i32 => 2147483647
  | .i64 => 9223372036854775807

/-- Upper bound of each unsigned integer class (§3). -/
def UIntTag.maxVal : UIntTag → Nat
  | .u8 => 255
  | .u16 => 65535
  | .u32 => 4294967295
  | .u64 => 18446744073709551615

/-- Maximum UTF-8 byte length of each string class (`2 ^ N`, §3). -/
def StrTag.maxBytes : StrTag → Nat
  | .s8 => 256
  | .s16 => 65536
  | .s32 => 4294967296
  | .s64 => 18446744073709551616

/-- Spelling of a signed integer tag. -/
def IntTag.name : IntTag → List Char
  | .i8 => ['i', '8']
  | .i16 => ['i', '1', '6']
  | .i32 => ['i', '3', '2']
  | .i64 => ['i', '6', '4']

/-- Spelling of an unsigned integer tag. -/
def UIntTag.name : UIntTag → List Char
  | .u8 => ['u', '8']
  | .u16 => ['u', '1', '6']
  | .u32 => ['u', '3', '2']
  | .u64 => ['u', '6', '4']

/-- Spelling of a float tag. -/
def FloatTag.name : FloatTag → List Char
  | .f32 => ['f', '3', '2']
  | .f64 => ['f', '6', '4']

/-- Spelling of a string tag. -/
def StrTag.name : StrTag → List Char
  | .s8 => ['s', '8']
  | .s16 => ['s', '1', '6']
  | .s32 => ['s', '3', '2']
  | .s64 => ['s', '6', '4']

/-- Modelled from the spec: a recognized type-hint tag (§3). -/
inductive GblnTag
  | gInt (t : IntTag)
  | gUInt (t : UIntTag)
  | gFloat (t : FloatTag)
  | gStr (t : StrTag)
  | gBool
  | gNull
deriving DecidableEq

/-- Spelling of a tag, as it appears between angle brackets. -/
def GblnTag.name : GblnTag → List Char
  | .gInt t => t.name
  | .gUInt t => t.name
  | .gFloat t => t.name
  | .gStr t => t.name
  | .gBool => ['b']
  | .gNull => ['n']

/-- Modelled from the spec: the value tree — a tagged union of the
twelve scalar classes plus objects and arrays (§3).  Objects are
association lists in insertion order with unique keys; float payloads
are exact decimals `num * 10 ^ exp` kept in canonical form. -/
inductive Value
  | vInt (t : IntTag) (x : Int)
  | vUInt (t : UIntTag) (x : Nat)
  | vFloat (t : FloatTag) (num : Int) (exp : Int)
  | vStr (t : StrTag) (s : List Char)
  | vBool (b : Bool)
  | vNull
  | vObj (fields : List (List Char × Value))
  | vArr (elems : List Value)

/-- The value-type enumeration used by `gbln_value_type` in the C
interface (see src/tests/test_extensions.c). -/
inductive GblnValueType
  | I8
  | I16
  | I32
  | I64
  | U8
  | U16
  | U32
  | U64
  | F32
  | F64
  | Str
  | Bool
  | Null
  | Object
  | Array
deriving DecidableEq

/-- Type introspection, `gbln_value_type` of the C interface. -/
def gbln_value_type : Value → GblnValueType
  | .vInt .i8 _ => .I8
  | .vInt .i16 _ => .I16
  | .vInt .i32 _ => .I32
  | .vInt .i64 _ => .I64
  | .vUInt .u8 _ => .U8
  | .vUInt .u16 _ => .U16
  | .vUInt .u32 _ => .U32
  | .vUInt .u64 _ => .U64
  | .vFloat .f32 _ _ => .F32
  | .vFloat .f64 _ _ => .F64
  | .vStr _ _ => .Str
  | .vBool _ => .Bool
  | .vNull => .Null
  | .vObj _ => .Object
  | .vArr _ => .Array

/-- UTF-8 byte length of a character list. -/
def utf8Len (s : List Char) : Nat := (s.map Char.utf8Size).sum

/-- Modelled from the spec: whitespace characters are token separators
only (§4.1). -/
def isWsChar (c : Char) : Bool := c = ' ' || c = '\t' || c = '\r' || c = '\n'

/-- Modelled from the spec: the permissive identifier character class
`[A-Za-z0-9_\-.+]` (§4.1). -/
def isIdentChar (c : Char) : Bool :=
  c.isAlpha || c.isDigit || c = '_' || c = '-' || c = '.' || c = '+'

/-- A valid identifier: non-empty and made of identifier characters. -/
def validIdent (s : List Char) : Bool := decide (s ≠ []) && s.all isIdentChar

/-- Modelled from the spec: lexer tokens (§4.1).  The raw byte range
between `(` and the matching `)` is carried as one payload token, since
the parser always consumes the parenthesised range as a unit. -/
inductive Token
  | lbrace
  | rbrace
  | lbracket
  | rbracket
  | lt
  | gt
  | ident (s : List Char)
  | payload (s : List Char)
deriving DecidableEq

/-- Modelled from the spec: true on characters other than the closing
parenthesis, used for the raw payload scan (§4.1). -/
def notCloseParen (c : Char) : Bool := if c = ')' then false else true

/-- Modelled from the spec: the lexer (§4.1), structurally recursive on
an explicit fuel; one input character is consumed per step, so a fuel
above the input length never runs out. -/
def lexGo : Nat → List Char → Except PErr (List Token)
  | 0, _ => .error (mkErr .errInvalidSyntax "lexer fuel exhausted")
  | _ + 1, [] => .ok []
  | fuel + 1, c :: cs =>
    if isWsChar c then lexGo fuel cs
    else if c = '{' then (fun ts => Token.lbrace :: ts) <$> lexGo fuel cs
    else if c = '}' then (fun ts => Token.rbrace :: ts) <$> lexGo fuel cs
    else if c = '[' then (fun ts => Token.lbracket :: ts) <$> lexGo fuel cs
    else if c = ']' then (fun ts => Token.rbracket :: ts) <$> lexGo fuel cs
    else if c = '<' then (fun ts => Token.lt :: ts) <$> lexGo fuel cs
    else if c = '>' then (fun ts => Token.gt :: ts) <$> lexGo fuel cs
    else if c = '(' then
      if ')' ∈ cs then
        (fun ts => Token.payload (cs.takeWhile notCloseParen) :: ts) <$>
          lexGo fuel ((cs.dropWhile notCloseParen).tail)
      else .error (mkErr .errUnterminatedString "unterminated string payload")
    else if isIdentChar c then
      (fun ts => Token.ident (c :: cs.takeWhile isIdentChar) :: ts) <$>
        lexGo fuel (cs.dropWhile isIdentChar)
    else .error (mkErr .errUnexpectedChar "unexpected character")

/-- The lexer entry point: UTF-8 source to token stream (§4.1). -/
def gbln_lex (input : List Char) : Except PErr (List Token) :=
  lexGo (input.length + 1) input

/-- Numeric value of a digit character. -/
def digitVal (c : Char) : Nat := c.toNat - 48

/-- Base-10 value of a big-endian digit-character list. -/
def digitsVal (l : List Char) : Nat := l.foldl (fun a c => a * 10 + digitVal c) 0

/-- Modelled from the spec: strict base-10 natural-number lexemes
(§4.3): one or more digits and nothing else. -/
def natLexVal (l : List Char) : Option Nat :=
  if l ≠ [] ∧ l.all Char.isDigit then some (digitsVal l) else none

/-- Modelled from the spec: strict base-10 signed-integer lexemes with
an optional leading minus sign (§4.3). -/
def intLexVal (l : List Char) : Option Int :=
  if l.head? = some '-' then (fun n => -(n : Int)) <$> natLexVal l.tail
  else (fun n => (n : Int)) <$> natLexVal l

/-- Split an optional leading minus sign off a lexeme. -/
def splitSign (l : List Char) : Bool × List Char :=
  if l.head? = some '-' then (true, l.tail) else (false, l)

/-- Modelled from the spec: the optional fractional part of a float
lexeme — either absent, or a point followed by one or more digits
(§4.3).  Returns the fraction digits and the rest, or none if
malformed. -/
def fracPart (l : List Char) : Option (List Char × List Char) :=
  if l.head? = some '.' then
    if (l.tail.takeWhile Char.isDigit) = [] then none
    else some (l.tail.takeWhile Char.isDigit, l.tail.dropWhile Char.isDigit)
  else some ([], l)

/-- Modelled from the spec: the optional scientific exponent of a float
lexeme (§4.3).  Returns the exponent, or none if malformed. -/
def expPart : List Char → Option Int
  | [] => some 0
  | c :: rest =>
    if c = 'e' ∨ c = 'E' then
      match rest with
      | '-' :: ds => (fun n => -(n : Int)) <$> natLexVal ds
      | '+' :: ds => (fun n => (n : Int)) <$> natLexVal ds
      | ds => (fun n => (n : Int)) <$> natLexVal ds
    else none

/-- One canonicalization step loop: strip factors of ten from the
mantissa into the exponent, structurally on fuel. -/
def canonFloatGo : Nat → Int → Int → Int × Int
  | 0, m, e => (m, e)
  | fuel + 1, m, e => if m % 10 = 0 then canonFloatGo fuel (m / 10) (e + 1) else (m, e)

/-- Canonical form of a decimal float payload: zero is `(0, 0)`, and
otherwise the mantissa is not divisible by ten. -/
def canonFloat (m : Int) (e : Int) : Int × Int :=
  if m = 0 then (0, 0) else canonFloatGo m.natAbs m e

/-- Modelled from the spec: decimal/scientific float lexemes (§4.3),
decoded to the exact canonical decimal payload. -/
def floatLexVal (l : List Char) : Option (Int × Int) :=
  match splitSign l with
  | (neg, l1) =>
    if (l1.takeWhile Char.isDigit) = [] then none
    else
      match fracPart (l1.dropWhile Char.isDigit) with
      | none => none
      | some (fds, rest2) =>
        match expPart rest2 with
        | none => none
        | some e =>
          let mN := digitsVal (l1.takeWhile Char.isDigit ++ fds)
          let m : Int := if neg then -(mN : Int) else (mN : Int)
          some (canonFloat m (e - fds.length))

/-- Modelled from the spec: resolve the identifier between angle
brackets to a type tag; unknown spellings give none, surfaced as
`InvalidTypeHint` (§4.3). -/
def parseTag (s : List Char) : Option GblnTag :=
  if s = ['i', '8'] then some (.gInt .i8)
  else if s = ['i', '1', '6'] then some (.gInt .i16)
  else if s = ['i', '3', '2'] then some (.gInt .i32)
  else if s = ['i', '6', '4'] then some (.gInt .i64)
  else if s = ['u', '8'] then some (.gUInt .u8)
  else if s = ['u', '1', '6'] then some (.gUInt .u16)
  else if s = ['u', '3', '2'] then some (.gUInt .u32)
  else if s = ['u', '6', '4'] then some (.gUInt .u64)
  else if s = ['f', '3', '2'] then some (.gFloat .f32)
  else if s = ['f', '6', '4'] then some (.gFloat .f64)
  else if s = ['s', '8'] then some (.gStr .s8)
  else if s = ['s', '1', '6'] then some (.gStr .s16)
  else if s = ['s', '3', '2'] then some (.gStr .s32)
  else if s = ['s', '6', '4'] then some (.gStr .s64)
  else if s = ['b'] then some .gBool
  else if s = ['n'] then some .gNull
  else none

/-- Modelled from the spec: the type checker/coercer — parse a raw
lexeme per the declared tag's format and check its range (§4.3).
Out-of-range integers report `IntOutOfRange` here; the aggregate error
surfaced to the caller is `TypeMismatch` (§7 note). -/
def coerce (tag : GblnTag) (lexeme : List Char) : Except PErr Value :=
  match tag with
  | .gInt t =>
    match intLexVal lexeme with
    | none => .error ⟨.errTypeMismatch, "invalid integer literal ".toList ++ lexeme⟩
    | some x =>
      if t.minVal ≤ x ∧ x ≤ t.maxVal then .ok (.vInt t x)
      else .error ⟨.errIntOutOfRange,
        "value ".toList ++ lexeme ++ " out of range for type ".toList ++ t.name⟩
  | .gUInt t =>
    match natLexVal lexeme with
    | none => .error ⟨.errTypeMismatch, "invalid integer literal ".toList ++ lexeme⟩
    | some x =>
      if x ≤ t.maxVal then .ok (.vUInt t x)
      else .error ⟨.errIntOutOfRange,
        "value ".toList ++ lexeme ++ " out of range for type ".toList ++ t.name⟩
  | .gFloat t =>
    match floatLexVal lexeme with
    | none => .error ⟨.errTypeMismatch, "invalid float literal ".toList ++ lexeme⟩
    | some (n, e) => .ok (.vFloat t n e)
  | .gStr t =>
    if utf8Len lexeme ≤ t.maxBytes then .ok (.vStr t lexeme)
    else .error ⟨.errStringTooLong,
      "string too long for type ".toList ++ t.name⟩
  | .gBool =>
    if lexeme = ['t'] ∨ lexeme = ['t', 'r', 'u', 'e'] then .ok (.vBool true)
    else if lexeme = ['f'] ∨ lexeme = ['f', 'a', 'l', 's', 'e'] then .ok (.vBool false)
    else .error ⟨.errTypeMismatch, "invalid boolean literal ".toList ++ lexeme⟩
  | .gNull =>
    if lexeme = [] then .ok .vNull
    else .error ⟨.errTypeMismatch, "null payload must be empty".toList⟩

/-- Modelled from the spec: does a lexeme match the integer shape
`-?[0-9]+` (§4.3 inference rule 2)? -/
def isIntLexeme (l : List Char) : Bool :=
  decide ((splitSign l).2 ≠ []) && (splitSign l).2.all Char.isDigit

/-- Modelled from the spec: does a lexeme match the float shape
`-?[0-9]+\.[0-9]+([eE][-+]?[0-9]+)?` (§4.3 inference rule 3)? -/
def isFloatLexeme (l : List Char) : Bool :=
  (floatLexVal l).isSome && l.contains '.'

/-- Modelled from the spec: type inference for an untyped payload
lexeme (§4.3): boolean literals, then integers (stored as `i64` so that
`as_i64` succeeds), then decimal fractions as `f64`, then strings
(canonically `s64`, and `s8` for the empty payload, rule 5). -/
def infer (lexeme : List Char) : Except PErr Value :=
  if lexeme = ['t'] ∨ lexeme = ['t', 'r', 'u', 'e'] then .ok (.vBool true)
  else if lexeme = ['f'] ∨ lexeme = ['f', 'a', 'l', 's', 'e'] then .ok (.vBool false)
  else if isIntLexeme lexeme then coerce (.gInt .i64) lexeme
  else if isFloatLexeme lexeme then coerce (.gFloat .f64) lexeme
  else if lexeme = [] then .ok (.vStr .s8 [])
  else coerce (.gStr .s64) lexeme

/-- Does an accumulated field list already bind a key? -/
def fieldsHaveKey (fs : List (List Char × Value)) (k : List Char) : Bool :=
  fs.any (fun p => decide (p.1 = k))

/-- A pending recursive-descent job: accumulating the body of an object
or of an (optionally type-hinted) array. -/
inductive PJob
  | objBody (acc : List (List Char × Value))
  | arrBody (hint : Option GblnTag) (acc : List Value)

/-- Modelled from the spec: the recursive-descent parser loops (§4.3),
structurally recursive on fuel; at least one token is consumed between
fuel decrements, so a fuel above the token count never runs out.
Object bodies accumulate `(key, child)` pairs until the closing brace,
rejecting duplicate keys; array bodies accumulate elements until the
closing bracket, forcing every element through the hint's coercer when
a type hint decorated the array and inferring each element otherwise.
Keyless `<tag>(payload)` scalars and `<tag>[...]` arrays are accepted
in element position, as emitted by the serializer's per-element
hints (§4.4). -/
def parseF : Nat → PJob → List Token → Except PErr (Value × List Token)
  | 0, _, _ => .error (mkErr .errInvalidSyntax "parser fuel exhausted")
  | fuel + 1, .objBody acc, toks =>
    match toks with
    | .rbrace :: rest => .ok (.vObj acc.reverse, rest)
    | .ident k :: rest =>
      if fieldsHaveKey acc k then
        .error ⟨.errDuplicateKey, "duplicate key ".toList ++ k⟩
      else
        match rest with
        | .lt :: .ident tg :: .gt :: rest2 =>
          match parseTag tg with
          | none => .error ⟨.errInvalidTypeHint, "unknown type hint ".toList ++ tg⟩
          | some tag =>
            match rest2 with
            | .payload p :: rest3 =>
              match coerce tag p with
              | .error e => .error e
              | .ok v => parseF fuel (.objBody ((k, v) :: acc)) rest3
            | .lbracket :: rest3 =>
              match parseF fuel (.arrBody (some tag) []) rest3 with
              | .error e => .error e
              | .ok (v, rest4) => parseF fuel (.objBody ((k, v) :: acc)) rest4
            | _ => .error (mkErr .errUnexpectedToken "expected payload or array after hint")
        | .payload p :: rest2 =>
          match infer p with
          | .error e => .error e
          | .ok v => parseF fuel (.objBody ((k, v) :: acc)) rest2
        | .lbrace :: rest2 =>
          match parseF fuel (.objBody []) rest2 with
          | .error e => .error e
          | .ok (v, rest3) => parseF fuel (.objBody ((k, v) :: acc)) rest3
        | .lbracket :: rest2 =>
          match parseF fuel (.arrBody none []) rest2 with
          | .error e => .error e
          | .ok (v, rest3) => parseF fuel (.objBody ((k, v) :: acc)) rest3
        | _ => .error (mkErr .errUnexpectedToken "expected field body after key")
    | [] => .error (mkErr .errUnexpectedEof "unexpected end of input in object")
    | _ => .error (mkErr .errUnexpectedToken "expected key or closing brace")
  | fuel + 1, .arrBody hint acc, toks =>
    match toks with
    | .rbracket :: rest => .ok (.vArr acc.reverse, rest)
    | .ident lexm :: rest =>
      match (match hint with | some tag => coerce tag lexm | none => infer lexm) with
      | .error e => .error e
      | .ok v => parseF fuel (.arrBody hint (v :: acc)) rest
    | .lbrace :: rest =>
      match hint with
      | some _ => .error (mkErr .errTypeMismatch "object element in typed array")
      | none =>
        match parseF fuel (.objBody []) rest with
        | .error e => .error e
        | .ok (v, rest2) => parseF fuel (.arrBody none (v :: acc)) rest2
    | .lbracket :: rest =>
      match hint with
      | some _ => .error (mkErr .errTypeMismatch "array element in typed array")
      | none =>
        match parseF fuel (.arrBody none []) rest with
        | .error e => .error e
        | .ok (v, rest2) => parseF fuel (.arrBody none (v :: acc)) rest2
    | .lt :: .ident tg :: .gt :: .payload p :: rest =>
      match hint with
      | some _ => .error (mkErr .errTypeMismatch "hinted element in typed array")
      | none =>
        match parseTag tg with
        | none => .error ⟨.errInvalidTypeHint, "unknown type hint ".toList ++ tg⟩
        | some tag =>
          match coerce tag p with
          | .error e => .error e
          | .ok v => parseF fuel (.arrBody none (v :: acc)) rest
    | .lt :: .ident tg :: .gt :: .lbracket :: rest =>
      match hint with
      | some _ => .error (mkErr .errTypeMismatch "hinted element in typed array")
      | none =>
        match parseTag tg with
        | none => .error ⟨.errInvalidTypeHint, "unknown type hint ".toList ++ tg⟩
        | some tag =>
          match parseF fuel (.arrBody (some tag) []) rest with
          | .error e => .error e
          | .ok (v, rest2) => parseF fuel (.arrBody none (v :: acc)) rest2
    | [] => .error (mkErr .errUnexpectedEof "unexpected end of input in array")
    | _ => .error (mkErr .errUnexpectedToken "unexpected token in array")

/-- Require the token stream to be exhausted after the document value. -/
def expectEnd (r : Value × List Token) : Except PErr Value :=
  match r with
  | (v, []) => .ok v
  | (_, _ :: _) => .error (mkErr .errUnexpectedToken "trailing tokens after document")

/-- Modelled from the spec: the wrapping rule (§4.2) — a named
top-level container or scalar becomes a single-field anonymous outer
object. -/
def wrapNamed (name : List Char) (v : Value) : Value := .vObj [(name, v)]

/-- Modelled from the spec: dispatch at the document position (§4.2,
§4.3).  Bare braces and brackets give the container itself; a leading
identifier wraps the value in a single-field outer object; top-level
typed arrays `<tag>[...]`, with or without a leading name, are
first-class (§9). -/
def parseDoc (toks : List Token) : Except PErr Value :=
  match toks with
  | .lbrace :: rest => (parseF (toks.length + 1) (.objBody []) rest).bind expectEnd
  | .lbracket :: rest => (parseF (toks.length + 1) (.arrBody none []) rest).bind expectEnd
  | .lt :: .ident tg :: .gt :: .payload p :: rest =>
    match parseTag tg with
    | none => .error ⟨.errInvalidTypeHint, "unknown type hint ".toList ++ tg⟩
    | some tag => (coerce tag p).bind (fun v => expectEnd (v, rest))
  | .lt :: .ident tg :: .gt :: .lbracket :: rest =>
    match parseTag tg with
    | none => .error ⟨.errInvalidTypeHint, "unknown type hint ".toList ++ tg⟩
    | some tag => (parseF (toks.length + 1) (.arrBody (some tag) []) rest).bind expectEnd
  | .ident name :: .lbrace :: rest =>
    ((parseF (toks.length + 1) (.objBody []) rest).bind expectEnd).map (wrapNamed name)
  | .ident name :: .lbracket :: rest =>
    ((parseF (toks.length + 1) (.arrBody none []) rest).bind expectEnd).map (wrapNamed name)
  | .ident name :: .lt :: .ident tg :: .gt :: .lbracket :: rest =>
    match parseTag tg with
    | none => .error ⟨.errInvalidTypeHint, "unknown type hint ".toList ++ tg⟩
    | some tag =>
      ((parseF (toks.length + 1) (.arrBody (some tag) []) rest).bind expectEnd).map
        (wrapNamed name)
  | .ident name :: .lt :: .ident tg :: .gt :: .payload p :: rest =>
    match parseTag tg with
    | none => .error ⟨.errInvalidTypeHint, "unknown type hint ".toList ++ tg⟩
    | some tag => ((coerce tag p).bind (fun v => expectEnd (v, rest))).map (wrapNamed name)
  | .ident name :: .payload p :: rest =>
    ((infer p).bind (fun v => expectEnd (v, rest))).map (wrapNamed name)
  | [] => .error (mkErr .errUnexpectedEof "empty document")
  | _ => .error (mkErr .errUnexpectedToken "invalid document start")

/-- Modelled from the spec: the aggregate error surfaced to the caller
for an out-of-range integer is `TypeMismatch` (§7 note, and the
behaviour asserted by src/tests/ffi_test.c test_error_handling). -/
def surfaceErr (e : PErr) : PErr :=
  if e.kind = .errIntOutOfRange then ⟨.errTypeMismatch, e.msg⟩ else e

/-- The public parse entry point `gbln_parse`: text to value tree or
structured error. -/
def gbln_parse (input : List Char) : Except PErr Value :=
  match (gbln_lex input).bind parseDoc with
  | .ok v => .ok v
  | .error e => .error (surfaceErr e)

/-- The C-facing result of `gbln_parse`: the error code together with
the optional out-value; `Ok` exactly when a value is produced. -/
def gbln_parse_code (input : List Char) : GblnErrorCode × Option Value :=
  match gbln_parse input with
  | .ok v => (.ok, some v)
  | .error e => (e.kind, none)

/-- Modelled from the spec: the single-slot error facade (§4.5), read
through `gbln_last_error_message`; functionally, the slot right after a
`gbln_parse` call holds that call's error message, if any. -/
def gbln_last_error_message (input : List Char) : Option (List Char) :=
  match gbln_parse input with
  | .ok _ => none
  | .error e => some e.msg

/-- Accessor `gbln_value_as_i8`: the payload when the value is an `i8`
scalar, and none (`ok = false`) otherwise; never coerces. -/
def gbln_value_as_i8 : Value → Option Int
  | .vInt .i8 x => some x
  | _ => none

/-- Accessor `gbln_value_as_i16`. -/
def gbln_value_as_i16 : Value → Option Int
  | .vInt .i16 x => some x
  | _ => none

/-- Accessor `gbln_value_as_i32`. -/
def gbln_value_as_i32 : Value → Option Int
  | .vInt .i32 x => some x
  | _ => none

/-- Accessor `gbln_value_as_i64`. -/
def gbln_value_as_i64 : Value → Option Int
  | .vInt .i64 x => some x
  | _ => none

/-- Accessor `gbln_value_as_u8`. -/
def gbln_value_as_u8 : Value → Option Nat
  | .vUInt .u8 x => some x
  | _ => none

/-- Accessor `gbln_value_as_u16`. -/
def gbln_value_as_u16 : Value → Option Nat
  | .vUInt .u16 x => some x
  | _ => none

/-- Accessor `gbln_value_as_u32`. -/
def gbln_value_as_u32 : Value → Option Nat
  | .vUInt .u32 x => some x
  | _ => none

/-- Accessor `gbln_value_as_u64`. -/
def gbln_value_as_u64 : Value → Option Nat
  | .vUInt .u64 x => some x
  | _ => none

/-- Accessor `gbln_value_as_f32`; the payload is the exact decimal pair
of this model. -/
def gbln_value_as_f32 : Value → Option (Int × Int)
  | .vFloat .f32 n e => some (n, e)
  | _ => none

/-- Accessor `gbln_value_as_f64`. -/
def gbln_value_as_f64 : Value → Option (Int × Int)
  | .vFloat .f64 n e => some (n, e)
  | _ => none

/-- Accessor `gbln_value_as_string`: succeeds on every string class
(gbln.h: returns NULL only when the value is not a string). -/
def gbln_value_as_string : Value → Option (List Char)
  | .vStr _ s => some s
  | _ => none

/-- Accessor `gbln_value_as_bool`. -/
def gbln_value_as_bool : Value → Option Bool
  | .vBool b => some b
  | _ => none

/-- Null test `gbln_value_is_null`. -/
def gbln_value_is_null : Value → Bool
  | .vNull => true
  | _ => false

/-- First binding of a key in a field list (keys are unique in any
object the core builds). -/
def lookupField : List (List Char × Value) → List Char → Option Value
  | [], _ => none
  | (k, v) :: fs, key => if k = key then some v else lookupField fs key

/-- `gbln_object_get`: the child bound to a key, or none when the value
is not an object or the key is not present (gbln.h). -/
def gbln_object_get (v : Value) (key : List Char) : Option Value :=
  match v with
  | .vObj fs => lookupField fs key
  | _ => none

/-- `gbln_object_len`: the number of fields of an object, 0 otherwise. -/
def gbln_object_len : Value → Nat
  | .vObj fs => fs.length
  | _ => 0

/-- `gbln_object_keys`: the keys of an object, none otherwise. -/
def gbln_object_keys : Value → Option (List (List Char))
  | .vObj fs => some (fs.map (fun p => p.1))
  | _ => none

/-- `gbln_array_len`: the number of elements of an array, 0 when the
value is not an array (gbln.h). -/
def gbln_array_len : Value → Nat
  | .vArr es => es.length
  | _ => 0

/-- `gbln_array_get`: the i-th element of an array in insertion order,
none when the value is not an array or the index is out of bounds
(gbln.h). -/
def gbln_array_get (v : Value) (i : Nat) : Option Value :=
  match v with
  | .vArr es => es[i]?
  | _ => none

/-- Constructor `gbln_value_new_null`. -/
def gbln_value_new_null : Value := .vNull

/-- Constructor `gbln_value_new_bool`. -/
def gbln_value_new_bool (b : Bool) : Value := .vBool b

/-- Constructor `gbln_value_new_i8`; the C parameter type `int8_t`
restricts callers to the tag's range, modelled by the range guard. -/
def gbln_value_new_i8 (x : Int) : Option Value :=
  if IntTag.minVal .i8 ≤ x ∧ x ≤ IntTag.maxVal .i8 then some (.vInt .i8 x) else none

/-- Constructor `gbln_value_new_i16`. -/
def gbln_value_new_i16 (x : Int) : Option Value :=
  if IntTag.minVal .i16 ≤ x ∧ x ≤ IntTag.maxVal .i16 then some (.vInt .i16 x) else none

/-- Constructor `gbln_value_new_i32`. -/
def gbln_value_new_i32 (x : Int) : Option Value :=
  if IntTag.minVal .i32 ≤ x ∧ x ≤ IntTag.maxVal .i32 then some (.vInt .i32 x) else none

/-- Constructor `gbln_value_new_i64`. -/
def gbln_value_new_i64 (x : Int) : Option Value :=
  if IntTag.minVal .i64 ≤ x ∧ x ≤ IntTag.maxVal .i64 then some (.vInt .i64 x) else none

/-- Constructor `gbln_value_new_u8`; the C parameter type `uint8_t`
restricts callers to the tag's range. -/
def gbln_value_new_u8 (x : Nat) : Option Value :=
  if x ≤ UIntTag.maxVal .u8 then some (.vUInt .u8 x) else none

/-- Constructor `gbln_value_new_u16`. -/
def gbln_value_new_u16 (x : Nat) : Option Value :=
  if x ≤ UIntTag.maxVal .u16 then some (.vUInt .u16 x) else none

/-- Constructor `gbln_value_new_u32`. -/
def gbln_value_new_u32 (x : Nat) : Option Value :=
  if x ≤ UIntTag.maxVal .u32 then some (.vUInt .u32 x) else none

/-- Constructor `gbln_value_new_u64`. -/
def gbln_value_new_u64 (x : Nat) : Option Value :=
  if x ≤ UIntTag.maxVal .u64 then some (.vUInt .u64 x) else none

/-- Constructor `gbln_value_new_f32`; the argument is the exact decimal
`num * 10 ^ exp`, stored canonically. -/
def gbln_value_new_f32 (num exp : Int) : Value :=
  .vFloat .f32 (canonFloat num exp).1 (canonFloat num exp).2

/-- Constructor `gbln_value_new_f64`. -/
def gbln_value_new_f64 (num exp : Int) : Value :=
  .vFloat .f64 (canonFloat num exp).1 (canonFloat num exp).2

/-- The string class selected for a requested maximum byte length: the
smallest class whose bound covers it. -/
def strTagFor (maxLen : Nat) : StrTag :=
  if maxLen ≤ 256 then .s8
  else if maxLen ≤ 65536 then .s16
  else if maxLen ≤ 4294967296 then .s32
  else .s64

/-- Constructor `gbln_value_new_str(bytes, max_byte_len)`: rejects a
payload longer than the requested bound (§6.2, and the NULL return
asserted in src/tests/test_extensions.c); the C bound has type
`size_t`. -/
def gbln_value_new_str (s : List Char) (maxLen : Nat) : Option Value :=
  if utf8Len s ≤ maxLen ∧ maxLen < 18446744073709551616 then
    some (.vStr (strTagFor maxLen) s)
  else none

/-- Constructor `gbln_value_new_object`: the empty object. -/
def gbln_value_new_object : Value := .vObj []

/-- Constructor `gbln_value_new_array`: the empty array. -/
def gbln_value_new_array : Value := .vArr []

/-- Builder `gbln_object_insert(obj, key, child)`: fails with
`DuplicateKey` when the key is already bound, leaving the object
unchanged; otherwise appends the binding (§6.2).  The result pairs the
C error code with the object state after the call. -/
def gbln_object_insert (obj : Value) (key : List Char) (child : Value) :
    GblnErrorCode × Value :=
  match obj with
  | .vObj fs =>
    if fieldsHaveKey fs key then (.errDuplicateKey, .vObj fs)
    else (.ok, .vObj (fs ++ [(key, child)]))
  | _ => (.errNullPointer, obj)

/-- Builder `gbln_array_push(arr, child)`: appends the child (§6.2). -/
def gbln_array_push (arr : Value) (child : Value) : GblnErrorCode × Value :=
  match arr with
  | .vArr es => (.ok, .vArr (es ++ [child]))
  | _ => (.errNullPointer, arr)

/-- The character of one digit value. -/
def digitChar (d : Nat) : Char := Char.ofNat (48 + d)

/-- Big-endian digit characters, structurally on fuel; a fuel at least
the number of digits suffices. -/
def natPrintGo : Nat → Nat → List Char
  | 0, _ => []
  | fuel + 1, n => if n = 0 then [] else natPrintGo fuel (n / 10) ++ [digitChar (n % 10)]

/-- Big-endian digit characters of a natural number; empty for zero. -/
def natPrint (n : Nat) : List Char := natPrintGo n n

/-- Base-10 rendering of a natural number (`0` for zero). -/
def natLexeme (n : Nat) : List Char := if n = 0 then ['0'] else natPrint n

/-- Base-10 rendering of an integer, with a minus sign when negative
(§4.4: integers use plain base-10). -/
def intLexeme (x : Int) : List Char :=
  if x < 0 then '-' :: natLexeme x.natAbs else natLexeme x.toNat

/-- Exactly `k` digit characters for a fraction value below `10 ^ k`,
zero-padded on the left. -/
def padDigits (k : Nat) (m : Nat) : List Char :=
  List.replicate (k - (natPrint m).length) '0' ++ natPrint m

/-- Modelled from the spec: decimal rendering of a float payload in a
form that re-parses to the same canonical pair (§4.4: floats use a
round-tripping decimal). -/
def floatLexeme (n : Int) (e : Int) : List Char :=
  if e < 0 then
    (if n < 0 then ['-'] else []) ++
      natLexeme (n.natAbs / 10 ^ (-e).toNat) ++
      '.' :: padDigits (-e).toNat (n.natAbs % 10 ^ (-e).toNat)
  else intLexeme (n * 10 ^ e.toNat)

/-- The scalar tag of a value, none on containers. -/
def scalarTagOf : Value → Option GblnTag
  | .vInt t _ => some (.gInt t)
  | .vUInt t _ => some (.gUInt t)
  | .vFloat t _ _ => some (.gFloat t)
  | .vStr t _ => some (.gStr t)
  | .vBool _ => some .gBool
  | .vNull => some .gNull
  | _ => none

/-- The payload text of a scalar (§4.4 rendering rules); none on
containers, and none on a string containing `)`, which the serializer
must reject rather than emit ambiguous output (§4.4, §9). -/
def scalarPayload : Value → Option (List Char)
  | .vInt _ x => some (intLexeme x)
  | .vUInt _ x => some (natLexeme x)
  | .vFloat _ n e => some (floatLexeme n e)
  | .vStr _ s => if ')' ∈ s then none else some s
  | .vBool b => some (if b then ['t'] else ['f'])
  | .vNull => some []
  | _ => none

/-- The bare in-array spelling of an element, for the uniformly-typed
array form `key<tag>[elem elem ...]`; none when the element cannot be
spelled as a single identifier lexeme. -/
def bareLexeme : Value → Option (List Char)
  | .vInt _ x => some (intLexeme x)
  | .vUInt _ x => some (natLexeme x)
  | .vFloat _ n e => some (floatLexeme n e)
  | .vStr _ s => if validIdent s then some s else none
  | .vBool b => some (if b then ['t'] else ['f'])
  | _ => none

/-- The bare spellings of a list of elements, or none as soon as one
element has no bare spelling. -/
def bareLexs : List Value → Option (List (List Char))
  | [] => some []
  | e :: es =>
    match bareLexeme e, bareLexs es with
    | some l, some ls => some (l :: ls)
    | _, _ => none

/-- Decide whether an array can use the uniformly-typed bare rendering:
all elements are scalars of one tag and each has a bare spelling. -/
def uniformBare (es : List Value) : Option (GblnTag × List (List Char)) :=
  match es with
  | [] => none
  | e :: _ =>
    match scalarTagOf e with
    | none => none
    | some tag =>
      if es.all (fun x => decide (scalarTagOf x = some tag)) then
        match bareLexs es with
        | none => none
        | some lexs => some (tag, lexs)
      else none

mutual

/-- Modelled from the spec: the serializer to a token stream (§4.4).
Scalars render as `<tag>(payload)`, prefixed by their key when they sit
in an object; objects as `{field ...}`; arrays as `<tag>[elem ...]`
when uniformly typed with bare element spellings, and otherwise as
`[elem ...]` with per-element hints.  It refuses (returns none) a
string payload containing `)` and a non-identifier object key, rather
than emit output that cannot re-parse (§4.4, §9). -/
def serializeToks : Value → Option (List Token)
  | .vObj fs => (serFields fs).map (fun ts => Token.lbrace :: (ts ++ [Token.rbrace]))
  | .vArr es =>
    match uniformBare es with
    | some (tag, lexs) =>
      some (Token.lt :: Token.ident tag.name :: Token.gt :: Token.lbracket ::
        (lexs.map Token.ident ++ [Token.rbracket]))
    | none => (serElems es).map (fun ts => Token.lbracket :: (ts ++ [Token.rbracket]))
  | v =>
    match scalarTagOf v, scalarPayload v with
    | some tag, some p => some [Token.lt, Token.ident tag.name, Token.gt, Token.payload p]
    | _, _ => none

/-- Serialize the fields of an object body, each as
`key` followed by the child's own tokens. -/
def serFields : List (List Char × Value) → Option (List Token)
  | [] => some []
  | (k, v) :: fs =>
    if validIdent k then
      match serializeToks v, serFields fs with
      | some vts, some fts => some (Token.ident k :: (vts ++ fts))
      | _, _ => none
    else none

/-- Serialize the elements of a non-uniform array body, each carrying
its own hint. -/
def serElems : List Value → Option (List Token)
  | [] => some []
  | e :: es =>
    match serializeToks e, serElems es with
    | some ets, some rts => some (ets ++ rts)
    | _, _ => none

end

/-- Text of one token. -/
def tokenText : Token → List Char
  | .lbrace => ['{']
  | .rbrace => ['}']
  | .lbracket => ['[']
  | .rbracket => [']']
  | .lt => ['<']
  | .gt => ['>']
  | .ident s => s
  | .payload s => '(' :: (s ++ [')'])

/-- Structural separation: only two adjacent identifier lexemes need
whitespace between them (§4.4 compact mode). -/
def needSep : Token → Token → Bool
  | .ident _, .ident _ => true
  | _, _ => false

/-- Modelled from the spec: compact rendering — no whitespace except as
structurally required (§4.4). -/
def compactRender : List Token → List Char
  | [] => []
  | [t] => tokenText t
  | t :: t2 :: ts =>
    tokenText t ++ (if needSep t t2 then [' '] else []) ++ compactRender (t2 :: ts)

/-- A newline followed by two spaces of indent per depth. -/
def nlIndent (d : Nat) : List Char := '\n' :: List.replicate (2 * d) ' '

/-- Whitespace inserted between two tokens in pretty mode: one field
per line with two-space indent (§4.4); array elements stay on the
field's line separated by single spaces. -/
def prettySep (d : Nat) : Token → Token → List Char
  | _, .rbrace => nlIndent (d - 1)
  | .lbrace, _ => nlIndent d
  | .ident _, .ident _ => [' ']
  | .payload _, .ident _ => nlIndent d
  | .rbrace, .ident _ => nlIndent d
  | .rbracket, .ident _ => nlIndent d
  | _, _ => []

/-- Brace depth after a token. -/
def depthAfter (d : Nat) : Token → Nat
  | .lbrace => d + 1
  | .rbrace => d - 1
  | _ => d

/-- Pretty rendering loop over the remaining tokens. -/
def prettyRenderGo : Nat → Token → List Token → List Char
  | _, t, [] => tokenText t
  | d, t, t2 :: ts =>
    tokenText t ++ prettySep (depthAfter d t) t t2 ++ prettyRenderGo (depthAfter d t) t2 ts

/-- Modelled from the spec: pretty rendering — indented, one field per
line, two-space indent (§4.4). -/
def prettyRender : List Token → List Char
  | [] => []
  | t :: ts => prettyRenderGo 0 t ts

/-- `gbln_to_string`: serialize a value to compact text, or none when
the serializer refuses the value (§4.4). -/
def gbln_to_string (v : Value) : Option (List Char) :=
  (serializeToks v).map compactRender

/-- `gbln_to_string_pretty`: serialize a value to pretty text. -/
def gbln_to_string_pretty (v : Value) : Option (List Char) :=
  (serializeToks v).map prettyRender

/-- Does the second list start with the first? -/
def startsWithSeg : List Char → List Char → Bool
  | [], _ => true
  | _ :: _, [] => false
  | p :: ps, c :: cs => if p = c then startsWithSeg ps cs else false

/-- Does the first list occur as a contiguous segment of the second?
Used to state that an error message names a lexeme or a type. -/
def containsSeg : List Char → List Char → Bool
  | pat, [] => startsWithSeg pat []
  | pat, c :: cs => startsWithSeg pat (c :: cs) || containsSeg pat cs

/-- The head of the character list, if any, is not an identifier
character — the condition under which a preceding identifier lexeme
does not leak into what follows. -/
def headNotIdent : List Char → Prop
  | [] => True
  | c :: _ => isIdentChar c = false

instance (cs : List Char) : Decidable (headNotIdent cs) := by
  cases cs <;> simp [headNotIdent] <;> infer_instance

/-- Well-formedness of one token for rendering: identifier tokens hold
valid identifiers and payload tokens are free of `)`. -/
def tokenWf : Token → Bool
  | .ident s => validIdent s
  | .payload s => decide (')' ∉ s)
  | _ => true

/-- Well-formedness of a token list for rendering. -/
def toksWf (ts : List Token) : Bool := ts.all tokenWf

/-- A character list renders a token list: it consists of the token
texts in order, possibly interleaved with whitespace, with no
identifier lexeme flowing into the following text.  Both the compact
and the pretty renderings of a well-formed token list satisfy this
relation, and the lexer recovers exactly the token list from any
character list related to it. -/
inductive RendersTo : List Token → List Char → Prop
  | nil : RendersTo [] []
  | ws (c : Char) (ts : List Token) (cs : List Char) (hc : isWsChar c = true)
      (h : RendersTo ts cs) : RendersTo ts (c :: cs)
  | lbrace (ts : List Token) (cs : List Char) (h : RendersTo ts cs) :
      RendersTo (.lbrace :: ts) ('{' :: cs)
  | rbrace (ts : List Token) (cs : List Char) (h : RendersTo ts cs) :
      RendersTo (.rbrace :: ts) ('}' :: cs)
  | lbracket (ts : List Token) (cs : List Char) (h : RendersTo ts cs) :
      RendersTo (.lbracket :: ts) ('[' :: cs)
  | rbracket (ts : List Token) (cs : List Char) (h : RendersTo ts cs) :
      RendersTo (.rbracket :: ts) (']' :: cs)
  | ltTok (ts : List Token) (cs : List Char) (h : RendersTo ts cs) :
      RendersTo (.lt :: ts) ('<' :: cs)
  | gtTok (ts : List Token) (cs : List Char) (h : RendersTo ts cs) :
      RendersTo (.gt :: ts) ('>' :: cs)
  | ident (s : List Char) (ts : List Token) (cs : List Char)
      (hs : validIdent s = true) (hsep : headNotIdent cs)
      (h : RendersTo ts cs) : RendersTo (.ident s :: ts) (s ++ cs)
  | payload (s : List Char) (ts : List Token) (cs : List Char)
      (hs : ')' ∉ s) (h : RendersTo ts cs) :
      RendersTo (.payload s :: ts) ('(' :: (s ++ ')' :: cs))

/-- Canonical decimal float payload: a zero mantissa forces a zero
exponent, and a non-zero mantissa is not divisible by ten. -/
def FloatCanon (n e : Int) : Prop := (n = 0 → e = 0) ∧ (n ≠ 0 → ¬ (n % 10 = 0))

/-- Keys of an object body are pairwise distinct. -/
def KeysDistinct (fs : List (List Char × Value)) : Prop :=
  fs.Pairwise (fun p q => p.1 ≠ q.1)

/-- The semantic invariants of the value model (§3): every scalar
payload lies within its declared class, string payloads fit their byte
bound, float payloads are canonical decimals, and object keys are
unique. -/
inductive WfValue : Value → Prop
  | int (t : IntTag) (x : Int) (h : t.minVal ≤ x ∧ x ≤ t.maxVal) : WfValue (.vInt t x)
  | uint (t : UIntTag) (x : Nat) (h : x ≤ t.maxVal) : WfValue (.vUInt t x)
  | float (t : FloatTag) (n e : Int) (h : FloatCanon n e) : WfValue (.vFloat t n e)
  | str (t : StrTag) (s : List Char) (h : utf8Len s ≤ t.maxBytes) : WfValue (.vStr t s)
  | bool (b : Bool) : WfValue (.vBool b)
  | null : WfValue .vNull
  | obj (fs : List (List Char × Value)) (hk : KeysDistinct fs)
      (hc : ∀ p ∈ fs, WfValue p.2) : WfValue (.vObj fs)
  | arr (es : List Value) (hc : ∀ v ∈ es, WfValue v) : WfValue (.vArr es)

/-- The values constructible through the public constructor and builder
surface (§6.2): each C constructor restricted by its parameter type,
`new_str` by its byte bound, objects grown by `object_insert` (which
refuses duplicate keys) and arrays by `array_push`. -/
inductive Constructible : Value → Prop
  | mkNull : Constructible .vNull
  | mkBool (b : Bool) : Constructible (.vBool b)
  | mkInt (t : IntTag) (x : Int) (h : t.minVal ≤ x ∧ x ≤ t.maxVal) :
      Constructible (.vInt t x)
  | mkUInt (t : UIntTag) (x : Nat) (h : x ≤ t.maxVal) : Constructible (.vUInt t x)
  | mkFloat (t : FloatTag) (num exp : Int) :
      Constructible (.vFloat t (canonFloat num exp).1 (canonFloat num exp).2)
  | mkStr (s : List Char) (maxLen : Nat) (h : utf8Len s ≤ maxLen)
      (hm : maxLen < 18446744073709551616) :
      Constructible (.vStr (strTagFor maxLen) s)
  | mkObj : Constructible (.vObj [])
  | insert (fs : List (List Char × Value)) (k : List Char) (child : Value)
      (hobj : Constructible (.vObj fs)) (hch : Constructible child)
      (hk : fieldsHaveKey fs k = false) : Constructible (.vObj (fs ++ [(k, child)]))
  | mkArr : Constructible (.vArr [])
  | push (es : List Value) (child : Value) (harr : Constructible (.vArr es))
      (hch : Constructible child) : Constructible (.vArr (es ++ [child]))

/-- A value produced by the parse entry point on some input. -/
def ParseProduced (v : Value) : Prop := ∃ input, gbln_parse input = .ok v

/-- Modelled from the spec: the equality used by the round-trip law
(§4.4) — scalar tags and payloads compare exactly, array sequences
element-wise, and objects as multisets of `(key, child)` pairs. -/
inductive ValueEquiv : Value → Value → Prop
  | int (t : IntTag) (x : Int) : ValueEquiv (.vInt t x) (.vInt t x)
  | uint (t : UIntTag) (x : Nat) : ValueEquiv (.vUInt t x) (.vUInt t x)
  | float (t : FloatTag) (n e : Int) : ValueEquiv (.vFloat t n e) (.vFloat t n e)
  | str (t : StrTag) (s : List Char) : ValueEquiv (.vStr t s) (.vStr t s)
  | bool (b : Bool) : ValueEquiv (.vBool b) (.vBool b)
  | null : ValueEquiv .vNull .vNull
  | arr (es es2 : List Value) (h : List.Forall₂ ValueEquiv es es2) :
      ValueEquiv (.vArr es) (.vArr es2)
  | obj (fs fs1 fs2 : List (List Char × Value))
      (hk : fs.map Prod.fst = fs1.map Prod.fst)
      (hv : List.Forall₂ ValueEquiv (fs.map Prod.snd) (fs1.map Prod.snd))
      (hp : fs1.Perm fs2) : ValueEquiv (.vObj fs) (.vObj fs2)

/-- Coerce a list of element lexemes through one tag's coercer, in
order, stopping at the first failure — the behaviour of a type-hinted
array body (§4.3). -/
def coerceAll (tag : GblnTag) : List (List Char) → Except PErr (List Value)
  | [] => .ok []
  | l :: ls =>
    match coerce tag l with
    | .error e => .error e
    | .ok v =>
      match coerceAll tag ls with
      | .error e => .error e
      | .ok vs => .ok (v :: vs)

/-- The invariant of a pending parser job: every accumulated child is
well-formed, and an object accumulator binds each key once. -/
def JobWf : PJob → Prop
  | .objBody acc => (∀ p ∈ acc, WfValue p.2) ∧ KeysDistinct acc
  | .arrBody _ acc => ∀ e ∈ acc, WfValue e

/-! Helper lemmas: decimal digit printing and reading. -/

theorem digitVal_digitChar {d : Nat} (h : d < 10) : digitVal (digitChar d) = d := by
  interval_cases d <;> decide

theorem isDigit_digitChar {d : Nat} (h : d < 10) : (digitChar d).isDigit = true := by
  interval_cases d <;> decide

theorem isIdentChar_digitChar {d : Nat} (h : d < 10) : isIdentChar (digitChar d) = true := by
  interval_cases d <;> decide

theorem digitChar_ne_rparen {d : Nat} (h : d < 10) : digitChar d ≠ ')' := by
  interval_cases d <;> decide

theorem digitChar_ne_minus {d : Nat} (h : d < 10) : digitChar d ≠ '-' := by
  interval_cases d <;> decide

theorem natPrintGo_eq {fuel n : Nat} (h : n ≤ fuel) :
    natPrintGo fuel n = (Nat.digits 10 n).reverse.map digitChar := by
  induction fuel generalizing n with
  | zero =>
    have hn : n = 0 := by omega
    subst hn
    simp [natPrintGo]
  | succ fuel ih =>
    by_cases hn : n = 0
    · subst hn
      simp [natPrintGo]
    · have hpos : 0 < n := Nat.pos_of_ne_zero hn
      have hdiv : n / 10 < n := Nat.div_lt_self hpos (by norm_num)
      rw [natPrintGo, if_neg hn, ih (by omega),
        Nat.digits_def' (by norm_num : (1 : Nat) < 10) hpos]
      simp

theorem natPrint_eq (n : Nat) :
    natPrint n = (Nat.digits 10 n).reverse.map digitChar := natPrintGo_eq le_rfl

theorem mem_natPrint {n : Nat} {c : Char} (h : c ∈ natPrint n) :
    ∃ d, d < 10 ∧ c = digitChar d := by
  rw [natPrint_eq] at h
  simp only [List.mem_map, List.mem_reverse] at h
  obtain ⟨d, hd, rfl⟩ := h
  exact ⟨d, Nat.digits_lt_base (by norm_num) hd, rfl⟩

theorem natPrint_all_isDigit (n : Nat) : (natPrint n).all Char.isDigit = true := by
  rw [List.all_eq_true]
  intro c hc
  obtain ⟨d, hd, rfl⟩ := mem_natPrint hc
  exact isDigit_digitChar hd

theorem foldl_digitsVal (l : List Char) (acc : Nat) :
    l.foldl (fun a c => a * 10 + digitVal c) acc = acc * 10 ^ l.length + digitsVal l := by
  induction l generalizing acc with
  | nil => simp [digitsVal]
  | cons c l ih =>
    simp only [List.foldl_cons, digitsVal] at ih ⊢
    rw [ih (acc * 10 + digitVal c), ih (0 * 10 + digitVal c), List.length_cons, pow_succ]
    ring

theorem digitsVal_append (a b : List Char) :
    digitsVal (a ++ b) = digitsVal a * 10 ^ b.length + digitsVal b := by
  simp only [digitsVal, List.foldl_append]
  rw [foldl_digitsVal]
  rfl

theorem digitsVal_natPrint (n : Nat) : digitsVal (natPrint n) = n := by
  induction n using Nat.strong_induction_on with
  | _ n ih =>
    by_cases hn : n = 0
    · subst hn
      simp [natPrint_eq, digitsVal]
    · have hpos : 0 < n := Nat.pos_of_ne_zero hn
      have hdiv : n / 10 < n := Nat.div_lt_self hpos (by norm_num)
      rw [natPrint_eq, Nat.digits_def' (by norm_num : (1 : Nat) < 10) hpos]
      simp only [List.reverse_cons, List.map_append, List.map_cons, List.map_nil]
      rw [digitsVal_append, ← natPrint_eq, ih _ hdiv]
      have : digitsVal [digitChar (n % 10)] = n % 10 := by
        simp [digitsVal, digitVal_digitChar (Nat.mod_lt n (by norm_num))]
      rw [this]
      simp only [List.length_cons, List.length_nil]
      omega

theorem natLexeme_all_isDigit (n : Nat) : (natLexeme n).all Char.isDigit = true := by
  unfold natLexeme
  split
  · decide
  · exact natPrint_all_isDigit n

theorem natLexeme_ne_nil (n : Nat) : natLexeme n ≠ [] := by
  unfold natLexeme
  split
  · simp
  · rename_i hn
    rw [natPrint_eq]
    simp [Nat.digits_ne_nil_iff_ne_zero.mpr hn]

theorem digitsVal_natLexeme (n : Nat) : digitsVal (natLexeme n) = n := by
  unfold natLexeme
  split
  · rename_i h
    subst h
    decide
  · exact digitsVal_natPrint n

theorem natLexVal_natLexeme (n : Nat) : natLexVal (natLexeme n) = some n := by
  rw [natLexVal, if_pos ⟨natLexeme_ne_nil n, natLexeme_all_isDigit n⟩, digitsVal_natLexeme]

theorem mem_natLexeme {n : Nat} {c : Char} (h : c ∈ natLexeme n) :
    ∃ d, d < 10 ∧ c = digitChar d := by
  unfold natLexeme at h
  split at h
  · simp only [List.mem_singleton] at h
    exact ⟨0, by norm_num, by rw [h]; rfl⟩
  · exact mem_natPrint h

theorem natLexeme_head_not_minus (n : Nat) :
    ∀ c cs, natLexeme n = c :: cs → c ≠ '-' := by
  intro c cs h hc
  have hmem : c ∈ natLexeme n := by rw [h]; exact List.mem_cons_self c cs
  obtain ⟨d, hd, rfl⟩ := mem_natLexeme hmem
  exact digitChar_ne_minus hd hc

theorem natLexeme_head_ne_minus (n : Nat) : ¬ (natLexeme n).head? = some '-' := by
  intro h
  rcases hh : natLexeme n with _ | ⟨c, cs⟩
  · exact absurd hh (natLexeme_ne_nil _)
  · rw [hh] at h
    simp only [List.head?_cons, Option.some.injEq] at h
    exact natLexeme_head_not_minus _ _ _ hh h

theorem splitSign_intLexeme (x : Int) :
    splitSign (intLexeme x) = (decide (x < 0), natLexeme x.natAbs) := by
  by_cases hx : x < 0
  · rw [intLexeme, if_pos hx]
    simp [splitSign, hx]
  · rw [intLexeme, if_neg hx]
    have htoNat : x.toNat = x.natAbs := by omega
    rw [htoNat, splitSign, if_neg (natLexeme_head_ne_minus _)]
    simp [hx]

theorem natLexVal_of_minus {l : List Char} : natLexVal ('-' :: l) = none := by
  rw [natLexVal]
  split
  · rename_i h
    exfalso
    have := h.2
    simp [List.all_cons] at this
  · rfl

theorem intLexVal_intLexeme (x : Int) : intLexVal (intLexeme x) = some x := by
  by_cases hx : x < 0
  · rw [intLexeme, if_pos hx]
    show intLexVal ('-' :: natLexeme x.natAbs) = some x
    rw [intLexVal]
    simp only [List.head?_cons, List.tail_cons, Option.some.injEq, if_true]
    show (fun n => -(n : Int)) <$> natLexVal (natLexeme x.natAbs) = some x
    rw [natLexVal_natLexeme]
    show some (-(x.natAbs : Int)) = some x
    rw [Int.natCast_natAbs, abs_of_neg hx, neg_neg]
  · rw [intLexeme, if_neg hx]
    rw [intLexVal, if_neg (natLexeme_head_ne_minus _), natLexVal_natLexeme]
    show some ((x.toNat : Nat) : Int) = some x
    rw [Int.toNat_of_nonneg (by omega)]

/-! Helper lemmas: zero padding and canonical float payloads. -/

theorem digitsVal_replicate_zero (j : Nat) : digitsVal (List.replicate j '0') = 0 := by
  induction j with
  | zero => rfl
  | succ j ih =>
    rw [List.replicate_succ]
    show List.foldl _ (0 * 10 + digitVal '0') _ = 0
    exact ih

theorem digitsVal_padDigits (k m : Nat) : digitsVal (padDigits k m) = m := by
  rw [padDigits, digitsVal_append, digitsVal_replicate_zero, digitsVal_natPrint]
  ring

theorem length_natPrint_le {m k : Nat} (h : m < 10 ^ k) : (natPrint m).length ≤ k := by
  rw [natPrint_eq, List.length_map, List.length_reverse]
  by_cases hm : m = 0
  · subst hm
    simp
  · rw [Nat.digits_len _ _ (by norm_num) hm]
    have := Nat.log_lt_of_lt_pow hm h
    omega

theorem length_padDigits {k m : Nat} (h : m < 10 ^ k) : (padDigits k m).length = k := by
  rw [padDigits, List.length_append, List.length_replicate]
  have := length_natPrint_le h
  omega

theorem padDigits_all_isDigit (k m : Nat) : (padDigits k m).all Char.isDigit = true := by
  rw [padDigits, List.all_append]
  refine Bool.and_eq_true_iff.mpr ⟨?_, natPrint_all_isDigit m⟩
  rw [List.all_eq_true]
  intro c hc
  rw [List.eq_of_mem_replicate hc]
  decide

theorem padDigits_ne_nil {k m : Nat} (hk : 0 < k) (h : m < 10 ^ k) : padDigits k m ≠ [] := by
  intro hnil
  have := length_padDigits h
  rw [hnil] at this
  simp at this
  omega

theorem canonFloatGo_spec :
    ∀ (fuel : Nat) (m e : Int), m ≠ 0 → m.natAbs ≤ fuel →
    (canonFloatGo fuel m e).1 ≠ 0 ∧ ¬ ((canonFloatGo fuel m e).1 % 10 = 0) ∧
    ∃ k : Nat, m = (canonFloatGo fuel m e).1 * 10 ^ k ∧
      (canonFloatGo fuel m e).2 = e + k := by
  intro fuel
  induction fuel with
  | zero =>
    intro m e hm hf
    exfalso
    have : m.natAbs = 0 := by omega
    exact hm (Int.natAbs_eq_zero.mp this)
  | succ fuel ih =>
    intro m e hm hf
    rw [canonFloatGo]
    by_cases h10 : m % 10 = 0
    · rw [if_pos h10]
      have hdvd : (10 : Int) ∣ m := Int.dvd_of_emod_eq_zero h10
      have hcancel : 10 * (m / 10) = m := Int.mul_ediv_cancel' hdvd
      have hq : m / 10 ≠ 0 := by
        intro h
        rw [h, mul_zero] at hcancel
        exact hm hcancel.symm
      have hna : (m / 10).natAbs ≤ fuel := by
        have h1 : m.natAbs = 10 * (m / 10).natAbs := by
          conv_lhs => rw [← hcancel]
          rw [Int.natAbs_mul]
          norm_num
        have h2 : (m / 10).natAbs ≠ 0 := fun h => hq (Int.natAbs_eq_zero.mp h)
        omega
      obtain ⟨h1, h2, k, hk, he⟩ := ih (m / 10) (e + 1) hq hna
      refine ⟨h1, h2, k + 1, ?_, ?_⟩
      · rw [pow_succ]
        calc m = 10 * (m / 10) := hcancel.symm
        _ = 10 * ((canonFloatGo fuel (m / 10) (e + 1)).1 * 10 ^ k) := by rw [← hk]
        _ = (canonFloatGo fuel (m / 10) (e + 1)).1 * (10 ^ k * 10) := by ring
      · rw [he]
        push_cast
        ring
    · rw [if_neg h10]
      exact ⟨hm, h10, 0, by simp, by simp⟩

theorem canonFloat_spec {m : Int} (e : Int) (hm : m ≠ 0) :
    (canonFloat m e).1 ≠ 0 ∧ ¬ ((canonFloat m e).1 % 10 = 0) ∧
    ∃ k : Nat, m = (canonFloat m e).1 * 10 ^ k ∧ (canonFloat m e).2 = e + k := by
  rw [canonFloat, if_neg hm]
  exact canonFloatGo_spec _ m e hm le_rfl

theorem canonFloat_canonical (m e : Int) :
    FloatCanon (canonFloat m e).1 (canonFloat m e).2 := by
  by_cases hm : m = 0
  · subst hm
    rw [canonFloat, if_pos rfl]
    exact ⟨fun _ => rfl, fun h => absurd rfl h⟩
  · obtain ⟨h1, h2, _⟩ := canonFloat_spec e hm
    exact ⟨fun h => absurd h h1, fun _ => h2⟩

theorem pow10_factor_unique {a b : Int} {k j : Nat} (ha : ¬ a % 10 = 0)
    (hb : ¬ b % 10 = 0) (h : a * 10 ^ k = b * 10 ^ j) : a = b ∧ k = j := by
  induction k generalizing a b j with
  | zero =>
    cases j with
    | zero =>
      simp only [pow_zero, mul_one] at h
      exact ⟨h, rfl⟩
    | succ j =>
      exfalso
      apply ha
      simp only [pow_zero, mul_one] at h
      rw [h, pow_succ, ← mul_assoc]
      exact Int.mul_emod_left _ _
  | succ k ih =>
    cases j with
    | zero =>
      exfalso
      apply hb
      simp only [pow_zero, mul_one] at h
      rw [← h, pow_succ, ← mul_assoc]
      exact Int.mul_emod_left _ _
    | succ j =>
      have h' : a * 10 ^ k = b * 10 ^ j := by
        rw [pow_succ, pow_succ, ← mul_assoc, ← mul_assoc] at h
        exact mul_right_cancel₀ (by norm_num) h
      obtain ⟨h1, h2⟩ := ih ha hb h'
      exact ⟨h1, by omega⟩

theorem canonFloat_mul_pow {n : Int} (hn : n ≠ 0) (h10 : ¬ n % 10 = 0) (k : Nat) (e : Int) :
    canonFloat (n * 10 ^ k) e = (n, e + k) := by
  have hm : n * 10 ^ k ≠ 0 := mul_ne_zero hn (by positivity)
  obtain ⟨h1, h2, j, hj, hej⟩ := canonFloat_spec e hm
  obtain ⟨hab, hkj⟩ := pow10_factor_unique h2 h10 hj.symm
  have hfst : (canonFloat (n * 10 ^ k) e).1 = n := hab
  have hsnd : (canonFloat (n * 10 ^ k) e).2 = e + k := by
    rw [hej, hkj]
  rw [Prod.ext_iff]
  exact ⟨hfst, hsnd⟩

theorem canonFloat_id {n e : Int} (h : FloatCanon n e) : canonFloat n e = (n, e) := by
  by_cases hn : n = 0
  · subst hn
    rw [canonFloat, if_pos rfl, h.1 rfl]
  · have := canonFloat_mul_pow hn (h.2 hn) 0 e
    simpa using this

/-! Helper lemmas: takeWhile and dropWhile over a known split. -/

theorem takeWhile_append_eq {p : Char → Bool} (l cs : List Char) (hl : l.all p = true)
    (hcs : ∀ c cs2, cs = c :: cs2 → p c = false) :
    (l ++ cs).takeWhile p = l ∧ (l ++ cs).dropWhile p = cs := by
  induction l with
  | nil =>
    simp only [List.nil_append]
    cases cs with
    | nil => exact ⟨rfl, rfl⟩
    | cons c cs2 =>
      rw [List.takeWhile_cons, List.dropWhile_cons, hcs c cs2 rfl]
      exact ⟨rfl, rfl⟩
  | cons a l ih =>
    rw [List.all_cons, Bool.and_eq_true_iff] at hl
    obtain ⟨ha, hl⟩ := hl
    obtain ⟨ht, hd⟩ := ih hl
    rw [List.cons_append, List.takeWhile_cons, List.dropWhile_cons, ha]
    simp only [if_true]
    exact ⟨by rw [ht], by rw [hd]⟩

theorem takeWhile_all {p : Char → Bool} (l : List Char) (hl : l.all p = true) :
    l.takeWhile p = l ∧ l.dropWhile p = [] := by
  have := takeWhile_append_eq l [] hl (by intro c cs2 h; cases h)
  simpa using this

theorem head?_append_ne_nil {l cs : List Char} (h : l ≠ []) :
    (l ++ cs).head? = l.head? := by
  cases l with
  | nil => exact absurd rfl h
  | cons c l2 => rfl

/-! Helper lemmas: parsing a printed float lexeme recovers the
canonical payload. -/

theorem if_sign_natAbs (x : Int) :
    (if decide (x < 0) = true then -(x.natAbs : Int) else (x.natAbs : Int)) = x := by
  by_cases hx : x < 0
  · rw [if_pos (decide_eq_true hx), Int.natCast_natAbs, abs_of_neg hx, neg_neg]
  · rw [if_neg (by rw [decide_eq_true_eq]; exact hx), Int.natCast_natAbs,
      abs_of_nonneg (by omega)]

theorem floatLexVal_intLexeme (x : Int) :
    floatLexVal (intLexeme x) = some (canonFloat x 0) := by
  rw [floatLexVal, splitSign_intLexeme]
  show (if (natLexeme x.natAbs).takeWhile Char.isDigit = [] then none else _) = _
  obtain ⟨ht, hd⟩ := takeWhile_all (natLexeme x.natAbs) (natLexeme_all_isDigit _)
  rw [ht, hd, if_neg (natLexeme_ne_nil _)]
  show (match expPart [] with
    | none => none
    | some e =>
      some (canonFloat
        (if decide (x < 0) = true then -(digitsVal (natLexeme x.natAbs ++ []) : Int)
         else (digitsVal (natLexeme x.natAbs ++ []) : Int))
        (e - (([] : List Char)).length)) : Option (Int × Int)) = some (canonFloat x 0)
  show some (canonFloat
      (if decide (x < 0) = true then -(digitsVal (natLexeme x.natAbs ++ []) : Int)
       else (digitsVal (natLexeme x.natAbs ++ []) : Int)) (0 - 0)) = some (canonFloat x 0)
  rw [List.append_nil, digitsVal_natLexeme, if_sign_natAbs]
  norm_num

theorem floatLexVal_floatLexeme {n e : Int} (h : FloatCanon n e) :
    floatLexVal (floatLexeme n e) = some (n, e) := by
  by_cases he : e < 0
  · -- fractional rendering
    have hn : n ≠ 0 := by
      intro hn0
      rw [h.1 hn0] at he
      exact absurd he (by norm_num)
    have hk : 0 < (-e).toNat := by omega
    have hrlt : n.natAbs % 10 ^ (-e).toNat < 10 ^ (-e).toNat :=
      Nat.mod_lt _ (Nat.pos_pow_of_pos _ (by norm_num))
    have hpadne : padDigits (-e).toNat (n.natAbs % 10 ^ (-e).toNat) ≠ [] :=
      padDigits_ne_nil hk hrlt
    have hhead : ¬ (natLexeme (n.natAbs / 10 ^ (-e).toNat) ++
        '.' :: padDigits (-e).toNat (n.natAbs % 10 ^ (-e).toNat)).head? = some '-' := by
      rw [head?_append_ne_nil (natLexeme_ne_nil _)]
      exact natLexeme_head_ne_minus _
    have hsplit : splitSign (floatLexeme n e) =
        (decide (n < 0), natLexeme (n.natAbs / 10 ^ (-e).toNat) ++
          '.' :: padDigits (-e).toNat (n.natAbs % 10 ^ (-e).toNat)) := by
      rw [floatLexeme, if_pos he]
      by_cases hneg : n < 0
      · rw [if_pos hneg]
        show ((true, natLexeme (n.natAbs / 10 ^ (-e).toNat) ++
          '.' :: padDigits (-e).toNat (n.natAbs % 10 ^ (-e).toNat)) : Bool × List Char) = _
        rw [decide_eq_true hneg]
      · rw [if_neg hneg]
        simp only [List.nil_append]
        rw [splitSign, if_neg hhead, decide_eq_false hneg]
    rw [floatLexVal, hsplit]
    obtain ⟨ht, hd⟩ := takeWhile_append_eq (natLexeme (n.natAbs / 10 ^ (-e).toNat))
      ('.' :: padDigits (-e).toNat (n.natAbs % 10 ^ (-e).toNat))
      (natLexeme_all_isDigit _)
      (by intro c cs2 hcc
          obtain ⟨h1, _⟩ := List.cons.inj hcc
          rw [← h1]
          decide)
    show (if _ = [] then none else _) = _
    rw [ht, hd, if_neg (natLexeme_ne_nil _)]
    have hfrac : fracPart ('.' :: padDigits (-e).toNat (n.natAbs % 10 ^ (-e).toNat)) =
        some (padDigits (-e).toNat (n.natAbs % 10 ^ (-e).toNat), []) := by
      obtain ⟨ht2, hd2⟩ := takeWhile_all _ (padDigits_all_isDigit (-e).toNat
        (n.natAbs % 10 ^ (-e).toNat))
      rw [fracPart]
      simp only [List.head?_cons, Option.some.injEq, if_true, List.tail_cons]
      rw [ht2, hd2, if_neg hpadne]
    rw [hfrac]
    show (match expPart [] with
      | none => none
      | some e0 => _ : Option (Int × Int)) = _
    show some (canonFloat
        (if decide (n < 0) = true
         then -(digitsVal (natLexeme (n.natAbs / 10 ^ (-e).toNat) ++
            padDigits (-e).toNat (n.natAbs % 10 ^ (-e).toNat)) : Int)
         else (digitsVal (natLexeme (n.natAbs / 10 ^ (-e).toNat) ++
            padDigits (-e).toNat (n.natAbs % 10 ^ (-e).toNat)) : Int))
        (0 - (padDigits (-e).toNat (n.natAbs % 10 ^ (-e).toNat)).length)) = some (n, e)
    rw [digitsVal_append, digitsVal_padDigits, length_padDigits hrlt,
      digitsVal_natLexeme, Nat.div_add_mod', if_sign_natAbs]
    have hexp : (0 : Int) - ((-e).toNat : Int) = e := by omega
    rw [hexp, canonFloat_id h]
  · -- integral rendering
    rw [floatLexeme, if_neg he, floatLexVal_intLexeme]
    by_cases hn : n = 0
    · subst hn
      rw [h.1 rfl]
      simp [canonFloat]
    · rw [canonFloat_mul_pow hn (h.2 hn)]
      have : ((e.toNat : Nat) : Int) = e := Int.toNat_of_nonneg (by omega)
      rw [zero_add, this]

/-! Helper lemmas: lexeme character classes. -/

theorem isIdentChar_of_isDigit {c : Char} (h : c.isDigit = true) : isIdentChar c = true := by
  simp [isIdentChar, h]

theorem natLexeme_chars {n : Nat} : ∀ c ∈ natLexeme n, c.isDigit = true := by
  intro c hc
  obtain ⟨d, hd, rfl⟩ := mem_natLexeme hc
  exact isDigit_digitChar hd

theorem intLexeme_chars {x : Int} :
    ∀ c ∈ intLexeme x, isIdentChar c = true ∧ c ≠ ')' := by
  intro c hc
  rw [intLexeme] at hc
  have digitCase : ∀ m, c ∈ natLexeme m → isIdentChar c = true ∧ c ≠ ')' := by
    intro m hm
    have hdig := natLexeme_chars c hm
    refine ⟨isIdentChar_of_isDigit hdig, ?_⟩
    intro hcc
    rw [hcc] at hdig
    exact absurd hdig (by decide)
  split at hc
  · rcases List.mem_cons.mp hc with rfl | hm
    · exact ⟨by decide, by decide⟩
    · exact digitCase _ hm
  · exact digitCase _ hc

theorem mem_padDigits_chars {k m : Nat} : ∀ c ∈ padDigits k m, c.isDigit = true := by
  intro c hc
  rw [padDigits] at hc
  rcases List.mem_append.mp hc with hr | hp
  · rw [List.eq_of_mem_replicate hr]
    decide
  · obtain ⟨d, hd, rfl⟩ := mem_natPrint hp
    exact isDigit_digitChar hd

theorem floatLexeme_chars {n e : Int} :
    ∀ c ∈ floatLexeme n e, isIdentChar c = true ∧ c ≠ ')' := by
  intro c hc
  rw [floatLexeme] at hc
  have digitOk : c.isDigit = true → isIdentChar c = true ∧ c ≠ ')' := by
    intro hdig
    refine ⟨isIdentChar_of_isDigit hdig, ?_⟩
    intro hcc
    rw [hcc] at hdig
    exact absurd hdig (by decide)
  split at hc
  · rcases List.mem_append.mp hc with hs | hdot
    · rcases List.mem_append.mp hs with hsign | hq
      · by_cases hneg : n < 0
        · rw [if_pos hneg] at hsign
          simp only [List.mem_singleton] at hsign
          rw [hsign]
          exact ⟨by decide, by decide⟩
        · rw [if_neg hneg] at hsign
          simp at hsign
      · exact digitOk (natLexeme_chars c hq)
    · rcases List.mem_cons.mp hdot with rfl | hp
      · exact ⟨by decide, by decide⟩
      · exact digitOk (mem_padDigits_chars c hp)
  · exact intLexeme_chars c hc

theorem natLexeme_all_ident (n : Nat) : (natLexeme n).all isIdentChar = true := by
  rw [List.all_eq_true]
  intro c hc
  exact isIdentChar_of_isDigit (natLexeme_chars c hc)

theorem validIdent_natLexeme (n : Nat) : validIdent (natLexeme n) = true := by
  rw [validIdent, Bool.and_eq_true_iff]
  exact ⟨decide_eq_true (natLexeme_ne_nil n), natLexeme_all_ident n⟩

theorem intLexeme_ne_nil (x : Int) : intLexeme x ≠ [] := by
  rw [intLexeme]
  split
  · simp
  · exact natLexeme_ne_nil _

theorem validIdent_intLexeme (x : Int) : validIdent (intLexeme x) = true := by
  rw [validIdent, Bool.and_eq_true_iff, List.all_eq_true]
  exact ⟨decide_eq_true (intLexeme_ne_nil x), fun c hc => (intLexeme_chars c hc).1⟩

theorem floatLexeme_ne_nil (n e : Int) : floatLexeme n e ≠ [] := by
  rw [floatLexeme]
  split
  · intro hnil
    have h2 := (List.append_eq_nil.mp hnil).2
    cases h2
  · exact intLexeme_ne_nil _

theorem validIdent_floatLexeme (n e : Int) : validIdent (floatLexeme n e) = true := by
  rw [validIdent, Bool.and_eq_true_iff, List.all_eq_true]
  exact ⟨decide_eq_true (floatLexeme_ne_nil n e), fun c hc => (floatLexeme_chars c hc).1⟩

theorem rparen_not_mem_natLexeme (n : Nat) : ')' ∉ natLexeme n := by
  intro h
  have := natLexeme_chars _ h
  exact absurd this (by decide)

theorem rparen_not_mem_intLexeme (x : Int) : ')' ∉ intLexeme x :=
  fun h => (intLexeme_chars _ h).2 rfl

theorem rparen_not_mem_floatLexeme (n e : Int) : ')' ∉ floatLexeme n e :=
  fun h => (floatLexeme_chars _ h).2 rfl

/-! Helper lemmas: tags and the scalar coercer on printed payloads. -/

theorem parseTag_name (tag : GblnTag) : parseTag tag.name = some tag := by
  cases tag with
  | gInt t => cases t <;> rfl
  | gUInt t => cases t <;> rfl
  | gFloat t => cases t <;> rfl
  | gStr t => cases t <;> rfl
  | gBool => rfl
  | gNull => rfl

theorem validIdent_tagName (tag : GblnTag) : validIdent tag.name = true := by
  cases tag with
  | gInt t => cases t <;> decide
  | gUInt t => cases t <;> decide
  | gFloat t => cases t <;> decide
  | gStr t => cases t <;> decide
  | gBool => decide
  | gNull => decide

theorem coerce_int_lexeme {t : IntTag} {x : Int} (h : t.minVal ≤ x ∧ x ≤ t.maxVal) :
    coerce (.gInt t) (intLexeme x) = .ok (.vInt t x) := by
  show (match intLexVal (intLexeme x) with
    | none => Except.error _
    | some x => if t.minVal ≤ x ∧ x ≤ t.maxVal then Except.ok (Value.vInt t x)
      else Except.error _) = Except.ok (Value.vInt t x)
  rw [intLexVal_intLexeme]
  show (if t.minVal ≤ x ∧ x ≤ t.maxVal then Except.ok (Value.vInt t x) else _) = _
  rw [if_pos h]

theorem coerce_uint_lexeme {t : UIntTag} {x : Nat} (h : x ≤ t.maxVal) :
    coerce (.gUInt t) (natLexeme x) = .ok (.vUInt t x) := by
  show (match natLexVal (natLexeme x) with
    | none => Except.error _
    | some x => if x ≤ t.maxVal then Except.ok (Value.vUInt t x)
      else Except.error _) = Except.ok (Value.vUInt t x)
  rw [natLexVal_natLexeme]
  show (if x ≤ t.maxVal then Except.ok (Value.vUInt t x) else _) = _
  rw [if_pos h]

theorem coerce_float_lexeme {t : FloatTag} {n e : Int} (h : FloatCanon n e) :
    coerce (.gFloat t) (floatLexeme n e) = .ok (.vFloat t n e) := by
  show (match floatLexVal (floatLexeme n e) with
    | none => Except.error _
    | some (n, e) => Except.ok (Value.vFloat t n e)) = Except.ok (Value.vFloat t n e)
  rw [floatLexVal_floatLexeme h]

theorem coerce_str_lexeme {t : StrTag} {s : List Char} (h : utf8Len s ≤ t.maxBytes) :
    coerce (.gStr t) s = .ok (.vStr t s) := by
  show (if utf8Len s ≤ t.maxBytes then Except.ok (Value.vStr t s) else _) = _
  rw [if_pos h]

theorem coerce_scalarPayload {v : Value} {tag : GblnTag} {p : List Char}
    (ht : scalarTagOf v = some tag) (hp : scalarPayload v = some p) (hw : WfValue v) :
    coerce tag p = .ok v := by
  cases v with
  | vInt t x =>
    obtain rfl := Option.some.inj (show some (GblnTag.gInt t) = some tag from ht)
    obtain rfl := Option.some.inj (show some (intLexeme x) = some p from hp)
    cases hw with
    | int _ _ h => exact coerce_int_lexeme h
  | vUInt t x =>
    obtain rfl := Option.some.inj (show some (GblnTag.gUInt t) = some tag from ht)
    obtain rfl := Option.some.inj (show some (natLexeme x) = some p from hp)
    cases hw with
    | uint _ _ h => exact coerce_uint_lexeme h
  | vFloat t n e =>
    obtain rfl := Option.some.inj (show some (GblnTag.gFloat t) = some tag from ht)
    obtain rfl := Option.some.inj (show some (floatLexeme n e) = some p from hp)
    cases hw with
    | float _ _ _ h => exact coerce_float_lexeme h
  | vStr t s =>
    obtain rfl := Option.some.inj (show some (GblnTag.gStr t) = some tag from ht)
    have hp2 : (if ')' ∈ s then none else some s) = some p := hp
    split at hp2
    · exact absurd hp2 (by simp)
    · obtain rfl := Option.some.inj hp2
      cases hw with
      | str _ _ h => exact coerce_str_lexeme h
  | vBool b =>
    obtain rfl := Option.some.inj (show some GblnTag.gBool = some tag from ht)
    obtain rfl := Option.some.inj
      (show some (if b then ['t'] else ['f']) = some p from hp)
    cases b <;> rfl
  | vNull =>
    obtain rfl := Option.some.inj (show some GblnTag.gNull = some tag from ht)
    obtain rfl := Option.some.inj (show some [] = some p from hp)
    rfl
  | vObj fs => exact Option.noConfusion ht
  | vArr es => exact Option.noConfusion ht

theorem coerce_bareLexeme {v : Value} {tag : GblnTag} {l : List Char}
    (ht : scalarTagOf v = some tag) (hl : bareLexeme v = some l) (hw : WfValue v) :
    coerce tag l = .ok v := by
  cases v with
  | vInt t x =>
    obtain rfl := Option.some.inj (show some (GblnTag.gInt t) = some tag from ht)
    obtain rfl := Option.some.inj (show some (intLexeme x) = some l from hl)
    cases hw with
    | int _ _ h => exact coerce_int_lexeme h
  | vUInt t x =>
    obtain rfl := Option.some.inj (show some (GblnTag.gUInt t) = some tag from ht)
    obtain rfl := Option.some.inj (show some (natLexeme x) = some l from hl)
    cases hw with
    | uint _ _ h => exact coerce_uint_lexeme h
  | vFloat t n e =>
    obtain rfl := Option.some.inj (show some (GblnTag.gFloat t) = some tag from ht)
    obtain rfl := Option.some.inj (show some (floatLexeme n e) = some l from hl)
    cases hw with
    | float _ _ _ h => exact coerce_float_lexeme h
  | vStr t s =>
    obtain rfl := Option.some.inj (show some (GblnTag.gStr t) = some tag from ht)
    have hl2 : (if validIdent s = true then some s else none) = some l := hl
    split at hl2
    · obtain rfl := Option.some.inj hl2
      cases hw with
      | str _ _ h => exact coerce_str_lexeme h
    · exact absurd hl2 (by simp)
  | vBool b =>
    obtain rfl := Option.some.inj (show some GblnTag.gBool = some tag from ht)
    obtain rfl := Option.some.inj
      (show some (if b then ['t'] else ['f']) = some l from hl)
    cases b <;> rfl
  | vNull => exact Option.noConfusion hl
  | vObj fs => exact Option.noConfusion ht
  | vArr es => exact Option.noConfusion ht

/-! Helper lemmas: the lexer recovers a rendered token list. -/

theorem not_ws_of_identChar {c : Char} (h : isIdentChar c = true) : isWsChar c = false := by
  by_contra hws
  rw [Bool.not_eq_false] at hws
  simp only [isWsChar, Bool.or_eq_true, decide_eq_true_eq] at hws
  rcases hws with ((rfl | rfl) | rfl) | rfl <;> exact absurd h (by decide)

theorem ne_special_of_identChar {c : Char} (h : isIdentChar c = true) :
    c ≠ '{' ∧ c ≠ '}' ∧ c ≠ '[' ∧ c ≠ ']' ∧ c ≠ '<' ∧ c ≠ '>' ∧ c ≠ '(' := by
  refine ⟨?_, ?_, ?_, ?_, ?_, ?_, ?_⟩ <;>
    (intro hcc; rw [hcc] at h; exact absurd h (by decide))

theorem headNotIdent_iff (cs : List Char) :
    headNotIdent cs ↔ ∀ c cs2, cs = c :: cs2 → isIdentChar c = false := by
  cases cs with
  | nil =>
    constructor
    · intro _ c cs2 h
      cases h
    · intro _
      trivial
  | cons c cs2 =>
    constructor
    · intro h c2 cs3 heq
      obtain ⟨rfl, rfl⟩ := List.cons.inj heq
      exact h
    · intro h
      exact h c cs2 rfl

theorem lexGo_rendersTo {ts : List Token} {cs : List Char} (h : RendersTo ts cs) :
    ∀ fuel, cs.length < fuel → lexGo fuel cs = .ok ts := by
  induction h with
  | nil =>
    intro fuel hf
    cases fuel with
    | zero => omega
    | succ f => rfl
  | ws c ts cs hc hr ih =>
    intro fuel hf
    cases fuel with
    | zero => simp at hf
    | succ f =>
      show (if isWsChar c = true then lexGo f cs else _) = _
      rw [if_pos hc]
      exact ih f (by simp at hf; omega)
  | lbrace ts cs hr ih =>
    intro fuel hf
    cases fuel with
    | zero => simp at hf
    | succ f =>
      show (fun ts => Token.lbrace :: ts) <$> lexGo f cs = _
      rw [ih f (by simp at hf; omega)]
      rfl
  | rbrace ts cs hr ih =>
    intro fuel hf
    cases fuel with
    | zero => simp at hf
    | succ f =>
      show (fun ts => Token.rbrace :: ts) <$> lexGo f cs = _
      rw [ih f (by simp at hf; omega)]
      rfl
  | lbracket ts cs hr ih =>
    intro fuel hf
    cases fuel with
    | zero => simp at hf
    | succ f =>
      show (fun ts => Token.lbracket :: ts) <$> lexGo f cs = _
      rw [ih f (by simp at hf; omega)]
      rfl
  | rbracket ts cs hr ih =>
    intro fuel hf
    cases fuel with
    | zero => simp at hf
    | succ f =>
      show (fun ts => Token.rbracket :: ts) <$> lexGo f cs = _
      rw [ih f (by simp at hf; omega)]
      rfl
  | ltTok ts cs hr ih =>
    intro fuel hf
    cases fuel with
    | zero => simp at hf
    | succ f =>
      show (fun ts => Token.lt :: ts) <$> lexGo f cs = _
      rw [ih f (by simp at hf; omega)]
      rfl
  | gtTok ts cs hr ih =>
    intro fuel hf
    cases fuel with
    | zero => simp at hf
    | succ f =>
      show (fun ts => Token.gt :: ts) <$> lexGo f cs = _
      rw [ih f (by simp at hf; omega)]
      rfl
  | ident s ts cs hs hsep hr ih =>
    intro fuel hf
    rw [validIdent, Bool.and_eq_true_iff, decide_eq_true_eq] at hs
    obtain ⟨hne, hall⟩ := hs
    cases s with
    | nil => exact absurd rfl hne
    | cons c s2 =>
      cases fuel with
      | zero => simp at hf
      | succ f =>
        rw [List.all_cons, Bool.and_eq_true_iff] at hall
        obtain ⟨hc, hall⟩ := hall
        obtain ⟨h1, h2, h3, h4, h5, h6, h7⟩ := ne_special_of_identChar hc
        show lexGo (f + 1) (c :: (s2 ++ cs)) = _
        rw [lexGo, if_neg (by rw [not_ws_of_identChar hc]; simp),
          if_neg h1, if_neg h2, if_neg h3, if_neg h4, if_neg h5, if_neg h6, if_neg h7,
          if_pos hc]
        obtain ⟨ht, hd⟩ := takeWhile_append_eq s2 cs hall
          (by intro c2 cs2 heq
              rw [(headNotIdent_iff cs).mp hsep c2 cs2 heq])
        rw [ht, hd, ih f (by simp at hf ⊢; omega)]
        rfl
  | payload s ts cs hs hr ih =>
    intro fuel hf
    cases fuel with
    | zero => simp at hf
    | succ f =>
      show (if ')' ∈ s ++ ')' :: cs then
          (fun ts => Token.payload ((s ++ ')' :: cs).takeWhile notCloseParen) :: ts) <$>
            lexGo f (((s ++ ')' :: cs).dropWhile notCloseParen).tail)
        else Except.error (mkErr .errUnterminatedString "unterminated string payload")) = _
      rw [if_pos (List.mem_append.mpr (Or.inr (List.mem_cons_self _ _)))]
      obtain ⟨ht, hd⟩ := @takeWhile_append_eq notCloseParen s (')' :: cs)
        (by rw [List.all_eq_true]
            intro c hcmem
            show (if c = ')' then false else true) = true
            rw [if_neg (fun hcc => hs (by rw [← hcc]; exact hcmem))])
        (by intro c2 cs2 heq
            obtain ⟨rfl, _⟩ := List.cons.inj heq
            rfl)
      rw [ht, hd]
      show (fun ts => Token.payload s :: ts) <$> lexGo f cs = _
      rw [ih f (by simp at hf; omega)]
      rfl

theorem rendersTo_ws_append {w : List Char} (hw : ∀ c ∈ w, isWsChar c = true)
    {ts : List Token} {cs : List Char} (h : RendersTo ts cs) : RendersTo ts (w ++ cs) := by
  induction w with
  | nil => exact h
  | cons c w ih =>
    exact RendersTo.ws c ts (w ++ cs) (hw c (List.mem_cons_self c w))
      (ih (fun c2 hc2 => hw c2 (List.mem_cons_of_mem c hc2)))

/-! Helper lemmas: the compact and pretty renderings of a well-formed
token list are recovered by the lexer. -/

theorem headNotIdent_text_append (t : Token) (rest : List Char)
    (h : ∀ s, t ≠ .ident s) : headNotIdent (tokenText t ++ rest) := by
  cases t with
  | lbrace => show isIdentChar '{' = false; decide
  | rbrace => show isIdentChar '}' = false; decide
  | lbracket => show isIdentChar '[' = false; decide
  | rbracket => show isIdentChar ']' = false; decide
  | lt => show isIdentChar '<' = false; decide
  | gt => show isIdentChar '>' = false; decide
  | ident s => exact absurd rfl (h s)
  | payload s => show isIdentChar '(' = false; decide

theorem headNotIdent_tokenText (t : Token) (h : ∀ s, t ≠ .ident s) :
    headNotIdent (tokenText t) := by
  cases t with
  | lbrace => show isIdentChar '{' = false; decide
  | rbrace => show isIdentChar '}' = false; decide
  | lbracket => show isIdentChar '[' = false; decide
  | rbracket => show isIdentChar ']' = false; decide
  | lt => show isIdentChar '<' = false; decide
  | gt => show isIdentChar '>' = false; decide
  | ident s => exact absurd rfl (h s)
  | payload s => show isIdentChar '(' = false; decide

theorem compactRender_cons_eq (t t2 : Token) (ts : List Token) :
    compactRender (t :: t2 :: ts) =
      tokenText t ++ ((if needSep t t2 then [' '] else []) ++ compactRender (t2 :: ts)) := by
  rw [compactRender, List.append_assoc]

theorem headNotIdent_compactRender (t2 : Token) (ts : List Token)
    (h : ∀ s, t2 ≠ .ident s) : headNotIdent (compactRender (t2 :: ts)) := by
  cases ts with
  | nil => exact headNotIdent_tokenText t2 h
  | cons t3 ts3 =>
    rw [compactRender_cons_eq]
    exact headNotIdent_text_append t2 _ h

theorem sepList_ws (b : Bool) : ∀ c ∈ (if b then [' '] else ([] : List Char)),
    isWsChar c = true := by
  intro c hc
  cases b with
  | false => exact absurd hc (List.not_mem_nil c)
  | true =>
    rw [if_pos rfl, List.mem_singleton] at hc
    rw [hc]
    decide

theorem compactRender_rendersTo : ∀ {ts : List Token}, toksWf ts = true →
    RendersTo ts (compactRender ts) := by
  intro ts
  induction ts with
  | nil => intro _; exact RendersTo.nil
  | cons t ts ih =>
    intro h
    rw [toksWf, List.all_cons, Bool.and_eq_true_iff] at h
    obtain ⟨hwt, hwts⟩ := h
    cases ts with
    | nil =>
      cases t with
      | lbrace => exact RendersTo.lbrace [] [] RendersTo.nil
      | rbrace => exact RendersTo.rbrace [] [] RendersTo.nil
      | lbracket => exact RendersTo.lbracket [] [] RendersTo.nil
      | rbracket => exact RendersTo.rbracket [] [] RendersTo.nil
      | lt => exact RendersTo.ltTok [] [] RendersTo.nil
      | gt => exact RendersTo.gtTok [] [] RendersTo.nil
      | ident s =>
        have := RendersTo.ident s [] [] hwt trivial RendersTo.nil
        simpa using this
      | payload s =>
        exact RendersTo.payload s [] [] (of_decide_eq_true hwt) RendersTo.nil
    | cons t2 ts2 =>
      have ihr := ih hwts
      rw [compactRender_cons_eq]
      cases t with
      | lbrace =>
        exact RendersTo.lbrace _ _ (rendersTo_ws_append (sepList_ws _) ihr)
      | rbrace =>
        exact RendersTo.rbrace _ _ (rendersTo_ws_append (sepList_ws _) ihr)
      | lbracket =>
        exact RendersTo.lbracket _ _ (rendersTo_ws_append (sepList_ws _) ihr)
      | rbracket =>
        exact RendersTo.rbracket _ _ (rendersTo_ws_append (sepList_ws _) ihr)
      | lt =>
        exact RendersTo.ltTok _ _ (rendersTo_ws_append (sepList_ws _) ihr)
      | gt =>
        exact RendersTo.gtTok _ _ (rendersTo_ws_append (sepList_ws _) ihr)
      | ident s =>
        cases t2 with
        | ident s2 =>
          exact RendersTo.ident s _ _ hwt (by show isIdentChar ' ' = false; decide)
            (rendersTo_ws_append (sepList_ws _) ihr)
        | lbrace =>
          exact RendersTo.ident s _ _ hwt
            (headNotIdent_compactRender _ _ (fun _ h => Token.noConfusion h)) ihr
        | rbrace =>
          exact RendersTo.ident s _ _ hwt
            (headNotIdent_compactRender _ _ (fun _ h => Token.noConfusion h)) ihr
        | lbracket =>
          exact RendersTo.ident s _ _ hwt
            (headNotIdent_compactRender _ _ (fun _ h => Token.noConfusion h)) ihr
        | rbracket =>
          exact RendersTo.ident s _ _ hwt
            (headNotIdent_compactRender _ _ (fun _ h => Token.noConfusion h)) ihr
        | lt =>
          exact RendersTo.ident s _ _ hwt
            (headNotIdent_compactRender _ _ (fun _ h => Token.noConfusion h)) ihr
        | gt =>
          exact RendersTo.ident s _ _ hwt
            (headNotIdent_compactRender _ _ (fun _ h => Token.noConfusion h)) ihr
        | payload s2 =>
          exact RendersTo.ident s _ _ hwt
            (headNotIdent_compactRender _ _ (fun _ h => Token.noConfusion h)) ihr
      | payload s =>
        have hp := of_decide_eq_true hwt
        have base := RendersTo.payload s _ _ hp
          (rendersTo_ws_append (sepList_ws (needSep (.payload s) t2)) ihr)
        simpa [tokenText, List.append_assoc] using base

theorem mem_nlIndent {d : Nat} {c : Char} (h : c ∈ nlIndent d) : isWsChar c = true := by
  rw [nlIndent] at h
  rcases List.mem_cons.mp h with rfl | hr
  · decide
  · rw [List.eq_of_mem_replicate hr]
    decide

theorem prettySep_ws (d : Nat) (t t2 : Token) :
    ∀ c ∈ prettySep d t t2, isWsChar c = true := by
  cases t <;> cases t2 <;> intro c hc <;>
    first
    | exact mem_nlIndent hc
    | (have hc2 : c ∈ ([' '] : List Char) := hc
       rw [List.mem_singleton] at hc2
       rw [hc2]
       decide)
    | exact absurd (show c ∈ ([] : List Char) from hc) (List.not_mem_nil c)

theorem prettyGo_cons_eq (d : Nat) (t t2 : Token) (ts : List Token) :
    prettyRenderGo d t (t2 :: ts) =
      tokenText t ++ (prettySep (depthAfter d t) t t2 ++
        prettyRenderGo (depthAfter d t) t2 ts) := by
  rw [prettyRenderGo, List.append_assoc]

theorem headNotIdent_prettyGo (d : Nat) (t2 : Token) (ts : List Token)
    (h : ∀ s, t2 ≠ .ident s) : headNotIdent (prettyRenderGo d t2 ts) := by
  cases ts with
  | nil => exact headNotIdent_tokenText t2 h
  | cons t3 ts3 =>
    rw [prettyGo_cons_eq]
    exact headNotIdent_text_append t2 _ h

theorem prettyGo_rendersTo : ∀ (ts : List Token) (d : Nat) (t : Token),
    tokenWf t = true → toksWf ts = true →
    RendersTo (t :: ts) (prettyRenderGo d t ts) := by
  intro ts
  induction ts with
  | nil =>
    intro d t hwt _
    cases t with
    | lbrace => exact RendersTo.lbrace [] [] RendersTo.nil
    | rbrace => exact RendersTo.rbrace [] [] RendersTo.nil
    | lbracket => exact RendersTo.lbracket [] [] RendersTo.nil
    | rbracket => exact RendersTo.rbracket [] [] RendersTo.nil
    | lt => exact RendersTo.ltTok [] [] RendersTo.nil
    | gt => exact RendersTo.gtTok [] [] RendersTo.nil
    | ident s =>
      have := RendersTo.ident s [] [] hwt trivial RendersTo.nil
      simpa using this
    | payload s =>
      exact RendersTo.payload s [] [] (of_decide_eq_true hwt) RendersTo.nil
  | cons t2 ts2 ih =>
    intro d t hwt hw2
    rw [toksWf, List.all_cons, Bool.and_eq_true_iff] at hw2
    obtain ⟨hwt2, hwts2⟩ := hw2
    have ihr := ih (depthAfter d t) t2 hwt2 hwts2
    rw [prettyGo_cons_eq]
    cases t with
    | lbrace =>
      exact RendersTo.lbrace _ _ (rendersTo_ws_append (prettySep_ws _ _ _) ihr)
    | rbrace =>
      exact RendersTo.rbrace _ _ (rendersTo_ws_append (prettySep_ws _ _ _) ihr)
    | lbracket =>
      exact RendersTo.lbracket _ _ (rendersTo_ws_append (prettySep_ws _ _ _) ihr)
    | rbracket =>
      exact RendersTo.rbracket _ _ (rendersTo_ws_append (prettySep_ws _ _ _) ihr)
    | lt =>
      exact RendersTo.ltTok _ _ (rendersTo_ws_append (prettySep_ws _ _ _) ihr)
    | gt =>
      exact RendersTo.gtTok _ _ (rendersTo_ws_append (prettySep_ws _ _ _) ihr)
    | ident s =>
      cases t2 with
      | ident s2 =>
        exact RendersTo.ident s _ _ hwt (by show isIdentChar ' ' = false; decide)
          (rendersTo_ws_append (prettySep_ws _ _ _) ihr)
      | rbrace =>
        exact RendersTo.ident s _ _ hwt
          (by show headNotIdent (nlIndent _ ++ _)
              show isIdentChar '\n' = false
              decide)
          (rendersTo_ws_append (prettySep_ws _ _ _) ihr)
      | lbrace =>
        exact RendersTo.ident s _ _ hwt
          (headNotIdent_prettyGo _ _ _ (fun _ h => Token.noConfusion h)) ihr
      | lbracket =>
        exact RendersTo.ident s _ _ hwt
          (headNotIdent_prettyGo _ _ _ (fun _ h => Token.noConfusion h)) ihr
      | rbracket =>
        exact RendersTo.ident s _ _ hwt
          (headNotIdent_prettyGo _ _ _ (fun _ h => Token.noConfusion h)) ihr
      | lt =>
        exact RendersTo.ident s _ _ hwt
          (headNotIdent_prettyGo _ _ _ (fun _ h => Token.noConfusion h)) ihr
      | gt =>
        exact RendersTo.ident s _ _ hwt
          (headNotIdent_prettyGo _ _ _ (fun _ h => Token.noConfusion h)) ihr
      | payload s2 =>
        exact RendersTo.ident s _ _ hwt
          (headNotIdent_prettyGo _ _ _ (fun _ h => Token.noConfusion h)) ihr
    | payload s =>
      have hp := of_decide_eq_true hwt
      have base := RendersTo.payload s _ _ hp
        (rendersTo_ws_append
          (prettySep_ws (depthAfter d (Token.payload s)) (Token.payload s) t2) ihr)
      simpa [tokenText, List.append_assoc] using base

theorem prettyRender_rendersTo {ts : List Token} (h : toksWf ts = true) :
    RendersTo ts (prettyRender ts) := by
  cases ts with
  | nil => exact RendersTo.nil
  | cons t ts2 =>
    rw [toksWf, List.all_cons, Bool.and_eq_true_iff] at h
    exact prettyGo_rendersTo ts2 0 t h.1 h.2

theorem gbln_lex_rendersTo {ts : List Token} {cs : List Char} (h : RendersTo ts cs) :
    gbln_lex cs = .ok ts := by
  rw [gbln_lex]
  exact lexGo_rendersTo h (cs.length + 1) (by omega)

/-! Helper lemmas: serializer output is a well-formed token stream. -/

theorem scalarPayload_no_rparen {v : Value} {p : List Char}
    (h : scalarPayload v = some p) : ')' ∉ p := by
  cases v with
  | vInt t x =>
    obtain rfl := Option.some.inj (show some (intLexeme x) = some p from h)
    exact rparen_not_mem_intLexeme x
  | vUInt t x =>
    obtain rfl := Option.some.inj (show some (natLexeme x) = some p from h)
    exact rparen_not_mem_natLexeme x
  | vFloat t n e =>
    obtain rfl := Option.some.inj (show some (floatLexeme n e) = some p from h)
    exact rparen_not_mem_floatLexeme n e
  | vStr t s =>
    have h2 : (if ')' ∈ s then none else some s) = some p := h
    split at h2
    · exact absurd h2 (by simp)
    · obtain rfl := Option.some.inj h2
      assumption
  | vBool b =>
    obtain rfl := Option.some.inj (show some (if b then ['t'] else ['f']) = some p from h)
    cases b <;> decide
  | vNull =>
    obtain rfl := Option.some.inj (show some [] = some p from h)
    decide
  | vObj fs => exact Option.noConfusion h
  | vArr es => exact Option.noConfusion h

theorem bareLexeme_validIdent {v : Value} {l : List Char}
    (h : bareLexeme v = some l) : validIdent l = true := by
  cases v with
  | vInt t x =>
    obtain rfl := Option.some.inj (show some (intLexeme x) = some l from h)
    exact validIdent_intLexeme x
  | vUInt t x =>
    obtain rfl := Option.some.inj (show some (natLexeme x) = some l from h)
    exact validIdent_natLexeme x
  | vFloat t n e =>
    obtain rfl := Option.some.inj (show some (floatLexeme n e) = some l from h)
    exact validIdent_floatLexeme n e
  | vStr t s =>
    have h2 : (if validIdent s = true then some s else none) = some l := h
    split at h2
    · obtain rfl := Option.some.inj h2
      assumption
    · exact absurd h2 (by simp)
  | vBool b =>
    obtain rfl := Option.some.inj (show some (if b then ['t'] else ['f']) = some l from h)
    cases b <;> decide
  | vNull => exact Option.noConfusion h
  | vObj fs => exact Option.noConfusion h
  | vArr es => exact Option.noConfusion h

theorem bareLexs_validIdent {es : List Value} {lexs : List (List Char)}
    (h : bareLexs es = some lexs) : ∀ l ∈ lexs, validIdent l = true := by
  induction es generalizing lexs with
  | nil =>
    obtain rfl := Option.some.inj (show some [] = some lexs from h)
    intro l hl
    exact absurd hl (List.not_mem_nil l)
  | cons e es ih =>
    rw [bareLexs] at h
    rcases hb : bareLexeme e with _ | l1 <;> rw [hb] at h
    · exact Option.noConfusion h
    · rcases hbs : bareLexs es with _ | ls1 <;> rw [hbs] at h
      · exact Option.noConfusion h
      · obtain rfl := Option.some.inj h
        intro l hl
        rcases List.mem_cons.mp hl with rfl | hl2
        · exact bareLexeme_validIdent hb
        · exact ih hbs l hl2

theorem uniformBare_inv {es : List Value} {tag : GblnTag} {lexs : List (List Char)}
    (h : uniformBare es = some (tag, lexs)) :
    bareLexs es = some lexs ∧ ∀ e ∈ es, scalarTagOf e = some tag := by
  cases es with
  | nil => exact Option.noConfusion h
  | cons e es2 =>
    rcases hst : scalarTagOf e with _ | tag0
    · rw [uniformBare, hst] at h
      exact Option.noConfusion h
    · rw [uniformBare, hst] at h
      have h2 : (if ((e :: es2).all fun x => decide (scalarTagOf x = some tag0)) = true
          then (match bareLexs (e :: es2) with
            | none => none
            | some lexs => some (tag0, lexs))
          else none) = some (tag, lexs) := h
      by_cases hall : ((e :: es2).all fun x => decide (scalarTagOf x = some tag0)) = true
      · rw [if_pos hall] at h2
        rcases hbs : bareLexs (e :: es2) with _ | ls <;> rw [hbs] at h2
        · exact Option.noConfusion h2
        · obtain ⟨rfl, rfl⟩ := Prod.mk.inj (Option.some.inj h2)
          rw [List.all_eq_true] at hall
          exact ⟨rfl, fun e2 he2 => of_decide_eq_true (hall e2 he2)⟩
      · rw [if_neg hall] at h2
        exact Option.noConfusion h2

theorem toksWf_append {a b : List Token} :
    toksWf (a ++ b) = (toksWf a && toksWf b) := by
  simp [toksWf, List.all_append]

theorem serializeToks_toksWf : ∀ (v : Value) (ts : List Token),
    serializeToks v = some ts → toksWf ts = true := by
  refine serializeToks.induct
    (fun v => ∀ ts, serializeToks v = some ts → toksWf ts = true)
    (fun es => ∀ ts, serElems es = some ts → toksWf ts = true)
    (fun fs => ∀ ts, serFields fs = some ts → toksWf ts = true)
    ?_ ?_ ?_ ?_ ?_ ?_ ?_ ?_ ?_ ?_ ?_ ?_
  · -- object
    intro fs ih ts hts
    rw [serializeToks] at hts
    rcases hf : serFields fs with _ | fts <;> rw [hf] at hts
    · exact Option.noConfusion hts
    · obtain rfl := Option.some.inj (show some (Token.lbrace :: (fts ++ [Token.rbrace])) =
        some ts from hts)
      rw [toksWf, List.all_cons, List.all_append]
      have := ih fts hf
      rw [toksWf] at this
      rw [this]
      decide
  · -- uniformly typed array
    intro es tag lexs hu ts hts
    rw [serializeToks, hu] at hts
    obtain rfl := Option.some.inj hts
    obtain ⟨hbs, _⟩ := uniformBare_inv hu
    have hlex := bareLexs_validIdent hbs
    rw [toksWf, List.all_cons, List.all_cons, List.all_cons, List.all_cons,
      List.all_append]
    have h1 : (lexs.map Token.ident).all tokenWf = true := by
      rw [List.all_eq_true]
      intro t ht
      obtain ⟨l, hl, rfl⟩ := List.mem_map.mp ht
      exact hlex l hl
    rw [h1]
    have h2 : tokenWf (Token.ident tag.name) = validIdent tag.name := rfl
    rw [h2, validIdent_tagName]
    decide
  · -- element-wise array
    intro es hu ih ts hts
    rw [serializeToks, hu] at hts
    rcases he : serElems es with _ | ets <;> rw [he] at hts
    · exact Option.noConfusion hts
    · obtain rfl := Option.some.inj (show some (Token.lbracket :: (ets ++ [Token.rbracket])) =
        some ts from hts)
      rw [toksWf, List.all_cons, List.all_append]
      have := ih ets he
      rw [toksWf] at this
      rw [this]
      decide
  · -- scalar with tag and payload
    intro v hno hna tag p hp ht ts hts
    rw [serializeToks.eq_def] at hts
    have hts2 : some [Token.lt, Token.ident tag.name, Token.gt, Token.payload p] =
        some ts := by
      cases v with
      | vObj fs => exact absurd rfl (hno fs)
      | vArr es => exact absurd rfl (hna es)
      | vInt t x =>
        have hts3 : (match scalarTagOf (Value.vInt t x), scalarPayload (Value.vInt t x)
            with
          | some tag, some p =>
            some [Token.lt, Token.ident tag.name, Token.gt, Token.payload p]
          | _, _ => none) = some ts := hts
        rw [ht, hp] at hts3
        exact hts3
      | vUInt t x =>
        have hts3 : (match scalarTagOf (Value.vUInt t x), scalarPayload (Value.vUInt t x)
            with
          | some tag, some p =>
            some [Token.lt, Token.ident tag.name, Token.gt, Token.payload p]
          | _, _ => none) = some ts := hts
        rw [ht, hp] at hts3
        exact hts3
      | vFloat t n e =>
        have hts3 : (match scalarTagOf (Value.vFloat t n e),
            scalarPayload (Value.vFloat t n e) with
          | some tag, some p =>
            some [Token.lt, Token.ident tag.name, Token.gt, Token.payload p]
          | _, _ => none) = some ts := hts
        rw [ht, hp] at hts3
        exact hts3
      | vStr t s =>
        have hts3 : (match scalarTagOf (Value.vStr t s), scalarPayload (Value.vStr t s)
            with
          | some tag, some p =>
            some [Token.lt, Token.ident tag.name, Token.gt, Token.payload p]
          | _, _ => none) = some ts := hts
        rw [ht, hp] at hts3
        exact hts3
      | vBool b =>
        have hts3 : (match scalarTagOf (Value.vBool b), scalarPayload (Value.vBool b)
            with
          | some tag, some p =>
            some [Token.lt, Token.ident tag.name, Token.gt, Token.payload p]
          | _, _ => none) = some ts := hts
        rw [ht, hp] at hts3
        exact hts3
      | vNull =>
        have hts3 : (match scalarTagOf Value.vNull, scalarPayload Value.vNull with
          | some tag, some p =>
            some [Token.lt, Token.ident tag.name, Token.gt, Token.payload p]
          | _, _ => none) = some ts := hts
        rw [ht, hp] at hts3
        exact hts3
    obtain rfl := Option.some.inj hts2
    rw [toksWf, List.all_cons, List.all_cons, List.all_cons, List.all_cons]
    have h2 : tokenWf (Token.ident tag.name) = validIdent tag.name := rfl
    have h3 : tokenWf (Token.payload p) = decide (')' ∉ p) := rfl
    rw [h2, validIdent_tagName, h3, decide_eq_true (scalarPayload_no_rparen hp)]
    decide
  · -- scalar with no payload: impossible to produce tokens
    intro v hno hna hfail ts hts
    exfalso
    rw [serializeToks.eq_def] at hts
    cases v with
    | vObj fs => exact absurd rfl (hno fs)
    | vArr es => exact absurd rfl (hna es)
    | vInt t x => exact hfail (.gInt t) (intLexeme x) rfl rfl
    | vUInt t x => exact hfail (.gUInt t) (natLexeme x) rfl rfl
    | vFloat t n e => exact hfail (.gFloat t) (floatLexeme n e) rfl rfl
    | vStr t s =>
      rcases hsp : scalarPayload (Value.vStr t s) with _ | p
      · have hts3 : (match scalarTagOf (Value.vStr t s), scalarPayload (Value.vStr t s)
            with
          | some tag, some p =>
            some [Token.lt, Token.ident tag.name, Token.gt, Token.payload p]
          | _, _ => none) = some ts := hts
        rw [hsp] at hts3
        exact Option.noConfusion
          (show (none : Option (List Token)) = some ts from hts3)
      · exact hfail (.gStr t) p rfl hsp
    | vBool b => exact hfail .gBool (if b then ['t'] else ['f']) rfl rfl
    | vNull => exact hfail .gNull [] rfl rfl
  · -- serFields nil
    intro ts hts
    obtain rfl := Option.some.inj (show some [] = some ts from hts)
    rfl
  · -- serFields cons, all parts serialize
    intro k v fs hk vts fts hf hv ih1 ih3 ts hts
    rw [serFields, if_pos hk, hv, hf] at hts
    obtain rfl := Option.some.inj hts
    rw [toksWf, List.all_cons, List.all_append]
    have h1 := ih1 vts hv
    have h3 := ih3 fts hf
    rw [toksWf] at h1 h3
    rw [h1, h3]
    have : tokenWf (Token.ident k) = validIdent k := rfl
    rw [this, hk]
    rfl
  · -- serFields cons, some part refuses
    intro k v fs hk hfail ih1 ih3 ts hts
    exfalso
    rw [serFields, if_pos hk] at hts
    rcases hv : serializeToks v with _ | vts <;> rw [hv] at hts
    · exact Option.noConfusion hts
    · rcases hf : serFields fs with _ | fts <;> rw [hf] at hts
      · exact Option.noConfusion hts
      · exact hfail vts fts hv hf
  · -- serFields cons, bad key
    intro k v fs hk ts hts
    exfalso
    rw [serFields, if_neg hk] at hts
    exact Option.noConfusion hts
  · -- serElems nil
    intro ts hts
    obtain rfl := Option.some.inj (show some [] = some ts from hts)
    rfl
  · -- serElems cons, all parts serialize
    intro e es vts fts he hv ih1 ih2 ts hts
    rw [serElems, hv, he] at hts
    obtain rfl := Option.some.inj hts
    rw [toksWf, List.all_append]
    have h1 := ih1 vts hv
    have h2 := ih2 fts he
    rw [toksWf] at h1 h2
    rw [h1, h2]
    rfl
  · -- serElems cons, some part refuses
    intro e es hfail ih1 ih2 ts hts
    exfalso
    rw [serElems] at hts
    rcases hv : serializeToks e with _ | vts <;> rw [hv] at hts
    · exact Option.noConfusion hts
    · rcases he : serElems es with _ | ets <;> rw [he] at hts
      · exact Option.noConfusion hts
      · exact hfail vts ets hv he

/-! Helper lemmas: single steps of the recursive-descent loops. -/

theorem fieldsHaveKey_false_iff {fs : List (List Char × Value)} {k : List Char} :
    fieldsHaveKey fs k = false ↔ ∀ p ∈ fs, p.1 ≠ k := by
  rw [fieldsHaveKey, List.any_eq_false]
  constructor
  · intro h p hp
    exact fun hk => h p hp (decide_eq_true hk)
  · intro h p hp
    rw [decide_eq_true_eq]
    exact h p hp

theorem parseF_obj_rbrace {f : Nat} {acc : List (List Char × Value)}
    {rest : List Token} :
    parseF (f + 1) (.objBody acc) (.rbrace :: rest) = .ok (.vObj acc.reverse, rest) := rfl

theorem parseF_arr_rbracket {f : Nat} {hint : Option GblnTag} {acc : List Value}
    {rest : List Token} :
    parseF (f + 1) (.arrBody hint acc) (.rbracket :: rest) =
      .ok (.vArr acc.reverse, rest) := rfl

theorem parseF_field_scalar {f : Nat} {acc : List (List Char × Value)}
    {k tg p : List Char} {tag : GblnTag} {v : Value} {rest : List Token}
    (hk : fieldsHaveKey acc k = false) (hpt : parseTag tg = some tag)
    (hco : coerce tag p = .ok v) :
    parseF (f + 1) (.objBody acc)
      (.ident k :: .lt :: .ident tg :: .gt :: .payload p :: rest) =
      parseF f (.objBody ((k, v) :: acc)) rest := by
  simp only [parseF, hk, Bool.false_eq_true, if_false, hpt, hco]

theorem parseF_field_obj {f : Nat} {acc : List (List Char × Value)}
    {k : List Char} {v : Value} {rest rest2 : List Token}
    (hk : fieldsHaveKey acc k = false)
    (hin : parseF f (.objBody []) rest = .ok (v, rest2)) :
    parseF (f + 1) (.objBody acc) (.ident k :: .lbrace :: rest) =
      parseF f (.objBody ((k, v) :: acc)) rest2 := by
  simp only [parseF, hk, Bool.false_eq_true, if_false, hin]

theorem parseF_field_arr {f : Nat} {acc : List (List Char × Value)}
    {k : List Char} {v : Value} {rest rest2 : List Token}
    (hk : fieldsHaveKey acc k = false)
    (hin : parseF f (.arrBody none []) rest = .ok (v, rest2)) :
    parseF (f + 1) (.objBody acc) (.ident k :: .lbracket :: rest) =
      parseF f (.objBody ((k, v) :: acc)) rest2 := by
  simp only [parseF, hk, Bool.false_eq_true, if_false, hin]

theorem parseF_field_typedarr {f : Nat} {acc : List (List Char × Value)}
    {k tg : List Char} {tag : GblnTag} {v : Value} {rest rest2 : List Token}
    (hk : fieldsHaveKey acc k = false) (hpt : parseTag tg = some tag)
    (hin : parseF f (.arrBody (some tag) []) rest = .ok (v, rest2)) :
    parseF (f + 1) (.objBody acc)
      (.ident k :: .lt :: .ident tg :: .gt :: .lbracket :: rest) =
      parseF f (.objBody ((k, v) :: acc)) rest2 := by
  simp only [parseF, hk, Bool.false_eq_true, if_false, hpt, hin]

theorem parseF_arr_ident_hint {f : Nat} {acc : List Value} {tag : GblnTag}
    {lexm : List Char} {v : Value} {rest : List Token}
    (hco : coerce tag lexm = .ok v) :
    parseF (f + 1) (.arrBody (some tag) acc) (.ident lexm :: rest) =
      parseF f (.arrBody (some tag) (v :: acc)) rest := by
  simp only [parseF, hco]

theorem parseF_arr_elem_scalar {f : Nat} {acc : List Value} {tg p : List Char}
    {tag : GblnTag} {v : Value} {rest : List Token}
    (hpt : parseTag tg = some tag) (hco : coerce tag p = .ok v) :
    parseF (f + 1) (.arrBody none acc) (.lt :: .ident tg :: .gt :: .payload p :: rest) =
      parseF f (.arrBody none (v :: acc)) rest := by
  simp only [parseF, hpt, hco]

theorem parseF_arr_elem_obj {f : Nat} {acc : List Value} {v : Value}
    {rest rest2 : List Token}
    (hin : parseF f (.objBody []) rest = .ok (v, rest2)) :
    parseF (f + 1) (.arrBody none acc) (.lbrace :: rest) =
      parseF f (.arrBody none (v :: acc)) rest2 := by
  simp only [parseF, hin]

theorem parseF_arr_elem_arr {f : Nat} {acc : List Value} {v : Value}
    {rest rest2 : List Token}
    (hin : parseF f (.arrBody none []) rest = .ok (v, rest2)) :
    parseF (f + 1) (.arrBody none acc) (.lbracket :: rest) =
      parseF f (.arrBody none (v :: acc)) rest2 := by
  simp only [parseF, hin]

theorem parseF_arr_elem_typedarr {f : Nat} {acc : List Value} {tg : List Char}
    {tag : GblnTag} {v : Value} {rest rest2 : List Token}
    (hpt : parseTag tg = some tag)
    (hin : parseF f (.arrBody (some tag) []) rest = .ok (v, rest2)) :
    parseF (f + 1) (.arrBody none acc) (.lt :: .ident tg :: .gt :: .lbracket :: rest) =
      parseF f (.arrBody none (v :: acc)) rest2 := by
  simp only [parseF, hpt, hin]

/-! Helper lemmas: inverting one serializer layer. -/

theorem serFields_cons_inv {k : List Char} {v : Value}
    {fs : List (List Char × Value)} {fts : List Token}
    (h : serFields ((k, v) :: fs) = some fts) :
    validIdent k = true ∧ ∃ vts fts2, serializeToks v = some vts ∧
      serFields fs = some fts2 ∧ fts = .ident k :: (vts ++ fts2) := by
  rw [serFields] at h
  split at h
  · rename_i hk
    rcases hv : serializeToks v with _ | vts <;> rw [hv] at h
    · exact Option.noConfusion h
    · rcases hf : serFields fs with _ | fts2 <;> rw [hf] at h
      · exact Option.noConfusion h
      · obtain rfl := Option.some.inj h
        exact ⟨hk, vts, fts2, rfl, rfl, rfl⟩
  · exact Option.noConfusion h

theorem serElems_cons_inv {e : Value} {es : List Value} {ets : List Token}
    (h : serElems (e :: es) = some ets) :
    ∃ vts ets2, serializeToks e = some vts ∧ serElems es = some ets2 ∧
      ets = vts ++ ets2 := by
  rw [serElems] at h
  rcases hv : serializeToks e with _ | vts <;> rw [hv] at h
  · exact Option.noConfusion h
  · rcases hf : serElems es with _ | ets2 <;> rw [hf] at h
    · exact Option.noConfusion h
    · obtain rfl := Option.some.inj h
      exact ⟨vts, ets2, rfl, rfl, rfl⟩

theorem bareLexs_cons_inv {e : Value} {es : List Value} {lexs : List (List Char)}
    (h : bareLexs (e :: es) = some lexs) :
    ∃ l lexs2, bareLexeme e = some l ∧ bareLexs es = some lexs2 ∧ lexs = l :: lexs2 := by
  rw [bareLexs] at h
  rcases hb : bareLexeme e with _ | l <;> rw [hb] at h
  · exact Option.noConfusion h
  · rcases hbs : bareLexs es with _ | lexs2 <;> rw [hbs] at h
    · exact Option.noConfusion h
    · obtain rfl := Option.some.inj h
      exact ⟨l, lexs2, rfl, rfl, rfl⟩

theorem serializeToks_shape {v : Value} {vts : List Token}
    (h : serializeToks v = some vts) :
    (∃ tag p, scalarTagOf v = some tag ∧ scalarPayload v = some p ∧
       vts = [.lt, .ident tag.name, .gt, .payload p]) ∨
    (∃ gs fts2, v = .vObj gs ∧ serFields gs = some fts2 ∧
       vts = .lbrace :: (fts2 ++ [.rbrace])) ∨
    (∃ es tag lexs, v = .vArr es ∧ uniformBare es = some (tag, lexs) ∧
       vts = .lt :: .ident tag.name :: .gt :: .lbracket ::
         (lexs.map .ident ++ [.rbracket])) ∨
    (∃ es ets, v = .vArr es ∧ uniformBare es = none ∧ serElems es = some ets ∧
       vts = .lbracket :: (ets ++ [.rbracket])) := by
  cases v with
  | vObj fs =>
    rw [serializeToks] at h
    rcases hf : serFields fs with _ | fts2 <;> rw [hf] at h
    · exact Option.noConfusion h
    · obtain rfl := Option.some.inj h
      exact Or.inr (Or.inl ⟨fs, fts2, rfl, hf, rfl⟩)
  | vArr es =>
    rw [serializeToks] at h
    rcases hu : uniformBare es with _ | p <;> rw [hu] at h
    · rcases he : serElems es with _ | ets <;> rw [he] at h
      · exact Option.noConfusion h
      · obtain rfl := Option.some.inj h
        exact Or.inr (Or.inr (Or.inr ⟨es, ets, rfl, hu, he, rfl⟩))
    · obtain ⟨tag, lexs⟩ := p
      obtain rfl := Option.some.inj h
      exact Or.inr (Or.inr (Or.inl ⟨es, tag, lexs, rfl, hu, rfl⟩))
  | vInt t x =>
    obtain rfl := Option.some.inj
      (show some [Token.lt, Token.ident (GblnTag.gInt t).name, Token.gt,
        Token.payload (intLexeme x)] = some vts from h)
    exact Or.inl ⟨.gInt t, intLexeme x, rfl, rfl, rfl⟩
  | vUInt t x =>
    obtain rfl := Option.some.inj
      (show some [Token.lt, Token.ident (GblnTag.gUInt t).name, Token.gt,
        Token.payload (natLexeme x)] = some vts from h)
    exact Or.inl ⟨.gUInt t, natLexeme x, rfl, rfl, rfl⟩
  | vFloat t n e =>
    obtain rfl := Option.some.inj
      (show some [Token.lt, Token.ident (GblnTag.gFloat t).name, Token.gt,
        Token.payload (floatLexeme n e)] = some vts from h)
    exact Or.inl ⟨.gFloat t, floatLexeme n e, rfl, rfl, rfl⟩
  | vStr t s =>
    by_cases hmem : ')' ∈ s
    · have h2 : (match (some (GblnTag.gStr t) : Option GblnTag),
          (if ')' ∈ s then none else some s : Option (List Char)) with
        | some tag, some p =>
          some [Token.lt, Token.ident tag.name, Token.gt, Token.payload p]
        | _, _ => none) = some vts := h
      rw [if_pos hmem] at h2
      exact Option.noConfusion h2
    · have h2 : (match (some (GblnTag.gStr t) : Option GblnTag),
          (if ')' ∈ s then none else some s : Option (List Char)) with
        | some tag, some p =>
          some [Token.lt, Token.ident tag.name, Token.gt, Token.payload p]
        | _, _ => none) = some vts := h
      rw [if_neg hmem] at h2
      obtain rfl := Option.some.inj h2
      refine Or.inl ⟨.gStr t, s, rfl, ?_, rfl⟩
      show (if ')' ∈ s then none else some s) = some s
      rw [if_neg hmem]
  | vBool b =>
    obtain rfl := Option.some.inj
      (show some [Token.lt, Token.ident GblnTag.gBool.name, Token.gt,
        Token.payload (if b then ['t'] else ['f'])] = some vts from h)
    exact Or.inl ⟨.gBool, if b then ['t'] else ['f'], rfl, rfl, rfl⟩
  | vNull =>
    obtain rfl := Option.some.inj
      (show some [Token.lt, Token.ident GblnTag.gNull.name, Token.gt,
        Token.payload []] = some vts from h)
    exact Or.inl ⟨.gNull, [], rfl, rfl, rfl⟩

theorem append_singleton_append {α : Type} (a : List α) (x : α) (b : List α) :
    (a ++ [x]) ++ b = a ++ x :: b := by
  simp

/-! The parser recovers a serialized value: the three recursive-descent
loops, by strong induction on fuel. -/

theorem parseF_roundtrip : ∀ fuel : Nat,
    (∀ (acc fs : List (List Char × Value)) (fts rest : List Token),
      serFields fs = some fts → (∀ p ∈ fs, WfValue p.2) →
      (∀ p ∈ fs, fieldsHaveKey acc p.1 = false) → KeysDistinct fs →
      fts.length + 1 ≤ fuel →
      parseF fuel (.objBody acc) (fts ++ .rbrace :: rest) =
        .ok (.vObj (acc.reverse ++ fs), rest)) ∧
    (∀ (acc : List Value) (tag : GblnTag) (es : List Value)
      (lexs : List (List Char)) (rest : List Token),
      bareLexs es = some lexs → (∀ e ∈ es, scalarTagOf e = some tag) →
      (∀ e ∈ es, WfValue e) → lexs.length + 1 ≤ fuel →
      parseF fuel (.arrBody (some tag) acc) (lexs.map .ident ++ .rbracket :: rest) =
        .ok (.vArr (acc.reverse ++ es), rest)) ∧
    (∀ (acc es : List Value) (ets rest : List Token),
      serElems es = some ets → (∀ e ∈ es, WfValue e) →
      ets.length + 1 ≤ fuel →
      parseF fuel (.arrBody none acc) (ets ++ .rbracket :: rest) =
        .ok (.vArr (acc.reverse ++ es), rest)) := by
  intro fuel
  induction fuel using Nat.strong_induction_on with
  | _ fuel ih =>
    cases fuel with
    | zero =>
      refine ⟨?_, ?_, ?_⟩ <;> (intros; exfalso; omega)
    | succ f =>
      obtain ⟨ihO, ihU, ihH⟩ := ih f (Nat.lt_succ_self f)
      refine ⟨?_, ?_, ?_⟩
      · -- object body
        intro acc fs fts rest hser hwf hclash hdist hlen
        cases fs with
        | nil =>
          obtain rfl := Option.some.inj (show some [] = some fts from hser)
          rw [List.nil_append, parseF_obj_rbrace, List.append_nil]
        | cons kv fs2 =>
          obtain ⟨k, v⟩ := kv
          obtain ⟨hk, vts, fts2, hv, hf2, rfl⟩ := serFields_cons_inv hser
          have hkclash : fieldsHaveKey acc k = false :=
            hclash (k, v) (List.mem_cons_self _ _)
          have hwfv : WfValue v := hwf (k, v) (List.mem_cons_self _ _)
          have hwf2 : ∀ p ∈ fs2, WfValue p.2 :=
            fun p hp => hwf p (List.mem_cons_of_mem _ hp)
          have hdist2 : KeysDistinct fs2 := (List.pairwise_cons.mp hdist).2
          have hknot : ∀ p ∈ fs2, k ≠ p.1 := (List.pairwise_cons.mp hdist).1
          have hclash2 : ∀ p ∈ fs2, fieldsHaveKey ((k, v) :: acc) p.1 = false := by
            intro p hp
            rw [fieldsHaveKey_false_iff]
            intro q hq
            rcases List.mem_cons.mp hq with rfl | hq2
            · exact hknot p hp
            · exact fieldsHaveKey_false_iff.mp
                (hclash p (List.mem_cons_of_mem _ hp)) q hq2
          have hfinish : parseF f (.objBody ((k, v) :: acc)) (fts2 ++ .rbrace :: rest) =
              .ok (.vObj (acc.reverse ++ (k, v) :: fs2), rest) := by
            have hlen2 : fts2.length + 1 ≤ f := by
              simp only [List.length_cons, List.length_append] at hlen
              have h1 := List.length_pos.mpr (show vts ≠ [] by
                rcases serializeToks_shape hv with ⟨_, _, _, _, rfl⟩ |
                  ⟨_, _, _, _, rfl⟩ | ⟨_, _, _, _, _, rfl⟩ | ⟨_, _, _, _, _, rfl⟩ <;>
                  simp)
              omega
            rw [ihO ((k, v) :: acc) fs2 fts2 rest hf2 hwf2 hclash2 hdist2 hlen2]
            simp only [List.reverse_cons, List.append_assoc, List.singleton_append]
          rcases serializeToks_shape hv with ⟨tag, p, htg, hpay, rfl⟩ |
            ⟨gs, fts3, rfl, hfgs, rfl⟩ | ⟨es3, tag, lexs, rfl, hu, rfl⟩ |
            ⟨es3, ets3, rfl, hu, hse3, rfl⟩
          · -- scalar field
            simp only [List.cons_append, List.append_assoc, List.nil_append]
            rw [parseF_field_scalar hkclash (parseTag_name tag)
              (coerce_scalarPayload htg hpay hwfv)]
            exact hfinish
          · -- object field
            cases hwfv with
            | obj _ hdistg hwfg =>
              have hlen3 : fts3.length + 1 ≤ f := by
                simp only [List.length_cons, List.length_append] at hlen
                simp at hlen
                omega
              have hin := ihO [] gs fts3 (fts2 ++ .rbrace :: rest) hfgs hwfg
                (fun p _ => rfl) hdistg hlen3
              simp only [List.reverse_nil, List.nil_append] at hin
              simp only [List.cons_append, List.append_assoc, List.nil_append,
                append_singleton_append]
              rw [parseF_field_obj hkclash hin]
              exact hfinish
          · -- uniformly typed array field
            cases hwfv with
            | arr _ hwfes =>
              obtain ⟨hbs, htags⟩ := uniformBare_inv hu
              have hlen3 : lexs.length + 1 ≤ f := by
                simp only [List.length_cons, List.length_append, List.length_map] at hlen
                simp at hlen
                omega
              have hin := ihU [] tag es3 lexs (fts2 ++ .rbrace :: rest) hbs htags
                hwfes hlen3
              simp only [List.reverse_nil, List.nil_append] at hin
              simp only [List.cons_append, List.append_assoc, List.nil_append,
                append_singleton_append]
              rw [parseF_field_typedarr hkclash (parseTag_name tag) hin]
              exact hfinish
          · -- element-wise array field
            cases hwfv with
            | arr _ hwfes =>
              have hlen3 : ets3.length + 1 ≤ f := by
                simp only [List.length_cons, List.length_append] at hlen
                simp at hlen
                omega
              have hin := ihH [] es3 ets3 (fts2 ++ .rbrace :: rest) hse3 hwfes hlen3
              simp only [List.reverse_nil, List.nil_append] at hin
              simp only [List.cons_append, List.append_assoc, List.nil_append,
                append_singleton_append]
              rw [parseF_field_arr hkclash hin]
              exact hfinish
      · -- uniformly typed array body
        intro acc tag es lexs rest hbs htags hwf hlen
        cases es with
        | nil =>
          obtain rfl := Option.some.inj (show some [] = some lexs from hbs)
          rw [List.map_nil, List.nil_append, parseF_arr_rbracket, List.append_nil]
        | cons e es2 =>
          obtain ⟨l, lexs2, hbl, hbs2, rfl⟩ := bareLexs_cons_inv hbs
          rw [List.map_cons, List.cons_append]
          rw [parseF_arr_ident_hint (coerce_bareLexeme
            (htags e (List.mem_cons_self _ _)) hbl (hwf e (List.mem_cons_self _ _)))]
          have hlen2 : lexs2.length + 1 ≤ f := by
            simp only [List.length_cons] at hlen
            omega
          rw [ihU (e :: acc) tag es2 lexs2 rest hbs2
            (fun x hx => htags x (List.mem_cons_of_mem _ hx))
            (fun x hx => hwf x (List.mem_cons_of_mem _ hx)) hlen2]
          simp only [List.reverse_cons, List.append_assoc, List.singleton_append]
      · -- element-wise array body
        intro acc es ets rest hser hwf hlen
        cases es with
        | nil =>
          obtain rfl := Option.some.inj (show some [] = some ets from hser)
          rw [List.nil_append, parseF_arr_rbracket, List.append_nil]
        | cons e es2 =>
          obtain ⟨vts, ets2, hv, hser2, rfl⟩ := serElems_cons_inv hser
          have hwfe : WfValue e := hwf e (List.mem_cons_self _ _)
          have hwf2 : ∀ x ∈ es2, WfValue x :=
            fun x hx => hwf x (List.mem_cons_of_mem _ hx)
          have hfinish : parseF f (.arrBody none (e :: acc)) (ets2 ++ .rbracket :: rest) =
              .ok (.vArr (acc.reverse ++ e :: es2), rest) := by
            have hlen2 : ets2.length + 1 ≤ f := by
              simp only [List.length_append] at hlen
              have h1 := List.length_pos.mpr (show vts ≠ [] by
                rcases serializeToks_shape hv with ⟨_, _, _, _, rfl⟩ |
                  ⟨_, _, _, _, rfl⟩ | ⟨_, _, _, _, _, rfl⟩ | ⟨_, _, _, _, _, rfl⟩ <;>
                  simp)
              omega
            rw [ihH (e :: acc) es2 ets2 rest hser2 hwf2 hlen2]
            simp only [List.reverse_cons, List.append_assoc, List.singleton_append]
          rcases serializeToks_shape hv with ⟨tag, p, htg, hpay, rfl⟩ |
            ⟨gs, fts3, rfl, hfgs, rfl⟩ | ⟨es3, tag, lexs, rfl, hu, rfl⟩ |
            ⟨es3, ets3, rfl, hu, hse3, rfl⟩
          · -- scalar element
            simp only [List.cons_append, List.append_assoc, List.nil_append]
            rw [parseF_arr_elem_scalar (parseTag_name tag)
              (coerce_scalarPayload htg hpay hwfe)]
            exact hfinish
          · -- object element
            cases hwfe with
            | obj _ hdistg hwfg =>
              have hlen3 : fts3.length + 1 ≤ f := by
                simp only [List.length_append, List.length_cons] at hlen
                simp at hlen
                omega
              have hin := ihO [] gs fts3 (ets2 ++ .rbracket :: rest) hfgs hwfg
                (fun p _ => rfl) hdistg hlen3
              simp only [List.reverse_nil, List.nil_append] at hin
              simp only [List.cons_append, List.append_assoc, List.nil_append,
                append_singleton_append]
              rw [parseF_arr_elem_obj hin]
              exact hfinish
          · -- uniformly typed array element
            cases hwfe with
            | arr _ hwfes =>
              obtain ⟨hbs, htags⟩ := uniformBare_inv hu
              have hlen3 : lexs.length + 1 ≤ f := by
                simp only [List.length_append, List.length_cons, List.length_map] at hlen
                simp at hlen
                omega
              have hin := ihU [] tag es3 lexs (ets2 ++ .rbracket :: rest) hbs htags
                hwfes hlen3
              simp only [List.reverse_nil, List.nil_append] at hin
              simp only [List.cons_append, List.append_assoc, List.nil_append,
                append_singleton_append]
              rw [parseF_arr_elem_typedarr (parseTag_name tag) hin]
              exact hfinish
          · -- element-wise array element
            cases hwfe with
            | arr _ hwfes =>
              have hlen3 : ets3.length + 1 ≤ f := by
                simp only [List.length_append, List.length_cons] at hlen
                simp at hlen
                omega
              have hin := ihH [] es3 ets3 (ets2 ++ .rbracket :: rest) hse3 hwfes hlen3
              simp only [List.reverse_nil, List.nil_append] at hin
              simp only [List.cons_append, List.append_assoc, List.nil_append,
                append_singleton_append]
              rw [parseF_arr_elem_arr hin]
              exact hfinish

/-! Helper lemmas: every value the parser or the constructors produce
satisfies the semantic invariants. -/

theorem keysDistinct_reverse {fs : List (List Char × Value)}
    (h : KeysDistinct fs) : KeysDistinct fs.reverse := by
  rw [KeysDistinct, List.pairwise_reverse]
  exact h.imp (fun hne => Ne.symm hne)

theorem floatLexVal_canon {l : List Char} {p : Int × Int}
    (h : floatLexVal l = some p) : FloatCanon p.1 p.2 := by
  rcases hsp : splitSign l with ⟨neg, l1⟩
  simp only [floatLexVal, hsp] at h
  split at h
  · exact Option.noConfusion h
  · rcases hfp : fracPart (l1.dropWhile Char.isDigit) with _ | q
    · simp only [hfp] at h
      exact Option.noConfusion h
    · obtain ⟨fds, rest2⟩ := q
      simp only [hfp] at h
      rcases hep : expPart rest2 with _ | e1
      · simp only [hep] at h
        exact Option.noConfusion h
      · simp only [hep] at h
        obtain rfl := Option.some.inj h
        exact canonFloat_canonical _ _

theorem coerce_wf {tag : GblnTag} {l : List Char} {v : Value}
    (h : coerce tag l = .ok v) : WfValue v := by
  cases tag with
  | gInt t =>
    rcases hx : intLexVal l with _ | x <;> simp only [coerce, hx] at h
    · exact Except.noConfusion h
    · split at h
      · rename_i hr
        obtain rfl := Except.ok.inj h
        exact WfValue.int t x hr
      · exact Except.noConfusion h
  | gUInt t =>
    rcases hx : natLexVal l with _ | x <;> simp only [coerce, hx] at h
    · exact Except.noConfusion h
    · split at h
      · rename_i hr
        obtain rfl := Except.ok.inj h
        exact WfValue.uint t x hr
      · exact Except.noConfusion h
  | gFloat t =>
    rcases hx : floatLexVal l with _ | q <;> simp only [coerce, hx] at h
    · exact Except.noConfusion h
    · obtain ⟨n, e⟩ := q
      obtain rfl := Except.ok.inj h
      exact WfValue.float t n e (floatLexVal_canon hx)
  | gStr t =>
    simp only [coerce] at h
    split at h
    · rename_i hle
      obtain rfl := Except.ok.inj h
      exact WfValue.str t l hle
    · exact Except.noConfusion h
  | gBool =>
    simp only [coerce] at h
    split at h
    · obtain rfl := Except.ok.inj h
      exact WfValue.bool true
    · split at h
      · obtain rfl := Except.ok.inj h
        exact WfValue.bool false
      · exact Except.noConfusion h
  | gNull =>
    simp only [coerce] at h
    split at h
    · obtain rfl := Except.ok.inj h
      exact WfValue.null
    · exact Except.noConfusion h

theorem infer_wf {l : List Char} {v : Value} (h : infer l = .ok v) : WfValue v := by
  rw [infer] at h
  split at h
  · obtain rfl := Except.ok.inj h
    exact WfValue.bool true
  · split at h
    · obtain rfl := Except.ok.inj h
      exact WfValue.bool false
    · split at h
      · exact coerce_wf h
      · split at h
        · exact coerce_wf h
        · split at h
          · obtain rfl := Except.ok.inj h
            exact WfValue.str .s8 [] (by decide)
          · exact coerce_wf h

theorem parseF_wf : ∀ (fuel : Nat) (job : PJob) (toks : List Token)
    (v : Value) (rest : List Token),
    parseF fuel job toks = Except.ok (v, rest) → JobWf job → WfValue v := by
  intro fuel job toks
  induction fuel, job, toks using parseF.induct with
  | case1 job toks =>
    intro v rest h hjw
    exact Except.noConfusion h
  | case2 f acc rest2 =>
    intro v rest h hjw
    have h2 : Except.ok (Value.vObj acc.reverse, rest2) = Except.ok (v, rest) := h
    obtain ⟨rfl, rfl⟩ := Prod.mk.inj (Except.ok.inj h2)
    obtain ⟨hwf, hdist⟩ := hjw
    exact WfValue.obj _ (keysDistinct_reverse hdist)
      (fun p hp => hwf p (List.mem_reverse.mp hp))
  | case3 f acc k rest2 hdup =>
    intro v rest h hjw
    rw [Nat.succ_eq_add_one] at h
    simp only [parseF, hdup, eq_self_iff_true, if_true] at h
    exact Except.noConfusion h
  | case4 f acc k hdup tg rest2 hpt =>
    intro v rest h hjw
    have hkf := Bool.eq_false_iff.mpr hdup
    rw [Nat.succ_eq_add_one] at h
    simp only [parseF, hkf, Bool.false_eq_true, if_false, hpt] at h
    exact Except.noConfusion h
  | case5 f acc k hdup tg tag hpt p rest3 e herr =>
    intro v rest h hjw
    have hkf := Bool.eq_false_iff.mpr hdup
    rw [Nat.succ_eq_add_one] at h
    simp only [parseF, hkf, Bool.false_eq_true, if_false, hpt, herr] at h
    exact Except.noConfusion h
  | case6 f acc k hdup tg tag hpt p rest3 w hco ih1 =>
    intro v rest h hjw
    have hkf := Bool.eq_false_iff.mpr hdup
    rw [Nat.succ_eq_add_one] at h
    rw [parseF_field_scalar hkf hpt hco] at h
    obtain ⟨hwf, hdist⟩ := hjw
    refine ih1 v rest h ⟨?_, ?_⟩
    · intro q hq
      rcases List.mem_cons.mp hq with rfl | hq2
      · exact coerce_wf hco
      · exact hwf q hq2
    · refine List.pairwise_cons.mpr ⟨?_, hdist⟩
      intro q hq
      exact Ne.symm (fieldsHaveKey_false_iff.mp hkf q hq)
  | case7 f acc k hdup tg tag hpt rest3 e herr ih1 =>
    intro v rest h hjw
    have hkf := Bool.eq_false_iff.mpr hdup
    rw [Nat.succ_eq_add_one] at h
    simp only [parseF, hkf, Bool.false_eq_true, if_false, hpt, herr] at h
    exact Except.noConfusion h
  | case8 f acc k hdup tg tag hpt rest3 w rest4 hin ih2 ih1 =>
    intro v rest h hjw
    have hkf := Bool.eq_false_iff.mpr hdup
    rw [Nat.succ_eq_add_one] at h
    rw [parseF_field_typedarr hkf hpt hin] at h
    obtain ⟨hwf, hdist⟩ := hjw
    have hw : WfValue w :=
      ih2 w rest4 hin (fun e he => absurd he (List.not_mem_nil e))
    refine ih1 v rest h ⟨?_, ?_⟩
    · intro q hq
      rcases List.mem_cons.mp hq with rfl | hq2
      · exact hw
      · exact hwf q hq2
    · refine List.pairwise_cons.mpr ⟨?_, hdist⟩
      intro q hq
      exact Ne.symm (fieldsHaveKey_false_iff.mp hkf q hq)
  | case9 f acc k hdup tg rest2 tag hpt hnp hnb =>
    intro v rest h hjw
    have hkf := Bool.eq_false_iff.mpr hdup
    rw [Nat.succ_eq_add_one] at h
    simp only [parseF, hkf, Bool.false_eq_true, if_false, hpt] at h
    exact Except.noConfusion h
  | case10 f acc k hdup p rest2 e herr =>
    intro v rest h hjw
    have hkf := Bool.eq_false_iff.mpr hdup
    rw [Nat.succ_eq_add_one] at h
    simp only [parseF, hkf, Bool.false_eq_true, if_false, herr] at h
    exact Except.noConfusion h
  | case11 f acc k hdup p rest2 w hok ih1 =>
    intro v rest h hjw
    have hkf := Bool.eq_false_iff.mpr hdup
    rw [Nat.succ_eq_add_one] at h
    simp only [parseF, hkf, Bool.false_eq_true, if_false, hok] at h
    obtain ⟨hwf, hdist⟩ := hjw
    refine ih1 v rest h ⟨?_, ?_⟩
    · intro q hq
      rcases List.mem_cons.mp hq with rfl | hq2
      · exact infer_wf hok
      · exact hwf q hq2
    · refine List.pairwise_cons.mpr ⟨?_, hdist⟩
      intro q hq
      exact Ne.symm (fieldsHaveKey_false_iff.mp hkf q hq)
  | case12 f acc k hdup rest2 e herr ih1 =>
    intro v rest h hjw
    have hkf := Bool.eq_false_iff.mpr hdup
    rw [Nat.succ_eq_add_one] at h
    simp only [parseF, hkf, Bool.false_eq_true, if_false, herr] at h
    exact Except.noConfusion h
  | case13 f acc k hdup rest2 w rest4 hin ih2 ih1 =>
    intro v rest h hjw
    have hkf := Bool.eq_false_iff.mpr hdup
    rw [Nat.succ_eq_add_one] at h
    rw [parseF_field_obj hkf hin] at h
    obtain ⟨hwf, hdist⟩ := hjw
    have hw : WfValue w :=
      ih2 w rest4 hin ⟨fun p hp => absurd hp (List.not_mem_nil p), List.Pairwise.nil⟩
    refine ih1 v rest h ⟨?_, ?_⟩
    · intro q hq
      rcases List.mem_cons.mp hq with rfl | hq2
      · exact hw
      · exact hwf q hq2
    · refine List.pairwise_cons.mpr ⟨?_, hdist⟩
      intro q hq
      exact Ne.symm (fieldsHaveKey_false_iff.mp hkf q hq)
  | case14 f acc k hdup rest2 e herr ih1 =>
    intro v rest h hjw
    have hkf := Bool.eq_false_iff.mpr hdup
    rw [Nat.succ_eq_add_one] at h
    simp only [parseF, hkf, Bool.false_eq_true, if_false, herr] at h
    exact Except.noConfusion h
  | case15 f acc k hdup rest2 w rest4 hin ih2 ih1 =>
    intro v rest h hjw
    have hkf := Bool.eq_false_iff.mpr hdup
    rw [Nat.succ_eq_add_one] at h
    rw [parseF_field_arr hkf hin] at h
    obtain ⟨hwf, hdist⟩ := hjw
    have hw : WfValue w :=
      ih2 w rest4 hin (fun e he => absurd he (List.not_mem_nil e))
    refine ih1 v rest h ⟨?_, ?_⟩
    · intro q hq
      rcases List.mem_cons.mp hq with rfl | hq2
      · exact hw
      · exact hwf q hq2
    · refine List.pairwise_cons.mpr ⟨?_, hdist⟩
      intro q hq
      exact Ne.symm (fieldsHaveKey_false_iff.mp hkf q hq)
  | case16 f acc k rest2 hdup hnh hnp hno hnb =>
    intro v rest h hjw
    have hkf := Bool.eq_false_iff.mpr hdup
    rw [Nat.succ_eq_add_one] at h
    simp only [parseF, hkf, Bool.false_eq_true, if_false] at h
    exact Except.noConfusion h
  | case17 f acc =>
    intro v rest h hjw
    exact Except.noConfusion h
  | case18 f acc toks hnr hni hnil =>
    intro v rest h hjw
    cases toks with
    | nil => exact (hnil rfl).elim
    | cons t rest2 =>
      cases t with
      | lbrace => exact Except.noConfusion h
      | rbrace => exact (hnr rest2 rfl).elim
      | lbracket => exact Except.noConfusion h
      | rbracket => exact Except.noConfusion h
      | lt => exact Except.noConfusion h
      | gt => exact Except.noConfusion h
      | ident s => exact (hni s rest2 rfl).elim
      | payload s => exact Except.noConfusion h
  | case19 f hint acc rest2 =>
    intro v rest h hjw
    have h2 : Except.ok (Value.vArr acc.reverse, rest2) = Except.ok (v, rest) := h
    obtain ⟨rfl, rfl⟩ := Prod.mk.inj (Except.ok.inj h2)
    exact WfValue.arr _ (fun e he => hjw e (List.mem_reverse.mp he))
  | case20 f hint acc lexm rest2 e herr =>
    intro v rest h hjw
    rw [Nat.succ_eq_add_one] at h
    simp only [parseF, herr] at h
    exact Except.noConfusion h
  | case21 f hint acc lexm rest2 w hok ih1 =>
    intro v rest h hjw
    rw [Nat.succ_eq_add_one] at h
    simp only [parseF, hok] at h
    have hw : WfValue w := by
      rcases hint with _ | tag
      · exact infer_wf hok
      · exact coerce_wf hok
    refine ih1 v rest h ?_
    intro q hq
    rcases List.mem_cons.mp hq with rfl | hq2
    · exact hw
    · exact hjw q hq2
  | case22 f acc rest2 val =>
    intro v rest h hjw
    exact Except.noConfusion h
  | case23 f acc rest2 e herr ih1 =>
    intro v rest h hjw
    rw [Nat.succ_eq_add_one] at h
    simp only [parseF, herr] at h
    exact Except.noConfusion h
  | case24 f acc rest2 w rest4 hin ih2 ih1 =>
    intro v rest h hjw
    rw [Nat.succ_eq_add_one] at h
    rw [parseF_arr_elem_obj hin] at h
    have hw : WfValue w :=
      ih2 w rest4 hin ⟨fun p hp => absurd hp (List.not_mem_nil p), List.Pairwise.nil⟩
    refine ih1 v rest h ?_
    intro q hq
    rcases List.mem_cons.mp hq with rfl | hq2
    · exact hw
    · exact hjw q hq2
  | case25 f acc rest2 val =>
    intro v rest h hjw
    exact Except.noConfusion h
  | case26 f acc rest2 e herr ih1 =>
    intro v rest h hjw
    rw [Nat.succ_eq_add_one] at h
    simp only [parseF, herr] at h
    exact Except.noConfusion h
  | case27 f acc rest2 w rest4 hin ih2 ih1 =>
    intro v rest h hjw
    rw [Nat.succ_eq_add_one] at h
    rw [parseF_arr_elem_arr hin] at h
    have hw : WfValue w :=
      ih2 w rest4 hin (fun e he => absurd he (List.not_mem_nil e))
    refine ih1 v rest h ?_
    intro q hq
    rcases List.mem_cons.mp hq with rfl | hq2
    · exact hw
    · exact hjw q hq2
  | case28 f acc tg p rest2 val =>
    intro v rest h hjw
    exact Except.noConfusion h
  | case29 f acc tg p rest2 hpt =>
    intro v rest h hjw
    rw [Nat.succ_eq_add_one] at h
    simp only [parseF, hpt] at h
    exact Except.noConfusion h
  | case30 f acc tg p rest2 tag hpt e herr =>
    intro v rest h hjw
    rw [Nat.succ_eq_add_one] at h
    simp only [parseF, hpt, herr] at h
    exact Except.noConfusion h
  | case31 f acc tg p rest2 tag hpt w hco ih1 =>
    intro v rest h hjw
    rw [Nat.succ_eq_add_one] at h
    rw [parseF_arr_elem_scalar hpt hco] at h
    refine ih1 v rest h ?_
    intro q hq
    rcases List.mem_cons.mp hq with rfl | hq2
    · exact coerce_wf hco
    · exact hjw q hq2
  | case32 f acc tg rest2 val =>
    intro v rest h hjw
    exact Except.noConfusion h
  | case33 f acc tg rest2 hpt =>
    intro v rest h hjw
    rw [Nat.succ_eq_add_one] at h
    simp only [parseF, hpt] at h
    exact Except.noConfusion h
  | case34 f acc tg rest2 tag hpt e herr ih1 =>
    intro v rest h hjw
    rw [Nat.succ_eq_add_one] at h
    simp only [parseF, hpt, herr] at h
    exact Except.noConfusion h
  | case35 f acc tg rest2 tag hpt w rest4 hin ih2 ih1 =>
    intro v rest h hjw
    rw [Nat.succ_eq_add_one] at h
    rw [parseF_arr_elem_typedarr hpt hin] at h
    have hw : WfValue w :=
      ih2 w rest4 hin (fun e he => absurd he (List.not_mem_nil e))
    refine ih1 v rest h ?_
    intro q hq
    rcases List.mem_cons.mp hq with rfl | hq2
    · exact hw
    · exact hjw q hq2
  | case36 f hint acc =>
    intro v rest h hjw
    exact Except.noConfusion h
  | case37 f hint acc toks hnrb hnid hnlb hnlk hnsc hnta hnil =>
    intro v rest h hjw
    cases toks with
    | nil => exact (hnil rfl).elim
    | cons t rest2 =>
      cases t with
      | lbrace => exact (hnlb rest2 rfl).elim
      | rbrace => exact Except.noConfusion h
      | lbracket => exact (hnlk rest2 rfl).elim
      | rbracket => exact (hnrb rest2 rfl).elim
      | gt => exact Except.noConfusion h
      | ident s => exact (hnid s rest2 rfl).elim
      | payload s => exact Except.noConfusion h
      | lt =>
        cases rest2 with
        | nil => exact Except.noConfusion h
        | cons t2 rest3 =>
          cases t2 with
          | lbrace => exact Except.noConfusion h
          | rbrace => exact Except.noConfusion h
          | lbracket => exact Except.noConfusion h
          | rbracket => exact Except.noConfusion h
          | lt => exact Except.noConfusion h
          | gt => exact Except.noConfusion h
          | payload s => exact Except.noConfusion h
          | ident tg2 =>
            cases rest3 with
            | nil => exact Except.noConfusion h
            | cons t3 rest4 =>
              cases t3 with
              | lbrace => exact Except.noConfusion h
              | rbrace => exact Except.noConfusion h
              | lbracket => exact Except.noConfusion h
              | rbracket => exact Except.noConfusion h
              | lt => exact Except.noConfusion h
              | ident s => exact Except.noConfusion h
              | payload s => exact Except.noConfusion h
              | gt =>
                cases rest4 with
                | nil => exact Except.noConfusion h
                | cons t4 rest5 =>
                  cases t4 with
                  | lbrace => exact Except.noConfusion h
                  | rbrace => exact Except.noConfusion h
                  | lbracket => exact (hnta tg2 rest5 rfl).elim
                  | rbracket => exact Except.noConfusion h
                  | lt => exact Except.noConfusion h
                  | gt => exact Except.noConfusion h
                  | ident s => exact Except.noConfusion h
                  | payload p => exact (hnsc tg2 p rest5 rfl).elim

theorem bind_expectEnd_ok {x : Except PErr (Value × List Token)} {v : Value}
    (h : x.bind expectEnd = .ok v) : x = .ok (v, []) := by
  rcases x with e | ⟨w, rest⟩
  · exact Except.noConfusion h
  · rcases rest with _ | ⟨t, rest2⟩
    · have h2 : Except.ok w = Except.ok v := h
      obtain rfl := Except.ok.inj h2
      rfl
    · exact Except.noConfusion h

theorem bind_expectEnd_pair_ok {x : Except PErr Value} {rest : List Token} {v : Value}
    (h : x.bind (fun w => expectEnd (w, rest)) = .ok v) : x = .ok v ∧ rest = [] := by
  rcases x with e | w
  · exact Except.noConfusion h
  · rcases rest with _ | ⟨t, rest2⟩
    · have h2 : Except.ok w = Except.ok v := h
      obtain rfl := Except.ok.inj h2
      exact ⟨rfl, rfl⟩
    · exact Except.noConfusion h

theorem map_wrap_ok {x : Except PErr Value} {name : List Char} {v : Value}
    (h : x.map (wrapNamed name) = .ok v) : ∃ w, x = .ok w ∧ v = wrapNamed name w := by
  rcases x with e | w
  · exact Except.noConfusion h
  · have h2 : Except.ok (wrapNamed name w) = Except.ok v := h
    exact ⟨w, rfl, (Except.ok.inj h2).symm⟩

theorem wrapNamed_wf (name : List Char) {w : Value} (h : WfValue w) :
    WfValue (wrapNamed name w) := by
  refine WfValue.obj [(name, w)] (List.pairwise_singleton _ _) ?_
  intro p hp
  rcases List.mem_singleton.mp hp with rfl
  exact h

theorem parseDoc_wf {toks : List Token} {v : Value}
    (h : parseDoc toks = .ok v) : WfValue v := by
  have hobj : JobWf (PJob.objBody []) :=
    ⟨fun p hp => absurd hp (List.not_mem_nil p), List.Pairwise.nil⟩
  have harr : ∀ hint, JobWf (PJob.arrBody hint []) :=
    fun _ e he => absurd he (List.not_mem_nil e)
  unfold parseDoc at h
  split at h
  · exact parseF_wf _ _ _ v [] (bind_expectEnd_ok h) hobj
  · exact parseF_wf _ _ _ v [] (bind_expectEnd_ok h) (harr none)
  · rename_i tg p rest
    rcases hpt : parseTag tg with _ | tag
    · rw [hpt] at h
      exact Except.noConfusion h
    · rw [hpt] at h
      obtain ⟨hc, rfl⟩ := bind_expectEnd_pair_ok h
      exact coerce_wf hc
  · rename_i tg rest
    rcases hpt : parseTag tg with _ | tag
    · rw [hpt] at h
      exact Except.noConfusion h
    · rw [hpt] at h
      exact parseF_wf _ _ _ v [] (bind_expectEnd_ok h) (harr (some tag))
  · obtain ⟨w, hw2, rfl⟩ := map_wrap_ok h
    exact wrapNamed_wf _ (parseF_wf _ _ _ w [] (bind_expectEnd_ok hw2) hobj)
  · obtain ⟨w, hw2, rfl⟩ := map_wrap_ok h
    exact wrapNamed_wf _ (parseF_wf _ _ _ w [] (bind_expectEnd_ok hw2) (harr none))
  · rename_i name tg rest
    rcases hpt : parseTag tg with _ | tag
    · rw [hpt] at h
      exact Except.noConfusion h
    · rw [hpt] at h
      obtain ⟨w, hw2, rfl⟩ := map_wrap_ok h
      exact wrapNamed_wf _ (parseF_wf _ _ _ w [] (bind_expectEnd_ok hw2) (harr (some tag)))
  · rename_i name tg p rest
    rcases hpt : parseTag tg with _ | tag
    · rw [hpt] at h
      exact Except.noConfusion h
    · rw [hpt] at h
      obtain ⟨w, hw2, rfl⟩ := map_wrap_ok h
      obtain ⟨hc, rfl⟩ := bind_expectEnd_pair_ok hw2
      exact wrapNamed_wf _ (coerce_wf hc)
  · obtain ⟨w, hw2, rfl⟩ := map_wrap_ok h
    obtain ⟨hc, rfl⟩ := bind_expectEnd_pair_ok hw2
    exact wrapNamed_wf _ (infer_wf hc)
  · exact Except.noConfusion h
  · exact Except.noConfusion h

theorem parse_wf {input : List Char} {v : Value}
    (h : gbln_parse input = .ok v) : WfValue v := by
  unfold gbln_parse at h
  rcases hlp : (gbln_lex input).bind parseDoc with e | w
  · rw [hlp] at h
    exact Except.noConfusion h
  · rw [hlp] at h
    have h2 : Except.ok w = Except.ok v := h
    obtain rfl := Except.ok.inj h2
    rcases hx : gbln_lex input with e | ts
    · rw [hx] at hlp
      exact Except.noConfusion hlp
    · rw [hx] at hlp
      exact parseDoc_wf hlp

theorem strTagFor_maxBytes {maxLen : Nat} (hm : maxLen < 18446744073709551616) :
    maxLen ≤ (strTagFor maxLen).maxBytes := by
  by_cases h1 : maxLen ≤ 256
  · rw [strTagFor, if_pos h1]
    exact h1
  · rw [strTagFor, if_neg h1]
    by_cases h2 : maxLen ≤ 65536
    · rw [if_pos h2]
      exact h2
    · rw [if_neg h2]
      by_cases h3 : maxLen ≤ 4294967296
      · rw [if_pos h3]
        exact h3
      · rw [if_neg h3]
        show maxLen ≤ 18446744073709551616
        omega

theorem constructible_wf {v : Value} (h : Constructible v) : WfValue v := by
  induction h with
  | mkNull => exact WfValue.null
  | mkBool b => exact WfValue.bool b
  | mkInt t x hr => exact WfValue.int t x hr
  | mkUInt t x hr => exact WfValue.uint t x hr
  | mkFloat t num exp => exact WfValue.float t _ _ (canonFloat_canonical num exp)
  | mkStr s maxLen hle hm =>
    exact WfValue.str _ s (le_trans hle (strTagFor_maxBytes hm))
  | mkObj =>
    exact WfValue.obj [] List.Pairwise.nil (fun p hp => absurd hp (List.not_mem_nil p))
  | insert fs k child hobj hch hk ihobj ihch =>
    cases ihobj with
    | obj _ hkd hc =>
      refine WfValue.obj _ ?_ ?_
      · rw [KeysDistinct, List.pairwise_append]
        refine ⟨hkd, List.pairwise_singleton _ _, ?_⟩
        intro p hp q hq
        rcases List.mem_singleton.mp hq with rfl
        exact fieldsHaveKey_false_iff.mp hk p hp
      · intro p hp
        rcases List.mem_append.mp hp with hp1 | hp2
        · exact hc p hp1
        · rcases List.mem_singleton.mp hp2 with rfl
          exact ihch
  | mkArr => exact WfValue.arr [] (fun e he => absurd he (List.not_mem_nil e))
  | push es child harr hch iharr ihch =>
    cases iharr with
    | arr _ hc =>
      refine WfValue.arr _ ?_
      intro e he
      rcases List.mem_append.mp he with h1 | h2
      · exact hc e h1
      · rcases List.mem_singleton.mp h2 with rfl
        exact ihch

/-! Helper lemmas: the round-trip equality is reflexive. -/

theorem valueEquiv_refl_bounded : ∀ (n : Nat) (v : Value), sizeOf v ≤ n → ValueEquiv v v := by
  intro n
  induction n using Nat.strong_induction_on with
  | _ n ih =>
    intro v hv
    cases v with
    | vInt t x => exact ValueEquiv.int t x
    | vUInt t x => exact ValueEquiv.uint t x
    | vFloat t a b => exact ValueEquiv.float t a b
    | vStr t s => exact ValueEquiv.str t s
    | vBool b => exact ValueEquiv.bool b
    | vNull => exact ValueEquiv.null
    | vArr es =>
      refine ValueEquiv.arr es es (List.forall₂_same.mpr ?_)
      intro e he
      have h1 := List.sizeOf_lt_of_mem he
      have h2 : sizeOf (Value.vArr es) = 1 + sizeOf es := by simp
      exact ih (sizeOf e) (by omega) e le_rfl
    | vObj fs =>
      refine ValueEquiv.obj fs fs fs rfl ?_ (List.Perm.refl fs)
      refine List.forall₂_same.mpr ?_
      intro x hx
      obtain ⟨p, hp, rfl⟩ := List.mem_map.mp hx
      have h1 := List.sizeOf_lt_of_mem hp
      have h2 : sizeOf (Value.vObj fs) = 1 + sizeOf fs := by simp
      have h3 : sizeOf p.2 < sizeOf p := by
        obtain ⟨a, b⟩ := p
        simp only [Prod.mk.sizeOf_spec]
        omega
      exact ih (sizeOf p.2) (by omega) p.2 le_rfl

theorem valueEquiv_refl (v : Value) : ValueEquiv v v :=
  valueEquiv_refl_bounded (sizeOf v) v le_rfl

/-! The document-level and text-level round trips. -/

theorem parseDoc_serializeToks {v : Value} {ts : List Token}
    (hw : WfValue v) (hs : serializeToks v = some ts) :
    parseDoc ts = .ok v := by
  rcases serializeToks_shape hs with
    ⟨tag, p, htag, hpay, rfl⟩ | ⟨fs, fts, rfl, hf, rfl⟩ |
    ⟨es, tag, lexs, rfl, hu, rfl⟩ | ⟨es, ets, rfl, hu, he, rfl⟩
  · simp only [parseDoc, parseTag_name, coerce_scalarPayload htag hpay hw]
    rfl
  · cases hw with
    | obj _ hk hc =>
      obtain ⟨RO, RU, RH⟩ :=
        parseF_roundtrip ((Token.lbrace :: (fts ++ [Token.rbrace])).length + 1)
      have hrun := RO [] fs fts [] hf hc (fun p _ => rfl) hk
        (by simp [List.length_append])
      simp only [parseDoc]
      rw [hrun]
      rfl
  · cases hw with
    | arr _ hc =>
      obtain ⟨hbl, htags⟩ := uniformBare_inv hu
      obtain ⟨RO, RU, RH⟩ :=
        parseF_roundtrip ((Token.lt :: Token.ident tag.name :: Token.gt ::
          Token.lbracket :: (lexs.map Token.ident ++ [Token.rbracket])).length + 1)
      have hrun := RU [] tag es lexs [] hbl htags hc
        (by simp [List.length_append, List.length_map])
      simp only [parseDoc, parseTag_name]
      rw [hrun]
      rfl
  · cases hw with
    | arr _ hc =>
      obtain ⟨RO, RU, RH⟩ :=
        parseF_roundtrip ((Token.lbracket :: (ets ++ [Token.rbracket])).length + 1)
      have hrun := RH [] es ets [] he hc (by simp [List.length_append])
      simp only [parseDoc]
      rw [hrun]
      rfl

theorem serialize_parse_compact {v : Value} {out : List Char}
    (hw : WfValue v) (h : gbln_to_string v = some out) :
    gbln_parse out = .ok v := by
  rw [gbln_to_string] at h
  rcases hs : serializeToks v with _ | ts
  · rw [hs] at h
    exact Option.noConfusion h
  · rw [hs] at h
    have h2 : some (compactRender ts) = some out := h
    obtain rfl := Option.some.inj h2
    have hlex : gbln_lex (compactRender ts) = .ok ts :=
      gbln_lex_rendersTo (compactRender_rendersTo (serializeToks_toksWf v ts hs))
    have hdoc : parseDoc ts = .ok v := parseDoc_serializeToks hw hs
    unfold gbln_parse
    rw [hlex]
    have hb : (Except.ok ts).bind parseDoc = Except.ok v := hdoc
    rw [hb]

theorem serialize_parse_pretty {v : Value} {out : List Char}
    (hw : WfValue v) (h : gbln_to_string_pretty v = some out) :
    gbln_parse out = .ok v := by
  rw [gbln_to_string_pretty] at h
  rcases hs : serializeToks v with _ | ts
  · rw [hs] at h
    exact Option.noConfusion h
  · rw [hs] at h
    have h2 : some (prettyRender ts) = some out := h
    obtain rfl := Option.some.inj h2
    have hlex : gbln_lex (prettyRender ts) = .ok ts :=
      gbln_lex_rendersTo (prettyRender_rendersTo (serializeToks_toksWf v ts hs))
    have hdoc : parseDoc ts = .ok v := parseDoc_serializeToks hw hs
    unfold gbln_parse
    rw [hlex]
    have hb : (Except.ok ts).bind parseDoc = Except.ok v := hdoc
    rw [hb]

/-! Helper lemmas: locating a segment inside an error message. -/

theorem startsWithSeg_append (p rest : List Char) : startsWithSeg p (p ++ rest) = true := by
  induction p with
  | nil => rfl
  | cons c cs ih => simp [startsWithSeg, ih]

theorem containsSeg_append (a b c : List Char) : containsSeg b (a ++ (b ++ c)) = true := by
  induction a with
  | nil =>
    rw [List.nil_append]
    cases hbc : b ++ c with
    | nil =>
      rcases List.append_eq_nil.mp hbc with ⟨rfl, rfl⟩
      rfl
    | cons x xs =>
      rw [containsSeg, ← hbc, startsWithSeg_append, Bool.true_or]
  | cons d ds ih =>
    rw [List.cons_append, containsSeg, ih, Bool.or_true]

theorem containsSeg_suffix (a b : List Char) : containsSeg b (a ++ b) = true := by
  have h := containsSeg_append a b []
  rwa [List.append_nil] at h

/-! Helper lemmas: text-level parse outcomes through the renderer. -/

theorem all_ident_tokenWf {lexs : List (List Char)}
    (h : ∀ l ∈ lexs, validIdent l = true) :
    (lexs.map Token.ident).all tokenWf = true := by
  rw [List.all_eq_true]
  intro t ht
  obtain ⟨l, hl, rfl⟩ := List.mem_map.mp ht
  exact h l hl

theorem gbln_parse_compactRender {ts : List Token} {v : Value}
    (hwf : toksWf ts = true) (hdoc : parseDoc ts = .ok v) :
    gbln_parse (compactRender ts) = .ok v := by
  have hlex : gbln_lex (compactRender ts) = .ok ts :=
    gbln_lex_rendersTo (compactRender_rendersTo hwf)
  unfold gbln_parse
  rw [hlex]
  have hb : (Except.ok ts).bind parseDoc = Except.ok v := hdoc
  rw [hb]

theorem gbln_parse_compactRender_err {ts : List Token} {e : PErr}
    (hwf : toksWf ts = true) (hdoc : parseDoc ts = .error e) :
    gbln_parse (compactRender ts) = .error (surfaceErr e) := by
  have hlex : gbln_lex (compactRender ts) = .ok ts :=
    gbln_lex_rendersTo (compactRender_rendersTo hwf)
  unfold gbln_parse
  rw [hlex]
  have hb : (Except.ok ts).bind parseDoc = Except.error e := hdoc
  rw [hb]

/-! Helper lemmas: running the type-hinted array loop over arbitrary
coercible lexemes. -/

theorem coerceAll_forall₂ {tag : GblnTag} :
    ∀ {lexs : List (List Char)} {vs : List Value},
    coerceAll tag lexs = .ok vs →
    List.Forall₂ (fun l v => coerce tag l = .ok v) lexs vs := by
  intro lexs
  induction lexs with
  | nil =>
    intro vs hca
    obtain rfl := Except.ok.inj (show Except.ok [] = Except.ok vs from hca)
    exact List.Forall₂.nil
  | cons l ls ih =>
    intro vs hca
    rcases hc : coerce tag l with e | w <;> simp only [coerceAll, hc] at hca
    · exact Except.noConfusion hca
    · rcases hcs : coerceAll tag ls with e2 | ws <;> simp only [hcs] at hca
      · exact Except.noConfusion hca
      · obtain rfl := Except.ok.inj hca
        exact List.Forall₂.cons hc (ih hcs)

theorem parseF_hintrun : ∀ (lexs : List (List Char)) (f : Nat) (tag : GblnTag)
    (acc vs : List Value) (rest : List Token),
    coerceAll tag lexs = .ok vs → lexs.length + 1 ≤ f →
    parseF f (.arrBody (some tag) acc) (lexs.map .ident ++ .rbracket :: rest) =
      .ok (.vArr (acc.reverse ++ vs), rest) := by
  intro lexs
  induction lexs with
  | nil =>
    intro f tag acc vs rest hca hf
    obtain rfl := Except.ok.inj (show Except.ok [] = Except.ok vs from hca)
    cases f with
    | zero => omega
    | succ f2 =>
      rw [List.map_nil, List.nil_append, parseF_arr_rbracket, List.append_nil]
  | cons l ls ih =>
    intro f tag acc vs rest hca hf
    rcases hc : coerce tag l with e | w <;> simp only [coerceAll, hc] at hca
    · exact Except.noConfusion hca
    · rcases hcs : coerceAll tag ls with e2 | ws <;> simp only [hcs] at hca
      · exact Except.noConfusion hca
      · obtain rfl := Except.ok.inj hca
        cases f with
        | zero => simp at hf
        | succ f2 =>
          rw [List.map_cons, List.cons_append, parseF_arr_ident_hint hc,
            ih f2 tag (w :: acc) ws rest hcs (by simp at hf ⊢; omega)]
          simp [List.reverse_cons, List.append_assoc]

theorem parseF_hintrun_err : ∀ (lexs : List (List Char)) (f : Nat) (tag : GblnTag)
    (acc : List Value) (rest : List Token) (e : PErr),
    coerceAll tag lexs = .error e → lexs.length + 1 ≤ f →
    parseF f (.arrBody (some tag) acc) (lexs.map .ident ++ .rbracket :: rest) =
      .error e := by
  intro lexs
  induction lexs with
  | nil =>
    intro f tag acc rest e hca hf
    exact Except.noConfusion hca
  | cons l ls ih =>
    intro f tag acc rest e hca hf
    cases f with
    | zero => simp at hf
    | succ f2 =>
      rcases hc : coerce tag l with e1 | w <;> simp only [coerceAll, hc] at hca
      · obtain rfl := Except.error.inj hca
        rw [List.map_cons, List.cons_append]
        simp only [parseF, hc]
      · rcases hcs : coerceAll tag ls with e2 | ws <;> simp only [hcs] at hca
        · obtain rfl := Except.error.inj hca
          rw [List.map_cons, List.cons_append, parseF_arr_ident_hint hc]
          exact ih f2 tag (w :: acc) rest _ hcs (by simp at hf ⊢; omega)
        · exact Except.noConfusion hca

theorem parseF_obj_typedarr_run (f : Nat) (name : List Char) (tag : GblnTag)
    (lexs : List (List Char)) (vs : List Value)
    (hca : coerceAll tag lexs = .ok vs) (hf : lexs.length + 2 ≤ f) :
    parseF f (.objBody []) (Token.ident name :: Token.lt :: Token.ident tag.name ::
      Token.gt :: Token.lbracket :: (lexs.map Token.ident ++ [Token.rbracket, Token.rbrace])) =
      .ok (.vObj [(name, .vArr vs)], []) := by
  cases f with
  | zero => omega
  | succ f2 =>
    rw [parseF_field_typedarr (show fieldsHaveKey [] name = false from rfl)
      (parseTag_name tag)
      (parseF_hintrun lexs f2 tag [] vs [Token.rbrace] hca (by omega))]
    cases f2 with
    | zero => omega
    | succ f3 =>
      rw [parseF_obj_rbrace]
      simp

theorem parseF_obj_typedarr_err (f : Nat) (name : List Char) (tag : GblnTag)
    (lexs : List (List Char)) (e : PErr)
    (hca : coerceAll tag lexs = .error e) (hf : lexs.length + 2 ≤ f) :
    parseF f (.objBody []) (Token.ident name :: Token.lt :: Token.ident tag.name ::
      Token.gt :: Token.lbracket :: (lexs.map Token.ident ++ [Token.rbracket, Token.rbrace])) =
      .error e := by
  cases f with
  | zero => omega
  | succ f2 =>
    have hrun := parseF_hintrun_err lexs f2 tag [] [Token.rbrace] e hca (by omega)
    simp only [parseF, List.any_nil, Bool.false_eq_true, if_false, parseTag_name tag, hrun]
    rfl

/-! Helper lemma: a named top-level document wraps the value that its
body serializes. -/

theorem parseDoc_named (name : List Char) {v : Value} {ts : List Token}
    (hw : WfValue v) (hs : serializeToks v = some ts) :
    parseDoc (Token.ident name :: ts) = .ok (wrapNamed name v) := by
  rcases serializeToks_shape hs with
    ⟨tag, p, htag, hpay, rfl⟩ | ⟨fs, fts, rfl, hf, rfl⟩ |
    ⟨es, tag, lexs, rfl, hu, rfl⟩ | ⟨es, ets, rfl, hu, he, rfl⟩
  · simp only [parseDoc, parseTag_name, coerce_scalarPayload htag hpay hw]
    rfl
  · cases hw with
    | obj _ hk hc =>
      obtain ⟨RO, RU, RH⟩ := parseF_roundtrip
        ((Token.ident name :: Token.lbrace :: (fts ++ [Token.rbrace])).length + 1)
      have hrun := RO [] fs fts [] hf hc (fun p _ => rfl) hk
        (by simp [List.length_append])
      simp only [parseDoc]
      rw [hrun]
      rfl
  · cases hw with
    | arr _ hc =>
      obtain ⟨hbl, htags⟩ := uniformBare_inv hu
      obtain ⟨RO, RU, RH⟩ := parseF_roundtrip
        ((Token.ident name :: Token.lt :: Token.ident tag.name :: Token.gt ::
          Token.lbracket :: (lexs.map Token.ident ++ [Token.rbracket])).length + 1)
      have hrun := RU [] tag es lexs [] hbl htags hc
        (by simp [List.length_append, List.length_map])
      simp only [parseDoc, parseTag_name]
      rw [hrun]
      rfl
  · cases hw with
    | arr _ hc =>
      obtain ⟨RO, RU, RH⟩ := parseF_roundtrip
        ((Token.ident name :: Token.lbracket :: (ets ++ [Token.rbracket])).length + 1)
      have hrun := RH [] es ets [] he hc (by simp [List.length_append])
      simp only [parseDoc]
      rw [hrun]
      rfl

/-! Helper lemma: a spelled key that is already bound can be read back. -/

theorem lookupField_isSome_of_hasKey {fs : List (List Char × Value)} {k : List Char}
    (h : fieldsHaveKey fs k = true) : ∃ w, lookupField fs k = some w := by
  induction fs with
  | nil => exact Bool.noConfusion h
  | cons p fs ih =>
    by_cases hk : p.1 = k
    · refine ⟨p.2, ?_⟩
      obtain ⟨a, b⟩ := p
      rw [lookupField, if_pos hk]
    · have h2 : fieldsHaveKey fs k = true := by
        rw [fieldsHaveKey, List.any_cons, decide_eq_false hk, Bool.false_or] at h
        exact h
      obtain ⟨w, hw⟩ := ih h2
      refine ⟨w, ?_⟩
      obtain ⟨a, b⟩ := p
      rw [lookupField, if_neg hk]
      exact hw

/-! Helper lemmas: fuel irrelevance and result shape of the parser
loops — a successful run is reproduced by any larger fuel, and an
object (array) job only ever returns an object (array). -/

theorem parseF_mono : ∀ (fuel : Nat) (job : PJob) (toks : List Token)
    (v : Value) (rest : List Token), parseF fuel job toks = Except.ok (v, rest) →
    ∀ f2, fuel ≤ f2 → parseF f2 job toks = Except.ok (v, rest) := by
  intro fuel job toks
  induction fuel, job, toks using parseF.induct with
  | case1 job toks =>
    intro v rest h
    exact Except.noConfusion h
  | case2 f acc rest2 =>
    intro v rest h f2 hle
    have h2 : Except.ok (Value.vObj acc.reverse, rest2) = Except.ok (v, rest) := h
    obtain ⟨rfl, rfl⟩ := Prod.mk.inj (Except.ok.inj h2)
    cases f2 with
    | zero => omega
    | succ f3 => exact parseF_obj_rbrace
  | case3 f acc k rest2 hdup =>
    intro v rest h
    rw [Nat.succ_eq_add_one] at h
    simp only [parseF, hdup, eq_self_iff_true, if_true] at h
    exact Except.noConfusion h
  | case4 f acc k hdup tg rest2 hpt =>
    intro v rest h
    have hkf := Bool.eq_false_iff.mpr hdup
    rw [Nat.succ_eq_add_one] at h
    simp only [parseF, hkf, Bool.false_eq_true, if_false, hpt] at h
    exact Except.noConfusion h
  | case5 f acc k hdup tg tag hpt p rest3 e herr =>
    intro v rest h
    have hkf := Bool.eq_false_iff.mpr hdup
    rw [Nat.succ_eq_add_one] at h
    simp only [parseF, hkf, Bool.false_eq_true, if_false, hpt, herr] at h
    exact Except.noConfusion h
  | case6 f acc k hdup tg tag hpt p rest3 w hco ih1 =>
    intro v rest h f2 hle
    have hkf := Bool.eq_false_iff.mpr hdup
    rw [Nat.succ_eq_add_one] at h
    rw [parseF_field_scalar hkf hpt hco] at h
    cases f2 with
    | zero => omega
    | succ f3 =>
      rw [parseF_field_scalar hkf hpt hco]
      exact ih1 v rest h f3 (by omega)
  | case7 f acc k hdup tg tag hpt rest3 e herr ih1 =>
    intro v rest h
    have hkf := Bool.eq_false_iff.mpr hdup
    rw [Nat.succ_eq_add_one] at h
    simp only [parseF, hkf, Bool.false_eq_true, if_false, hpt, herr] at h
    exact Except.noConfusion h
  | case8 f acc k hdup tg tag hpt rest3 w rest4 hin ih2 ih1 =>
    intro v rest h f2 hle
    have hkf := Bool.eq_false_iff.mpr hdup
    rw [Nat.succ_eq_add_one] at h
    rw [parseF_field_typedarr hkf hpt hin] at h
    cases f2 with
    | zero => omega
    | succ f3 =>
      rw [parseF_field_typedarr hkf hpt (ih2 w rest4 hin f3 (by omega))]
      exact ih1 v rest h f3 (by omega)
  | case9 f acc k hdup tg rest2 tag hpt hnp hnb =>
    intro v rest h
    have hkf := Bool.eq_false_iff.mpr hdup
    rw [Nat.succ_eq_add_one] at h
    simp only [parseF, hkf, Bool.false_eq_true, if_false, hpt] at h
    exact Except.noConfusion h
  | case10 f acc k hdup p rest2 e herr =>
    intro v rest h
    have hkf := Bool.eq_false_iff.mpr hdup
    rw [Nat.succ_eq_add_one] at h
    simp only [parseF, hkf, Bool.false_eq_true, if_false, herr] at h
    exact Except.noConfusion h
  | case11 f acc k hdup p rest2 w hok ih1 =>
    intro v rest h f2 hle
    have hkf := Bool.eq_false_iff.mpr hdup
    rw [Nat.succ_eq_add_one] at h
    simp only [parseF, hkf, Bool.false_eq_true, if_false, hok] at h
    cases f2 with
    | zero => omega
    | succ f3 =>
      simp only [parseF, hkf, Bool.false_eq_true, if_false, hok]
      exact ih1 v rest h f3 (by omega)
  | case12 f acc k hdup rest2 e herr ih1 =>
    intro v rest h
    have hkf := Bool.eq_false_iff.mpr hdup
    rw [Nat.succ_eq_add_one] at h
    simp only [parseF, hkf, Bool.false_eq_true, if_false, herr] at h
    exact Except.noConfusion h
  | case13 f acc k hdup rest2 w rest4 hin ih2 ih1 =>
    intro v rest h f2 hle
    have hkf := Bool.eq_false_iff.mpr hdup
    rw [Nat.succ_eq_add_one] at h
    rw [parseF_field_obj hkf hin] at h
    cases f2 with
    | zero => omega
    | succ f3 =>
      rw [parseF_field_obj hkf (ih2 w rest4 hin f3 (by omega))]
      exact ih1 v rest h f3 (by omega)
  | case14 f acc k hdup rest2 e herr ih1 =>
    intro v rest h
    have hkf := Bool.eq_false_iff.mpr hdup
    rw [Nat.succ_eq_add_one] at h
    simp only [parseF, hkf, Bool.false_eq_true, if_false, herr] at h
    exact Except.noConfusion h
  | case15 f acc k hdup rest2 w rest4 hin ih2 ih1 =>
    intro v rest h f2 hle
    have hkf := Bool.eq_false_iff.mpr hdup
    rw [Nat.succ_eq_add_one] at h
    rw [parseF_field_arr hkf hin] at h
    cases f2 with
    | zero => omega
    | succ f3 =>
      rw [parseF_field_arr hkf (ih2 w rest4 hin f3 (by omega))]
      exact ih1 v rest h f3 (by omega)
  | case16 f acc k rest2 hdup hnh hnp hno hnb =>
    intro v rest h
    have hkf := Bool.eq_false_iff.mpr hdup
    rw [Nat.succ_eq_add_one] at h
    simp only [parseF, hkf, Bool.false_eq_true, if_false] at h
    exact Except.noConfusion h
  | case17 f acc =>
    intro v rest h
    exact Except.noConfusion h
  | case18 f acc toks hnr hni hnil =>
    intro v rest h
    cases toks with
    | nil => exact (hnil rfl).elim
    | cons t rest2 =>
      cases t with
      | lbrace => exact Except.noConfusion h
      | rbrace => exact (hnr rest2 rfl).elim
      | lbracket => exact Except.noConfusion h
      | rbracket => exact Except.noConfusion h
      | lt => exact Except.noConfusion h
      | gt => exact Except.noConfusion h
      | ident s => exact (hni s rest2 rfl).elim
      | payload s => exact Except.noConfusion h
  | case19 f hint acc rest2 =>
    intro v rest h f2 hle
    have h2 : Except.ok (Value.vArr acc.reverse, rest2) = Except.ok (v, rest) := h
    obtain ⟨rfl, rfl⟩ := Prod.mk.inj (Except.ok.inj h2)
    cases f2 with
    | zero => omega
    | succ f3 => exact parseF_arr_rbracket
  | case20 f hint acc lexm rest2 e herr =>
    intro v rest h
    rw [Nat.succ_eq_add_one] at h
    simp only [parseF, herr] at h
    exact Except.noConfusion h
  | case21 f hint acc lexm rest2 w hok ih1 =>
    intro v rest h f2 hle
    rw [Nat.succ_eq_add_one] at h
    simp only [parseF, hok] at h
    cases f2 with
    | zero => omega
    | succ f3 =>
      simp only [parseF, hok]
      exact ih1 v rest h f3 (by omega)
  | case22 f acc rest2 val =>
    intro v rest h
    exact Except.noConfusion h
  | case23 f acc rest2 e herr ih1 =>
    intro v rest h
    rw [Nat.succ_eq_add_one] at h
    simp only [parseF, herr] at h
    exact Except.noConfusion h
  | case24 f acc rest2 w rest4 hin ih2 ih1 =>
    intro v rest h f2 hle
    rw [Nat.succ_eq_add_one] at h
    rw [parseF_arr_elem_obj hin] at h
    cases f2 with
    | zero => omega
    | succ f3 =>
      rw [parseF_arr_elem_obj (ih2 w rest4 hin f3 (by omega))]
      exact ih1 v rest h f3 (by omega)
  | case25 f acc rest2 val =>
    intro v rest h
    exact Except.noConfusion h
  | case26 f acc rest2 e herr ih1 =>
    intro v rest h
    rw [Nat.succ_eq_add_one] at h
    simp only [parseF, herr] at h
    exact Except.noConfusion h
  | case27 f acc rest2 w rest4 hin ih2 ih1 =>
    intro v rest h f2 hle
    rw [Nat.succ_eq_add_one] at h
    rw [parseF_arr_elem_arr hin] at h
    cases f2 with
    | zero => omega
    | succ f3 =>
      rw [parseF_arr_elem_arr (ih2 w rest4 hin f3 (by omega))]
      exact ih1 v rest h f3 (by omega)
  | case28 f acc tg p rest2 val =>
    intro v rest h
    exact Except.noConfusion h
  | case29 f acc tg p rest2 hpt =>
    intro v rest h
    rw [Nat.succ_eq_add_one] at h
    simp only [parseF, hpt] at h
    exact Except.noConfusion h
  | case30 f acc tg p rest2 tag hpt e herr =>
    intro v rest h
    rw [Nat.succ_eq_add_one] at h
    simp only [parseF, hpt, herr] at h
    exact Except.noConfusion h
  | case31 f acc tg p rest2 tag hpt w hco ih1 =>
    intro v rest h f2 hle
    rw [Nat.succ_eq_add_one] at h
    rw [parseF_arr_elem_scalar hpt hco] at h
    cases f2 with
    | zero => omega
    | succ f3 =>
      rw [parseF_arr_elem_scalar hpt hco]
      exact ih1 v rest h f3 (by omega)
  | case32 f acc tg rest2 val =>
    intro v rest h
    exact Except.noConfusion h
  | case33 f acc tg rest2 hpt =>
    intro v rest h
    rw [Nat.succ_eq_add_one] at h
    simp only [parseF, hpt] at h
    exact Except.noConfusion h
  | case34 f acc tg rest2 tag hpt e herr ih1 =>
    intro v rest h
    rw [Nat.succ_eq_add_one] at h
    simp only [parseF, hpt, herr] at h
    exact Except.noConfusion h
  | case35 f acc tg rest2 tag hpt w rest4 hin ih2 ih1 =>
    intro v rest h f2 hle
    rw [Nat.succ_eq_add_one] at h
    rw [parseF_arr_elem_typedarr hpt hin] at h
    cases f2 with
    | zero => omega
    | succ f3 =>
      rw [parseF_arr_elem_typedarr hpt (ih2 w rest4 hin f3 (by omega))]
      exact ih1 v rest h f3 (by omega)
  | case36 f hint acc =>
    intro v rest h
    exact Except.noConfusion h
  | case37 f hint acc toks hnrb hnid hnlb hnlk hnsc hnta hnil =>
    intro v rest h
    cases toks with
    | nil => exact (hnil rfl).elim
    | cons t rest2 =>
      cases t with
      | lbrace => exact (hnlb rest2 rfl).elim
      | rbrace => exact Except.noConfusion h
      | lbracket => exact (hnlk rest2 rfl).elim
      | rbracket => exact (hnrb rest2 rfl).elim
      | gt => exact Except.noConfusion h
      | ident s => exact (hnid s rest2 rfl).elim
      | payload s => exact Except.noConfusion h
      | lt =>
        cases rest2 with
        | nil => exact Except.noConfusion h
        | cons t2 rest3 =>
          cases t2 with
          | lbrace => exact Except.noConfusion h
          | rbrace => exact Except.noConfusion h
          | lbracket => exact Except.noConfusion h
          | rbracket => exact Except.noConfusion h
          | lt => exact Except.noConfusion h
          | gt => exact Except.noConfusion h
          | payload s => exact Except.noConfusion h
          | ident tg2 =>
            cases rest3 with
            | nil => exact Except.noConfusion h
            | cons t3 rest4 =>
              cases t3 with
              | lbrace => exact Except.noConfusion h
              | rbrace => exact Except.noConfusion h
              | lbracket => exact Except.noConfusion h
              | rbracket => exact Except.noConfusion h
              | lt => exact Except.noConfusion h
              | ident s => exact Except.noConfusion h
              | payload s => exact Except.noConfusion h
              | gt =>
                cases rest4 with
                | nil => exact Except.noConfusion h
                | cons t4 rest5 =>
                  cases t4 with
                  | lbrace => exact Except.noConfusion h
                  | rbrace => exact Except.noConfusion h
                  | lbracket => exact (hnta tg2 rest5 rfl).elim
                  | rbracket => exact Except.noConfusion h
                  | lt => exact Except.noConfusion h
                  | gt => exact Except.noConfusion h
                  | ident s => exact Except.noConfusion h
                  | payload p => exact (hnsc tg2 p rest5 rfl).elim

theorem parseF_shape : ∀ (fuel : Nat) (job : PJob) (toks : List Token)
    (v : Value) (rest : List Token), parseF fuel job toks = Except.ok (v, rest) →
    (match job with
     | .objBody _ => ∃ fs, v = .vObj fs
     | .arrBody _ _ => ∃ es, v = .vArr es) := by
  intro fuel job toks
  induction fuel, job, toks using parseF.induct with
  | case1 job toks =>
    intro v rest h
    exact Except.noConfusion h
  | case2 f acc rest2 =>
    intro v rest h
    have h2 : Except.ok (Value.vObj acc.reverse, rest2) = Except.ok (v, rest) := h
    obtain ⟨rfl, rfl⟩ := Prod.mk.inj (Except.ok.inj h2)
    exact ⟨acc.reverse, rfl⟩
  | case3 f acc k rest2 hdup =>
    intro v rest h
    rw [Nat.succ_eq_add_one] at h
    simp only [parseF, hdup, eq_self_iff_true, if_true] at h
    exact Except.noConfusion h
  | case4 f acc k hdup tg rest2 hpt =>
    intro v rest h
    have hkf := Bool.eq_false_iff.mpr hdup
    rw [Nat.succ_eq_add_one] at h
    simp only [parseF, hkf, Bool.false_eq_true, if_false, hpt] at h
    exact Except.noConfusion h
  | case5 f acc k hdup tg tag hpt p rest3 e herr =>
    intro v rest h
    have hkf := Bool.eq_false_iff.mpr hdup
    rw [Nat.succ_eq_add_one] at h
    simp only [parseF, hkf, Bool.false_eq_true, if_false, hpt, herr] at h
    exact Except.noConfusion h
  | case6 f acc k hdup tg tag hpt p rest3 w hco ih1 =>
    intro v rest h
    have hkf := Bool.eq_false_iff.mpr hdup
    rw [Nat.succ_eq_add_one] at h
    rw [parseF_field_scalar hkf hpt hco] at h
    exact ih1 v rest h
  | case7 f acc k hdup tg tag hpt rest3 e herr ih1 =>
    intro v rest h
    have hkf := Bool.eq_false_iff.mpr hdup
    rw [Nat.succ_eq_add_one] at h
    simp only [parseF, hkf, Bool.false_eq_true, if_false, hpt, herr] at h
    exact Except.noConfusion h
  | case8 f acc k hdup tg tag hpt rest3 w rest4 hin ih2 ih1 =>
    intro v rest h
    have hkf := Bool.eq_false_iff.mpr hdup
    rw [Nat.succ_eq_add_one] at h
    rw [parseF_field_typedarr hkf hpt hin] at h
    exact ih1 v rest h
  | case9 f acc k hdup tg rest2 tag hpt hnp hnb =>
    intro v rest h
    have hkf := Bool.eq_false_iff.mpr hdup
    rw [Nat.succ_eq_add_one] at h
    simp only [parseF, hkf, Bool.false_eq_true, if_false, hpt] at h
    exact Except.noConfusion h
  | case10 f acc k hdup p rest2 e herr =>
    intro v rest h
    have hkf := Bool.eq_false_iff.mpr hdup
    rw [Nat.succ_eq_add_one] at h
    simp only [parseF, hkf, Bool.false_eq_true, if_false, herr] at h
    exact Except.noConfusion h
  | case11 f acc k hdup p rest2 w hok ih1 =>
    intro v rest h
    have hkf := Bool.eq_false_iff.mpr hdup
    rw [Nat.succ_eq_add_one] at h
    simp only [parseF, hkf, Bool.false_eq_true, if_false, hok] at h
    exact ih1 v rest h
  | case12 f acc k hdup rest2 e herr ih1 =>
    intro v rest h
    have hkf := Bool.eq_false_iff.mpr hdup
    rw [Nat.succ_eq_add_one] at h
    simp only [parseF, hkf, Bool.false_eq_true, if_false, herr] at h
    exact Except.noConfusion h
  | case13 f acc k hdup rest2 w rest4 hin ih2 ih1 =>
    intro v rest h
    have hkf := Bool.eq_false_iff.mpr hdup
    rw [Nat.succ_eq_add_one] at h
    rw [parseF_field_obj hkf hin] at h
    exact ih1 v rest h
  | case14 f acc k hdup rest2 e herr ih1 =>
    intro v rest h
    have hkf := Bool.eq_false_iff.mpr hdup
    rw [Nat.succ_eq_add_one] at h
    simp only [parseF, hkf, Bool.false_eq_true, if_false, herr] at h
    exact Except.noConfusion h
  | case15 f acc k hdup rest2 w rest4 hin ih2 ih1 =>
    intro v rest h
    have hkf := Bool.eq_false_iff.mpr hdup
    rw [Nat.succ_eq_add_one] at h
    rw [parseF_field_arr hkf hin] at h
    exact ih1 v rest h
  | case16 f acc k rest2 hdup hnh hnp hno hnb =>
    intro v rest h
    have hkf := Bool.eq_false_iff.mpr hdup
    rw [Nat.succ_eq_add_one] at h
    simp only [parseF, hkf, Bool.false_eq_true, if_false] at h
    exact Except.noConfusion h
  | case17 f acc =>
    intro v rest h
    exact Except.noConfusion h
  | case18 f acc toks hnr hni hnil =>
    intro v rest h
    cases toks with
    | nil => exact (hnil rfl).elim
    | cons t rest2 =>
      cases t with
      | lbrace => exact Except.noConfusion h
      | rbrace => exact (hnr rest2 rfl).elim
      | lbracket => exact Except.noConfusion h
      | rbracket => exact Except.noConfusion h
      | lt => exact Except.noConfusion h
      | gt => exact Except.noConfusion h
      | ident s => exact (hni s rest2 rfl).elim
      | payload s => exact Except.noConfusion h
  | case19 f hint acc rest2 =>
    intro v rest h
    have h2 : Except.ok (Value.vArr acc.reverse, rest2) = Except.ok (v, rest) := h
    obtain ⟨rfl, rfl⟩ := Prod.mk.inj (Except.ok.inj h2)
    exact ⟨acc.reverse, rfl⟩
  | case20 f hint acc lexm rest2 e herr =>
    intro v rest h
    rw [Nat.succ_eq_add_one] at h
    simp only [parseF, herr] at h
    exact Except.noConfusion h
  | case21 f hint acc lexm rest2 w hok ih1 =>
    intro v rest h
    rw [Nat.succ_eq_add_one] at h
    simp only [parseF, hok] at h
    exact ih1 v rest h
  | case22 f acc rest2 val =>
    intro v rest h
    exact Except.noConfusion h
  | case23 f acc rest2 e herr ih1 =>
    intro v rest h
    rw [Nat.succ_eq_add_one] at h
    simp only [parseF, herr] at h
    exact Except.noConfusion h
  | case24 f acc rest2 w rest4 hin ih2 ih1 =>
    intro v rest h
    rw [Nat.succ_eq_add_one] at h
    rw [parseF_arr_elem_obj hin] at h
    exact ih1 v rest h
  | case25 f acc rest2 val =>
    intro v rest h
    exact Except.noConfusion h
  | case26 f acc rest2 e herr ih1 =>
    intro v rest h
    rw [Nat.succ_eq_add_one] at h
    simp only [parseF, herr] at h
    exact Except.noConfusion h
  | case27 f acc rest2 w rest4 hin ih2 ih1 =>
    intro v rest h
    rw [Nat.succ_eq_add_one] at h
    rw [parseF_arr_elem_arr hin] at h
    exact ih1 v rest h
  | case28 f acc tg p rest2 val =>
    intro v rest h
    exact Except.noConfusion h
  | case29 f acc tg p rest2 hpt =>
    intro v rest h
    rw [Nat.succ_eq_add_one] at h
    simp only [parseF, hpt] at h
    exact Except.noConfusion h
  | case30 f acc tg p rest2 tag hpt e herr =>
    intro v rest h
    rw [Nat.succ_eq_add_one] at h
    simp only [parseF, hpt, herr] at h
    exact Except.noConfusion h
  | case31 f acc tg p rest2 tag hpt w hco ih1 =>
    intro v rest h
    rw [Nat.succ_eq_add_one] at h
    rw [parseF_arr_elem_scalar hpt hco] at h
    exact ih1 v rest h
  | case32 f acc tg rest2 val =>
    intro v rest h
    exact Except.noConfusion h
  | case33 f acc tg rest2 hpt =>
    intro v rest h
    rw [Nat.succ_eq_add_one] at h
    simp only [parseF, hpt] at h
    exact Except.noConfusion h
  | case34 f acc tg rest2 tag hpt e herr ih1 =>
    intro v rest h
    rw [Nat.succ_eq_add_one] at h
    simp only [parseF, hpt, herr] at h
    exact Except.noConfusion h
  | case35 f acc tg rest2 tag hpt w rest4 hin ih2 ih1 =>
    intro v rest h
    rw [Nat.succ_eq_add_one] at h
    rw [parseF_arr_elem_typedarr hpt hin] at h
    exact ih1 v rest h
  | case36 f hint acc =>
    intro v rest h
    exact Except.noConfusion h
  | case37 f hint acc toks hnrb hnid hnlb hnlk hnsc hnta hnil =>
    intro v rest h
    cases toks with
    | nil => exact (hnil rfl).elim
    | cons t rest2 =>
      cases t with
      | lbrace => exact (hnlb rest2 rfl).elim
      | rbrace => exact Except.noConfusion h
      | lbracket => exact (hnlk rest2 rfl).elim
      | rbracket => exact (hnrb rest2 rfl).elim
      | gt => exact Except.noConfusion h
      | ident s => exact (hnid s rest2 rfl).elim
      | payload s => exact Except.noConfusion h
      | lt =>
        cases rest2 with
        | nil => exact Except.noConfusion h
        | cons t2 rest3 =>
          cases t2 with
          | lbrace => exact Except.noConfusion h
          | rbrace => exact Except.noConfusion h
          | lbracket => exact Except.noConfusion h
          | rbracket => exact Except.noConfusion h
          | lt => exact Except.noConfusion h
          | gt => exact Except.noConfusion h
          | payload s => exact Except.noConfusion h
          | ident tg2 =>
            cases rest3 with
            | nil => exact Except.noConfusion h
            | cons t3 rest4 =>
              cases t3 with
              | lbrace => exact Except.noConfusion h
              | rbrace => exact Except.noConfusion h
              | lbracket => exact Except.noConfusion h
              | rbracket => exact Except.noConfusion h
              | lt => exact Except.noConfusion h
              | ident s => exact Except.noConfusion h
              | payload s => exact Except.noConfusion h
              | gt =>
                cases rest4 with
                | nil => exact Except.noConfusion h
                | cons t4 rest5 =>
                  cases t4 with
                  | lbrace => exact Except.noConfusion h
                  | rbrace => exact Except.noConfusion h
                  | lbracket => exact (hnta tg2 rest5 rfl).elim
                  | rbracket => exact Except.noConfusion h
                  | lt => exact Except.noConfusion h
                  | gt => exact Except.noConfusion h
                  | ident s => exact Except.noConfusion h
                  | payload p => exact (hnsc tg2 p rest5 rfl).elim

/-! Helper lemmas: moving between `gbln_parse` on a text and `parseDoc`
on its token stream, in both directions. -/

theorem gbln_parse_ok_inv {input : List Char} {ts : List Token} {v : Value}
    (hlex : gbln_lex input = .ok ts) (h : gbln_parse input = .ok v) :
    parseDoc ts = .ok v := by
  unfold gbln_parse at h
  rw [hlex] at h
  have h2 : (match parseDoc ts with
    | .ok w => Except.ok w
    | .error e => Except.error (surfaceErr e)) = Except.ok v := h
  rcases hx : parseDoc ts with e | w <;> rw [hx] at h2
  · exact Except.noConfusion h2
  · have h3 : Except.ok w = Except.ok v := h2
    obtain rfl := Except.ok.inj h3
    rfl

theorem gbln_parse_of_lex {input : List Char} {ts : List Token} {v : Value}
    (hlex : gbln_lex input = .ok ts) (hdoc : parseDoc ts = .ok v) :
    gbln_parse input = .ok v := by
  unfold gbln_parse
  rw [hlex]
  have hb : (Except.ok ts).bind parseDoc = Except.ok v := hdoc
  rw [hb]

/-! Helper lemma: a one-field document whose typed payload the coercer
rejects propagates exactly that error through the whole pipeline. -/

theorem typed_field_err (tag : GblnTag) (l k : List Char) (e : PErr)
    (hk : validIdent k = true) (hl : ')' ∉ l)
    (hco : coerce tag l = .error e) :
    gbln_parse (compactRender [Token.lbrace, Token.ident k, Token.lt,
      Token.ident tag.name, Token.gt, Token.payload l, Token.rbrace]) =
      .error (surfaceErr e) := by
  have htw : toksWf [Token.lbrace, Token.ident k, Token.lt,
      Token.ident tag.name, Token.gt, Token.payload l, Token.rbrace] = true := by
    simp [toksWf, tokenWf, hk, validIdent_tagName, hl]
  have hrun : ∀ f, 2 ≤ f → parseF f (.objBody []) [Token.ident k, Token.lt,
      Token.ident tag.name, Token.gt, Token.payload l, Token.rbrace] = .error e := by
    intro f hf
    cases f with
    | zero => omega
    | succ f2 =>
      simp only [parseF, fieldsHaveKey, List.any_nil, Bool.false_eq_true, if_false,
        parseTag_name, hco]
  have hdoc : parseDoc [Token.lbrace, Token.ident k, Token.lt,
      Token.ident tag.name, Token.gt, Token.payload l, Token.rbrace] = .error e := by
    simp only [parseDoc]
    rw [hrun]
    · rfl
    · simp
  exact gbln_parse_compactRender_err htw hdoc

/-! ## The claims -/

/-- C1: for every value the core can construct — through the public
constructors and builders, or as the result of a previous parse — on
which the serializer produces output, parsing the compact output yields
a value round-trip-equal to the original, and likewise for the pretty
output (the round-trip law, amended by the serializer-success
hypothesis: a constructible string payload containing `)` has no
serialization at all, see the counterexample). -/
theorem claim1_roundtrip (v : Value) (hv : Constructible v ∨ ParseProduced v) :
    (∀ out, gbln_to_string v = some out →
      ∃ w, gbln_parse out = .ok w ∧ ValueEquiv w v) ∧
    (∀ out, gbln_to_string_pretty v = some out →
      ∃ w, gbln_parse out = .ok w ∧ ValueEquiv w v) := by
  have hw : WfValue v := by
    rcases hv with h | h
    · exact constructible_wf h
    · obtain ⟨input, hin⟩ := h
      exact parse_wf hin
  exact ⟨fun out ho => ⟨v, serialize_parse_compact hw ho, valueEquiv_refl v⟩,
    fun out ho => ⟨v, serialize_parse_pretty hw ho, valueEquiv_refl v⟩⟩

/-- C1, counterexample to the unamended claim: the string value `)` of
class `s8` is constructible through `gbln_value_new_str`, yet neither
serializer produces output for it (the spec requires the serializer to
refuse a payload containing `)`), so `parse(serialize(V))` is not
defined for every constructible V. -/
theorem claim1_counterexample :
    Constructible (Value.vStr .s8 [')']) ∧
    gbln_to_string (Value.vStr .s8 [')']) = none ∧
    gbln_to_string_pretty (Value.vStr .s8 [')']) = none := by
  refine ⟨Constructible.mkStr [')'] 8 (by decide) (by decide), ?_, ?_⟩ <;>
    simp [gbln_to_string, gbln_to_string_pretty, serializeToks, scalarTagOf, scalarPayload]

/-- C1, witness: the round trip instantiated at the one-field object
`{a<i8>(5)}` built by `object_insert` on the empty object. -/
theorem claim1_witness :
    (Constructible (Value.vObj [(['a'], Value.vInt .i8 5)]) ∨
      ParseProduced (Value.vObj [(['a'], Value.vInt .i8 5)])) ∧
    ((∀ out, gbln_to_string (Value.vObj [(['a'], Value.vInt .i8 5)]) = some out →
       ∃ w, gbln_parse out = .ok w ∧ ValueEquiv w (Value.vObj [(['a'], Value.vInt .i8 5)])) ∧
     (∀ out, gbln_to_string_pretty (Value.vObj [(['a'], Value.vInt .i8 5)]) = some out →
       ∃ w, gbln_parse out = .ok w ∧ ValueEquiv w (Value.vObj [(['a'], Value.vInt .i8 5)]))) :=
  ⟨Or.inl (Constructible.insert [] ['a'] (Value.vInt .i8 5) Constructible.mkObj
      (Constructible.mkInt .i8 5 (by decide)) rfl),
   claim1_roundtrip _ (Or.inl (Constructible.insert [] ['a'] (Value.vInt .i8 5)
      Constructible.mkObj (Constructible.mkInt .i8 5 (by decide)) rfl))⟩

/-- C5: every listed range edge parses to exactly its payload, and the
value one beyond each edge fails with the surfaced `TypeMismatch` code
and no value. -/
theorem claim5_range_edges :
    gbln_parse "{a<i8>(-128)}".toList = .ok (.vObj [(['a'], .vInt .i8 (-128))]) ∧
    gbln_parse "{a<i8>(127)}".toList = .ok (.vObj [(['a'], .vInt .i8 127)]) ∧
    gbln_parse "{a<u8>(255)}".toList = .ok (.vObj [(['a'], .vUInt .u8 255)]) ∧
    gbln_parse "{a<i16>(-32768)}".toList = .ok (.vObj [(['a'], .vInt .i16 (-32768))]) ∧
    gbln_parse "{a<u16>(65535)}".toList = .ok (.vObj [(['a'], .vUInt .u16 65535)]) ∧
    gbln_parse "{a<u32>(4294967295)}".toList =
      .ok (.vObj [(['a'], .vUInt .u32 4294967295)]) ∧
    gbln_parse "{a<i64>(-9223372036854775808)}".toList =
      .ok (.vObj [(['a'], .vInt .i64 (-9223372036854775808))]) ∧
    gbln_parse "{a<u64>(18446744073709551615)}".toList =
      .ok (.vObj [(['a'], .vUInt .u64 18446744073709551615)]) ∧
    gbln_parse_code "{a<i8>(-129)}".toList = (.errTypeMismatch, none) ∧
    gbln_parse_code "{a<i8>(128)}".toList = (.errTypeMismatch, none) ∧
    gbln_parse_code "{a<u8>(256)}".toList = (.errTypeMismatch, none) ∧
    gbln_parse_code "{a<i16>(-32769)}".toList = (.errTypeMismatch, none) ∧
    gbln_parse_code "{a<u16>(65536)}".toList = (.errTypeMismatch, none) ∧
    gbln_parse_code "{a<u32>(4294967296)}".toList = (.errTypeMismatch, none) ∧
    gbln_parse_code "{a<i64>(-9223372036854775809)}".toList = (.errTypeMismatch, none) ∧
    gbln_parse_code "{a<u64>(18446744073709551616)}".toList = (.errTypeMismatch, none) :=
  ⟨rfl, rfl, rfl, rfl, rfl, rfl, rfl, rfl,
   rfl, rfl, rfl, rfl, rfl, rfl, rfl, rfl⟩

/-- C8: each typed accessor answers `some` exactly on its own scalar
tag, never coercing, and on the null value `is_null` is true while
every `as_*` accessor answers none (`ok = false`). -/
theorem claim8_accessors (v : Value) :
    (∀ x, gbln_value_as_i8 v = some x ↔ v = .vInt .i8 x) ∧
    (∀ x, gbln_value_as_i16 v = some x ↔ v = .vInt .i16 x) ∧
    (∀ x, gbln_value_as_i32 v = some x ↔ v = .vInt .i32 x) ∧
    (∀ x, gbln_value_as_i64 v = some x ↔ v = .vInt .i64 x) ∧
    (∀ x, gbln_value_as_u8 v = some x ↔ v = .vUInt .u8 x) ∧
    (∀ x, gbln_value_as_u16 v = some x ↔ v = .vUInt .u16 x) ∧
    (∀ x, gbln_value_as_u32 v = some x ↔ v = .vUInt .u32 x) ∧
    (∀ x, gbln_value_as_u64 v = some x ↔ v = .vUInt .u64 x) ∧
    (∀ n e, gbln_value_as_f32 v = some (n, e) ↔ v = .vFloat .f32 n e) ∧
    (∀ n e, gbln_value_as_f64 v = some (n, e) ↔ v = .vFloat .f64 n e) ∧
    (∀ s, gbln_value_as_string v = some s ↔ ∃ t, v = .vStr t s) ∧
    (∀ b, gbln_value_as_bool v = some b ↔ v = .vBool b) ∧
    (gbln_value_is_null v = true ↔ v = .vNull) ∧
    (gbln_value_is_null .vNull = true ∧
     gbln_value_as_i8 .vNull = none ∧ gbln_value_as_i16 .vNull = none ∧
     gbln_value_as_i32 .vNull = none ∧ gbln_value_as_i64 .vNull = none ∧
     gbln_value_as_u8 .vNull = none ∧ gbln_value_as_u16 .vNull = none ∧
     gbln_value_as_u32 .vNull = none ∧ gbln_value_as_u64 .vNull = none ∧
     gbln_value_as_f32 .vNull = none ∧ gbln_value_as_f64 .vNull = none ∧
     gbln_value_as_string .vNull = none ∧ gbln_value_as_bool .vNull = none) := by
  cases v with
  | vInt t x =>
    cases t <;> simp [gbln_value_as_i8, gbln_value_as_i16, gbln_value_as_i32,
      gbln_value_as_i64, gbln_value_as_u8, gbln_value_as_u16, gbln_value_as_u32,
      gbln_value_as_u64, gbln_value_as_f32, gbln_value_as_f64,
      gbln_value_as_string, gbln_value_as_bool, gbln_value_is_null]
  | vUInt t x =>
    cases t <;> simp [gbln_value_as_i8, gbln_value_as_i16, gbln_value_as_i32,
      gbln_value_as_i64, gbln_value_as_u8, gbln_value_as_u16, gbln_value_as_u32,
      gbln_value_as_u64, gbln_value_as_f32, gbln_value_as_f64,
      gbln_value_as_string, gbln_value_as_bool, gbln_value_is_null]
  | vFloat t n e =>
    cases t <;> simp [gbln_value_as_i8, gbln_value_as_i16, gbln_value_as_i32,
      gbln_value_as_i64, gbln_value_as_u8, gbln_value_as_u16, gbln_value_as_u32,
      gbln_value_as_u64, gbln_value_as_f32, gbln_value_as_f64,
      gbln_value_as_string, gbln_value_as_bool, gbln_value_is_null]
  | vStr t s =>
    simp [gbln_value_as_i8, gbln_value_as_i16, gbln_value_as_i32,
      gbln_value_as_i64, gbln_value_as_u8, gbln_value_as_u16, gbln_value_as_u32,
      gbln_value_as_u64, gbln_value_as_f32, gbln_value_as_f64,
      gbln_value_as_string, gbln_value_as_bool, gbln_value_is_null]
  | vBool b =>
    simp [gbln_value_as_i8, gbln_value_as_i16, gbln_value_as_i32,
      gbln_value_as_i64, gbln_value_as_u8, gbln_value_as_u16, gbln_value_as_u32,
      gbln_value_as_u64, gbln_value_as_f32, gbln_value_as_f64,
      gbln_value_as_string, gbln_value_as_bool, gbln_value_is_null]
  | vNull =>
    simp [gbln_value_as_i8, gbln_value_as_i16, gbln_value_as_i32,
      gbln_value_as_i64, gbln_value_as_u8, gbln_value_as_u16, gbln_value_as_u32,
      gbln_value_as_u64, gbln_value_as_f32, gbln_value_as_f64,
      gbln_value_as_string, gbln_value_as_bool, gbln_value_is_null]
  | vObj fs =>
    simp [gbln_value_as_i8, gbln_value_as_i16, gbln_value_as_i32,
      gbln_value_as_i64, gbln_value_as_u8, gbln_value_as_u16, gbln_value_as_u32,
      gbln_value_as_u64, gbln_value_as_f32, gbln_value_as_f64,
      gbln_value_as_string, gbln_value_as_bool, gbln_value_is_null]
  | vArr es =>
    simp [gbln_value_as_i8, gbln_value_as_i16, gbln_value_as_i32,
      gbln_value_as_i64, gbln_value_as_u8, gbln_value_as_u16, gbln_value_as_u32,
      gbln_value_as_u64, gbln_value_as_f32, gbln_value_as_f64,
      gbln_value_as_string, gbln_value_as_bool, gbln_value_is_null]

/-- C9: inserting under an already-bound key fails with `DuplicateKey`
and leaves the object unchanged — same field count, and the previously
inserted child is still read back — while inserting under a fresh key
succeeds and grows the object by one field. -/
theorem claim9_object_insert (fs : List (List Char × Value)) (k : List Char)
    (child : Value) :
    (fieldsHaveKey fs k = true →
      gbln_object_insert (.vObj fs) k child = (.errDuplicateKey, .vObj fs) ∧
      gbln_object_len (gbln_object_insert (.vObj fs) k child).2 =
        gbln_object_len (.vObj fs) ∧
      ∃ w, gbln_object_get (.vObj fs) k = some w ∧
        gbln_object_get (gbln_object_insert (.vObj fs) k child).2 k = some w) ∧
    (fieldsHaveKey fs k = false →
      gbln_object_insert (.vObj fs) k child = (.ok, .vObj (fs ++ [(k, child)])) ∧
      gbln_object_len (gbln_object_insert (.vObj fs) k child).2 =
        gbln_object_len (.vObj fs) + 1) := by
  constructor
  · intro hdup
    have hins : gbln_object_insert (.vObj fs) k child = (.errDuplicateKey, .vObj fs) := by
      simp [gbln_object_insert, hdup]
    obtain ⟨w, hw⟩ := lookupField_isSome_of_hasKey hdup
    exact ⟨hins, by rw [hins], ⟨w, hw, by rw [hins]; exact hw⟩⟩
  · intro habs
    have hins : gbln_object_insert (.vObj fs) k child =
        (.ok, .vObj (fs ++ [(k, child)])) := by
      simp [gbln_object_insert, habs]
    refine ⟨hins, ?_⟩
    rw [hins]
    simp [gbln_object_len]

/-- C10: the array accessors are total — zero length and an absent
element on any non-array, the absent element beyond the bound, and the
i-th element in insertion order within it; `array_push` appends. -/
theorem claim10_array_access (v : Value) (i : Nat) :
    ((∀ es, v ≠ .vArr es) → gbln_array_len v = 0 ∧ gbln_array_get v i = none) ∧
    (∀ es, v = .vArr es →
      gbln_array_len v = es.length ∧
      (es.length ≤ i → gbln_array_get v i = none) ∧
      (∀ h : i < es.length, gbln_array_get v i = some (es.get ⟨i, h⟩)) ∧
      ∀ child, gbln_array_push v child = (.ok, .vArr (es ++ [child]))) := by
  constructor
  · intro hne
    cases v with
    | vArr es => exact absurd rfl (hne es)
    | vInt t x => exact ⟨rfl, rfl⟩
    | vUInt t x => exact ⟨rfl, rfl⟩
    | vFloat t n e => exact ⟨rfl, rfl⟩
    | vStr t s => exact ⟨rfl, rfl⟩
    | vBool b => exact ⟨rfl, rfl⟩
    | vNull => exact ⟨rfl, rfl⟩
    | vObj fs => exact ⟨rfl, rfl⟩
  · rintro es rfl
    refine ⟨rfl, ?_, ?_, fun child => rfl⟩
    · intro hle
      show es[i]? = none
      exact List.getElem?_eq_none hle
    · intro hlt
      show es[i]? = some (es.get ⟨i, hlt⟩)
      simp [List.getElem?_eq_getElem hlt]

/-- C2: an out-of-range typed integer field — signed or unsigned —
surfaces error code `TypeMismatch` (not the internal `IntOutOfRange`)
with no value, and the last-error message names the offending lexeme
and the declared type. -/
theorem claim2_out_of_range :
    (∀ (t : IntTag) (x : Int), x < t.minVal ∨ t.maxVal < x →
      ∀ k : List Char, validIdent k = true →
      gbln_parse_code (compactRender [Token.lbrace, Token.ident k, Token.lt,
        Token.ident (GblnTag.gInt t).name, Token.gt, Token.payload (intLexeme x),
        Token.rbrace]) = (.errTypeMismatch, none) ∧
      ∃ msg, gbln_last_error_message (compactRender [Token.lbrace, Token.ident k,
          Token.lt, Token.ident (GblnTag.gInt t).name, Token.gt,
          Token.payload (intLexeme x), Token.rbrace]) = some msg ∧
        containsSeg (intLexeme x) msg = true ∧ containsSeg t.name msg = true) ∧
    (∀ (t : UIntTag) (x : Nat), t.maxVal < x →
      ∀ k : List Char, validIdent k = true →
      gbln_parse_code (compactRender [Token.lbrace, Token.ident k, Token.lt,
        Token.ident (GblnTag.gUInt t).name, Token.gt, Token.payload (natLexeme x),
        Token.rbrace]) = (.errTypeMismatch, none) ∧
      ∃ msg, gbln_last_error_message (compactRender [Token.lbrace, Token.ident k,
          Token.lt, Token.ident (GblnTag.gUInt t).name, Token.gt,
          Token.payload (natLexeme x), Token.rbrace]) = some msg ∧
        containsSeg (natLexeme x) msg = true ∧ containsSeg t.name msg = true) := by
  constructor
  · intro t x hout k hk
    have hco : coerce (.gInt t) (intLexeme x) = .error ⟨.errIntOutOfRange,
        "value ".toList ++ intLexeme x ++ " out of range for type ".toList ++ t.name⟩ := by
      simp only [coerce, intLexVal_intLexeme]
      rw [if_neg (show ¬ (t.minVal ≤ x ∧ x ≤ t.maxVal) by
        rcases hout with h | h <;> omega)]
    have hparse := typed_field_err (.gInt t) (intLexeme x) k _ hk
      (rparen_not_mem_intLexeme x) hco
    have hparse2 : gbln_parse (compactRender [Token.lbrace, Token.ident k, Token.lt,
        Token.ident (GblnTag.gInt t).name, Token.gt, Token.payload (intLexeme x),
        Token.rbrace]) = .error ⟨.errTypeMismatch,
        "value ".toList ++ intLexeme x ++ " out of range for type ".toList ++
          t.name⟩ := hparse
    refine ⟨?_, ⟨"value ".toList ++ intLexeme x ++ " out of range for type ".toList ++
      t.name, ?_, ?_, ?_⟩⟩
    · simp only [gbln_parse_code, hparse2]
    · simp only [gbln_last_error_message, hparse2]
    · have h := containsSeg_append "value ".toList (intLexeme x)
        (" out of range for type ".toList ++ t.name)
      simpa [List.append_assoc] using h
    · exact containsSeg_suffix
        ("value ".toList ++ intLexeme x ++ " out of range for type ".toList) t.name
  · intro t x hout k hk
    have hco : coerce (.gUInt t) (natLexeme x) = .error ⟨.errIntOutOfRange,
        "value ".toList ++ natLexeme x ++ " out of range for type ".toList ++ t.name⟩ := by
      simp only [coerce, natLexVal_natLexeme]
      rw [if_neg (show ¬ x ≤ t.maxVal by omega)]
    have hparse := typed_field_err (.gUInt t) (natLexeme x) k _ hk
      (rparen_not_mem_natLexeme x) hco
    have hparse2 : gbln_parse (compactRender [Token.lbrace, Token.ident k, Token.lt,
        Token.ident (GblnTag.gUInt t).name, Token.gt, Token.payload (natLexeme x),
        Token.rbrace]) = .error ⟨.errTypeMismatch,
        "value ".toList ++ natLexeme x ++ " out of range for type ".toList ++
          t.name⟩ := hparse
    refine ⟨?_, ⟨"value ".toList ++ natLexeme x ++ " out of range for type ".toList ++
      t.name, ?_, ?_, ?_⟩⟩
    · simp only [gbln_parse_code, hparse2]
    · simp only [gbln_last_error_message, hparse2]
    · have h := containsSeg_append "value ".toList (natLexeme x)
        (" out of range for type ".toList ++ t.name)
      simpa [List.append_assoc] using h
    · exact containsSeg_suffix
        ("value ".toList ++ natLexeme x ++ " out of range for type ".toList) t.name

/-- C2, witness: the spec's own example `{age<i8>(999)}`, and its
unsigned counterpart `{age<u8>(999)}`. -/
theorem claim2_witness :
    (gbln_parse_code (compactRender [Token.lbrace, Token.ident "age".toList, Token.lt,
        Token.ident (GblnTag.gInt .i8).name, Token.gt, Token.payload (intLexeme 999),
        Token.rbrace]) = (.errTypeMismatch, none) ∧
     ∃ msg, gbln_last_error_message (compactRender [Token.lbrace,
         Token.ident "age".toList, Token.lt, Token.ident (GblnTag.gInt .i8).name,
         Token.gt, Token.payload (intLexeme 999), Token.rbrace]) = some msg ∧
       containsSeg (intLexeme 999) msg = true ∧
       containsSeg (IntTag.name .i8) msg = true) ∧
    (gbln_parse_code (compactRender [Token.lbrace, Token.ident "age".toList, Token.lt,
        Token.ident (GblnTag.gUInt .u8).name, Token.gt, Token.payload (natLexeme 999),
        Token.rbrace]) = (.errTypeMismatch, none) ∧
     ∃ msg, gbln_last_error_message (compactRender [Token.lbrace,
         Token.ident "age".toList, Token.lt, Token.ident (GblnTag.gUInt .u8).name,
         Token.gt, Token.payload (natLexeme 999), Token.rbrace]) = some msg ∧
       containsSeg (natLexeme 999) msg = true ∧
       containsSeg (UIntTag.name .u8) msg = true) :=
  ⟨claim2_out_of_range.1 .i8 999 (by decide) "age".toList (by decide),
   claim2_out_of_range.2 .u8 999 (by decide) "age".toList (by decide)⟩

/-- C3: a named top-level typed array parses successfully and yields
exactly the value of the identical typed array written as the single
field of an object: the field key mapped to the coerced element
sequence. -/
theorem claim3_top_level_typed_array (name : List Char) (tag : GblnTag)
    (lexs : List (List Char)) (vs : List Value) (hname : validIdent name = true)
    (hlexs : ∀ l ∈ lexs, validIdent l = true)
    (hca : coerceAll tag lexs = .ok vs) :
    gbln_parse (compactRender (Token.ident name :: Token.lt :: Token.ident tag.name ::
      Token.gt :: Token.lbracket :: (lexs.map Token.ident ++ [Token.rbracket]))) =
      .ok (.vObj [(name, .vArr vs)]) ∧
    gbln_parse (compactRender (Token.lbrace :: Token.ident name :: Token.lt ::
      Token.ident tag.name :: Token.gt :: Token.lbracket ::
      (lexs.map Token.ident ++ [Token.rbracket, Token.rbrace]))) =
      .ok (.vObj [(name, .vArr vs)]) := by
  have htop : toksWf (Token.ident name :: Token.lt :: Token.ident tag.name ::
      Token.gt :: Token.lbracket :: (lexs.map Token.ident ++ [Token.rbracket])) = true := by
    simp [toksWf, List.all_cons, List.all_append, tokenWf, hname, validIdent_tagName,
      all_ident_tokenWf hlexs]
  have hobj : toksWf (Token.lbrace :: Token.ident name :: Token.lt ::
      Token.ident tag.name :: Token.gt :: Token.lbracket ::
      (lexs.map Token.ident ++ [Token.rbracket, Token.rbrace])) = true := by
    simp [toksWf, List.all_cons, List.all_append, tokenWf, hname, validIdent_tagName,
      all_ident_tokenWf hlexs]
  have hdoc_top : parseDoc (Token.ident name :: Token.lt :: Token.ident tag.name ::
      Token.gt :: Token.lbracket :: (lexs.map Token.ident ++ [Token.rbracket])) =
      .ok (.vObj [(name, .vArr vs)]) := by
    simp only [parseDoc, parseTag_name]
    rw [parseF_hintrun lexs ((Token.ident name :: Token.lt :: Token.ident tag.name ::
      Token.gt :: Token.lbracket :: (lexs.map Token.ident ++ [Token.rbracket])).length + 1)
      tag [] vs [] hca
      (by simp only [List.length_cons, List.length_append, List.length_map,
        List.length_nil]; omega)]
    rfl
  have hdoc_obj : parseDoc (Token.lbrace :: Token.ident name :: Token.lt ::
      Token.ident tag.name :: Token.gt :: Token.lbracket ::
      (lexs.map Token.ident ++ [Token.rbracket, Token.rbrace])) =
      .ok (.vObj [(name, .vArr vs)]) := by
    simp only [parseDoc]
    rw [parseF_obj_typedarr_run ((Token.lbrace :: Token.ident name :: Token.lt ::
      Token.ident tag.name :: Token.gt :: Token.lbracket ::
      (lexs.map Token.ident ++ [Token.rbracket, Token.rbrace])).length + 1)
      name tag lexs vs hca
      (by simp only [List.length_cons, List.length_append, List.length_map,
        List.length_nil]; omega)]
    rfl
  exact ⟨gbln_parse_compactRender htop hdoc_top, gbln_parse_compactRender hobj hdoc_obj⟩

/-- C3, witness: `tags<s16>[rust python golang]` top level and inside
an object. -/
theorem claim3_witness :
    gbln_parse (compactRender (Token.ident "tags".toList :: Token.lt ::
      Token.ident (GblnTag.gStr .s16).name :: Token.gt :: Token.lbracket ::
      (["rust".toList, "python".toList, "golang".toList].map Token.ident ++
        [Token.rbracket]))) =
      .ok (.vObj [("tags".toList, .vArr [.vStr .s16 "rust".toList,
        .vStr .s16 "python".toList, .vStr .s16 "golang".toList])]) ∧
    gbln_parse (compactRender (Token.lbrace :: Token.ident "tags".toList :: Token.lt ::
      Token.ident (GblnTag.gStr .s16).name :: Token.gt :: Token.lbracket ::
      (["rust".toList, "python".toList, "golang".toList].map Token.ident ++
        [Token.rbracket, Token.rbrace]))) =
      .ok (.vObj [("tags".toList, .vArr [.vStr .s16 "rust".toList,
        .vStr .s16 "python".toList, .vStr .s16 "golang".toList])]) :=
  claim3_top_level_typed_array "tags".toList (.gStr .s16)
    ["rust".toList, "python".toList, "golang".toList]
    [.vStr .s16 "rust".toList, .vStr .s16 "python".toList, .vStr .s16 "golang".toList]
    (by decide) (by decide) rfl

/-- C4: for every input text of the form `name{...}` or `name[...]` —
every text whose token stream starts with the name followed by the
container body — the parse wraps the body's value, which is itself an
object (respectively an array), in a single-field anonymous outer
object retrievable by that name, while the text of the bare body
parses to the container value itself. -/
theorem claim4_wrap_rule :
    (∀ (input named name : List Char) (rest : List Token) (v : Value),
      gbln_lex input = .ok (Token.lbrace :: rest) →
      gbln_lex named = .ok (Token.ident name :: Token.lbrace :: rest) →
      gbln_parse input = .ok v →
      (∃ fs, v = .vObj fs) ∧
      gbln_parse named = .ok (.vObj [(name, v)]) ∧
      gbln_object_get (.vObj [(name, v)]) name = some v) ∧
    (∀ (input named name : List Char) (rest : List Token) (v : Value),
      gbln_lex input = .ok (Token.lbracket :: rest) →
      gbln_lex named = .ok (Token.ident name :: Token.lbracket :: rest) →
      gbln_parse input = .ok v →
      (∃ es, v = .vArr es) ∧
      gbln_parse named = .ok (.vObj [(name, v)]) ∧
      gbln_object_get (.vObj [(name, v)]) name = some v) := by
  constructor
  · intro input named name rest v hlex1 hlex2 hparse
    have hdoc := gbln_parse_ok_inv hlex1 hparse
    simp only [parseDoc] at hdoc
    have h2 := bind_expectEnd_ok hdoc
    have hshape := parseF_shape _ _ _ v [] h2
    have h3 := parseF_mono _ _ _ v [] h2
      ((Token.ident name :: Token.lbrace :: rest).length + 1)
      (by simp only [List.length_cons]; omega)
    have hdoc2 : parseDoc (Token.ident name :: Token.lbrace :: rest) =
        .ok (.vObj [(name, v)]) := by
      simp only [parseDoc]
      rw [h3]
      rfl
    refine ⟨hshape, gbln_parse_of_lex hlex2 hdoc2, ?_⟩
    show lookupField [(name, v)] name = some v
    rw [lookupField, if_pos rfl]
  · intro input named name rest v hlex1 hlex2 hparse
    have hdoc := gbln_parse_ok_inv hlex1 hparse
    simp only [parseDoc] at hdoc
    have h2 := bind_expectEnd_ok hdoc
    have hshape := parseF_shape _ _ _ v [] h2
    have h3 := parseF_mono _ _ _ v [] h2
      ((Token.ident name :: Token.lbracket :: rest).length + 1)
      (by simp only [List.length_cons]; omega)
    have hdoc2 : parseDoc (Token.ident name :: Token.lbracket :: rest) =
        .ok (.vObj [(name, v)]) := by
      simp only [parseDoc]
      rw [h3]
      rfl
    refine ⟨hshape, gbln_parse_of_lex hlex2 hdoc2, ?_⟩
    show lookupField [(name, v)] name = some v
    rw [lookupField, if_pos rfl]

/-- C4, witness: the texts `{}` / `data{}` and `[]` / `data[]`. -/
theorem claim4_witness :
    ((∃ fs, Value.vObj [] = Value.vObj fs) ∧
     gbln_parse "data{}".toList = .ok (.vObj [("data".toList, .vObj [])]) ∧
     gbln_object_get (.vObj [("data".toList, .vObj [])]) "data".toList =
       some (.vObj [])) ∧
    ((∃ es, Value.vArr [] = Value.vArr es) ∧
     gbln_parse "data[]".toList = .ok (.vObj [("data".toList, .vArr [])]) ∧
     gbln_object_get (.vObj [("data".toList, .vArr [])]) "data".toList =
       some (.vArr [])) :=
  ⟨claim4_wrap_rule.1 "{}".toList "data{}".toList "data".toList [Token.rbrace]
     (.vObj []) rfl rfl rfl,
   claim4_wrap_rule.2 "[]".toList "data[]".toList "data".toList [Token.rbracket]
     (.vArr []) rfl rfl rfl⟩

/-- C6: untyped payload inference — boolean literals give booleans,
`-?[0-9]+` lexemes give signed integers on which `as_i64` succeeds,
decimal fractions give `f64`, everything else gives a string; and the
spec's four-field example parses accordingly. -/
theorem claim6_inference :
    (∀ l : List Char, l = ['t'] ∨ l = "true".toList → infer l = .ok (.vBool true)) ∧
    (∀ l : List Char, l = ['f'] ∨ l = "false".toList → infer l = .ok (.vBool false)) ∧
    (∀ (l : List Char) (v : Value), ¬(l = ['t'] ∨ l = "true".toList) →
      ¬(l = ['f'] ∨ l = "false".toList) → isIntLexeme l = true →
      infer l = .ok v → ∃ x, v = .vInt .i64 x ∧ gbln_value_as_i64 v = some x) ∧
    (∀ (l : List Char) (v : Value), ¬(l = ['t'] ∨ l = "true".toList) →
      ¬(l = ['f'] ∨ l = "false".toList) → isIntLexeme l = false →
      isFloatLexeme l = true → infer l = .ok v → ∃ n e, v = .vFloat .f64 n e) ∧
    (∀ (l : List Char) (v : Value), ¬(l = ['t'] ∨ l = "true".toList) →
      ¬(l = ['f'] ∨ l = "false".toList) → isIntLexeme l = false →
      isFloatLexeme l = false → infer l = .ok v → ∃ t, v = .vStr t l) ∧
    gbln_parse "{name(Alice)age(25)active(true)score(98.5)}".toList =
      .ok (.vObj [("name".toList, .vStr .s64 "Alice".toList),
        ("age".toList, .vInt .i64 25), ("active".toList, .vBool true),
        ("score".toList, .vFloat .f64 985 (-1))]) := by
  refine ⟨?_, ?_, ?_, ?_, ?_, rfl⟩
  · intro l h
    rcases h with rfl | rfl <;> rfl
  · intro l h
    rcases h with rfl | rfl <;> rfl
  · intro l v h1 h2 hint h
    have h1b : ¬(l = ['t'] ∨ l = ['t', 'r', 'u', 'e']) := h1
    have h2b : ¬(l = ['f'] ∨ l = ['f', 'a', 'l', 's', 'e']) := h2
    rw [infer, if_neg h1b, if_neg h2b, if_pos hint] at h
    rcases hx : intLexVal l with _ | x <;> simp only [coerce, hx] at h
    · exact Except.noConfusion h
    · split at h
      · obtain rfl := Except.ok.inj h
        exact ⟨x, rfl, rfl⟩
      · exact Except.noConfusion h
  · intro l v h1 h2 hint hflt h
    have h1b : ¬(l = ['t'] ∨ l = ['t', 'r', 'u', 'e']) := h1
    have h2b : ¬(l = ['f'] ∨ l = ['f', 'a', 'l', 's', 'e']) := h2
    rw [infer, if_neg h1b, if_neg h2b, hint] at h
    rw [if_neg Bool.false_ne_true, if_pos hflt] at h
    rcases hx : floatLexVal l with _ | q <;> simp only [coerce, hx] at h
    · exact Except.noConfusion h
    · obtain ⟨n, e⟩ := q
      obtain rfl := Except.ok.inj h
      exact ⟨n, e, rfl⟩
  · intro l v h1 h2 hint hflt h
    have h1b : ¬(l = ['t'] ∨ l = ['t', 'r', 'u', 'e']) := h1
    have h2b : ¬(l = ['f'] ∨ l = ['f', 'a', 'l', 's', 'e']) := h2
    rw [infer, if_neg h1b, if_neg h2b, hint] at h
    rw [if_neg Bool.false_ne_true, hflt] at h
    rw [if_neg Bool.false_ne_true] at h
    by_cases hl : l = []
    · rw [if_pos hl] at h
      obtain rfl := Except.ok.inj h
      exact ⟨.s8, by rw [hl]⟩
    · rw [if_neg hl] at h
      simp only [coerce] at h
      split at h
      · obtain rfl := Except.ok.inj h
        exact ⟨.s64, rfl⟩
      · exact Except.noConfusion h

/-- C7: a type-hinted array forces every element through the hint's
coercer in source order, and an element the hint rejects aborts the
whole parse with no value; with the spec's positive and negative
examples. -/
theorem claim7_typed_arrays (name : List Char) (tag : GblnTag)
    (lexs : List (List Char)) (hname : validIdent name = true)
    (hlexs : ∀ l ∈ lexs, validIdent l = true) :
    (∀ vs, coerceAll tag lexs = .ok vs →
      gbln_parse (compactRender (Token.lbrace :: Token.ident name :: Token.lt ::
        Token.ident tag.name :: Token.gt :: Token.lbracket ::
        (lexs.map Token.ident ++ [Token.rbracket, Token.rbrace]))) =
        .ok (.vObj [(name, .vArr vs)]) ∧
      List.Forall₂ (fun l v => coerce tag l = .ok v) lexs vs) ∧
    (∀ e, coerceAll tag lexs = .error e →
      gbln_parse_code (compactRender (Token.lbrace :: Token.ident name :: Token.lt ::
        Token.ident tag.name :: Token.gt :: Token.lbracket ::
        (lexs.map Token.ident ++ [Token.rbracket, Token.rbrace]))) =
        ((surfaceErr e).kind, none)) ∧
    gbln_parse "{tags<s16>[rust python golang]}".toList =
      .ok (.vObj [("tags".toList, .vArr [.vStr .s16 "rust".toList,
        .vStr .s16 "python".toList, .vStr .s16 "golang".toList])]) ∧
    gbln_parse_code "{ages<i8>[25 300]}".toList = (.errTypeMismatch, none) := by
  have htw : toksWf (Token.lbrace :: Token.ident name :: Token.lt ::
      Token.ident tag.name :: Token.gt :: Token.lbracket ::
      (lexs.map Token.ident ++ [Token.rbracket, Token.rbrace])) = true := by
    simp [toksWf, List.all_cons, List.all_append, tokenWf, hname, validIdent_tagName,
      all_ident_tokenWf hlexs]
  refine ⟨?_, ?_, rfl, rfl⟩
  · intro vs hca
    have hdoc : parseDoc (Token.lbrace :: Token.ident name :: Token.lt ::
        Token.ident tag.name :: Token.gt :: Token.lbracket ::
        (lexs.map Token.ident ++ [Token.rbracket, Token.rbrace])) =
        .ok (.vObj [(name, .vArr vs)]) := by
      simp only [parseDoc]
      rw [parseF_obj_typedarr_run ((Token.lbrace :: Token.ident name :: Token.lt ::
        Token.ident tag.name :: Token.gt :: Token.lbracket ::
        (lexs.map Token.ident ++ [Token.rbracket, Token.rbrace])).length + 1)
        name tag lexs vs hca
        (by simp only [List.length_cons, List.length_append, List.length_map,
          List.length_nil]; omega)]
      rfl
    exact ⟨gbln_parse_compactRender htw hdoc, coerceAll_forall₂ hca⟩
  · intro e herr
    have hdoc : parseDoc (Token.lbrace :: Token.ident name :: Token.lt ::
        Token.ident tag.name :: Token.gt :: Token.lbracket ::
        (lexs.map Token.ident ++ [Token.rbracket, Token.rbrace])) = .error e := by
      simp only [parseDoc]
      rw [parseF_obj_typedarr_err ((Token.lbrace :: Token.ident name :: Token.lt ::
        Token.ident tag.name :: Token.gt :: Token.lbracket ::
        (lexs.map Token.ident ++ [Token.rbracket, Token.rbrace])).length + 1)
        name tag lexs e herr
        (by simp only [List.length_cons, List.length_append, List.length_map,
          List.length_nil]; omega)]
      rfl
    have hp := gbln_parse_compactRender_err htw hdoc
    simp only [gbln_parse_code, hp]

/-- C7, witness: a one-element `i8` array that coerces, and one whose
element `999` the hint rejects. -/
theorem claim7_witness :
    (gbln_parse (compactRender (Token.lbrace :: Token.ident "xs".toList :: Token.lt ::
        Token.ident (GblnTag.gInt .i8).name :: Token.gt :: Token.lbracket ::
        (["1".toList].map Token.ident ++ [Token.rbracket, Token.rbrace]))) =
      .ok (.vObj [("xs".toList, .vArr [.vInt .i8 1])]) ∧
      List.Forall₂ (fun l v => coerce (.gInt .i8) l = .ok v)
        ["1".toList] [.vInt .i8 1]) ∧
    gbln_parse_code (compactRender (Token.lbrace :: Token.ident "xs".toList :: Token.lt ::
      Token.ident (GblnTag.gInt .i8).name :: Token.gt :: Token.lbracket ::
      (["999".toList].map Token.ident ++ [Token.rbracket, Token.rbrace]))) =
      (.errTypeMismatch, none) := by
  constructor
  · exact (claim7_typed_arrays "xs".toList (.gInt .i8) ["1".toList] (by decide)
      (by decide)).1 [.vInt .i8 1] rfl
  · have h := (claim7_typed_arrays "xs".toList (.gInt .i8) ["999".toList] (by decide)
      (by decide)).2.1 ⟨.errIntOutOfRange,
        "value 999 out of range for type i8".toList⟩ rfl
    exact h

end Gbln
